import Mathlib

/-!
# Joker value kernel and array-map: a shallow embedding

Embedding of `core/array_map.go`, of the value kinds of `core/object.go`
(equality, hash, metadata, calls, vars, strings, errors, comparators) and of the
dialect functions of `main.go`.

Conventions used throughout.

* A Go function that can fail at run time (index out of range, nil dereference)
  returns `Option`; `none` means the call does not return normally.  Loops are
  run with a budget taken from the slice length; a loop that exhausts its budget
  also gives `none`, and the theorems below show results of the form `some _`.
* Go slices are headers (`Slice`) over backing arrays stored in a `Heap`.  A cell
  of a backing array holds `none` for Go's nil interface value and `some x` for
  an object `x`.
* Interface methods (`Equals` of a stored key, `Merge` of a metadata map) are
  fields of a type class and may fail like any other call.
* The keys and values handed to a method are objects (not Go's nil).
* A struct that a method updates through its pointer receiver (`Set`, `Add`) is
  passed in and returned; a method that only reads its receiver (`Get`, `Assoc`,
  `Without`, ...) takes it and returns no new one.

The definitions come first: memory, `array_map.go`, the value kinds of
`object.go`, then the vocabulary of the statements (`Holds`, `Absent`, ...).
The lemmas and the theorems of the claims follow.
-/

namespace Joker

/-! ## Memory: slices over backing arrays -/

/-- Go interface `Equality`: `Equals(interface{}) bool`, the method the array-map
calls on a stored key.  The receiver and the argument are objects; `none` is a
call that fails at run time (as `Proc.Equals` does on a struct argument). -/
class Equality (α : Type) where
  /-- The interface method `Equals`. -/
  Equals : α → α → Option Bool

/-- A Go slice header: the backing array it points into, the offset of its first
element in that array, its length and its capacity. -/
structure Slice where
  /-- Identifier of the backing array. -/
  array : Nat
  /-- Offset of element 0 inside the backing array. -/
  off : Nat
  /-- Value of `len(s)`. -/
  len : Nat
  /-- Value of `cap(s)`. -/
  cap : Nat
deriving DecidableEq

/-- The backing arrays allocated so far, by identifier.  Allocation adds an array
at the end, so identifiers of live arrays never change. -/
abbrev Heap (α : Type) := List (List (Option α))

/-- Contents of backing array `id` (empty when there is no such array). -/
def Heap.arrayAt {α : Type} (h : Heap α) (id : Nat) : List (Option α) :=
  h.getD id []

/-- The elements `s[0], ..., s[len(s)-1]` of a slice. -/
def Heap.view {α : Type} (h : Heap α) (s : Slice) : List (Option α) :=
  ((h.arrayAt s.array).drop s.off).take s.len

/-- Go `s[i]` as an expression: fails when `i` is not below `len(s)`. -/
def Heap.index {α : Type} (h : Heap α) (s : Slice) (i : Nat) : Option (Option α) :=
  if i < s.len then (h.arrayAt s.array)[s.off + i]? else none

/-- Go `s[i] = v`: fails when `i` is not below `len(s)`. -/
def Heap.store {α : Type} (h : Heap α) (s : Slice) (i : Nat) (v : Option α) :
    Option (Heap α) :=
  if i < s.len then
    some (h.set s.array ((h.arrayAt s.array).set (s.off + i) v))
  else none

/-- Go `make([]Object, len, cap)`: a new backing array of `cap` nil cells; fails
when `len > cap`. -/
def Heap.make {α : Type} (h : Heap α) (len cap : Nat) : Option (Heap α × Slice) :=
  if len ≤ cap then
    some (h ++ [List.replicate cap none], ⟨h.length, 0, len, cap⟩)
  else none

/-- Go `copy(dst, src)`: the first `min(len(dst), len(src))` elements of `src`
are written over the start of `dst`. -/
def Heap.copy {α : Type} (h : Heap α) (dst src : Slice) : Heap α :=
  let vals := (h.view src).take dst.len
  let a := h.arrayAt dst.array
  h.set dst.array (a.take dst.off ++ vals ++ a.drop (dst.off + vals.length))

/-- Go `append(s, v)`.  With spare capacity the element is written in place
behind the last one; otherwise a new backing array is allocated, of a capacity
chosen by the run time (`grow`, never less than what is needed). -/
def Heap.append {α : Type} (grow : Nat → Nat) (h : Heap α) (s : Slice) (v : Option α) :
    Heap α × Slice :=
  if s.len < s.cap then
    (h.set s.array ((h.arrayAt s.array).set (s.off + s.len) v),
      { s with len := s.len + 1 })
  else
    let newcap := max (s.len + 1) (grow s.cap)
    (h ++ [h.view s ++ [v] ++ List.replicate (newcap - (s.len + 1)) none],
      ⟨h.length, 0, s.len + 1, newcap⟩)

/-- Go `s[:j]`: fails when `j` exceeds `cap(s)`. -/
def Slice.upTo (s : Slice) (j : Nat) : Option Slice :=
  if j ≤ s.cap then some { s with len := j } else none

/-! ## `core/array_map.go` -/

/-- Go struct `ArrayMap`.  The embedded `InfoHolder` and `MetaHolder` are not read
by any function of this section and are nil in every struct that `Clone` and
`Without` build; the field kept is `arr`. -/
structure ArrayMap where
  /-- The flat list of alternating key and value positions. -/
  arr : Slice
deriving DecidableEq

/-- Go struct `ArrayMapIterator`. -/
structure ArrayMapIterator where
  /-- The map iterated over. -/
  m : ArrayMap
  /-- Index of the next key. -/
  current : Nat
deriving DecidableEq

/-- Go struct `ArrayMapSeq` (the fields `m` and `index`). -/
structure ArrayMapSeq where
  /-- The map walked. -/
  m : ArrayMap
  /-- Index of the key of the first entry of the sequence. -/
  index : Nat
deriving DecidableEq

/-- Go struct `Pair`, as built by `ArrayMapIterator.Next`. -/
structure Pair (α : Type) where
  /-- Field `key`. -/
  key : Option α
  /-- Field `value`. -/
  value : Option α
deriving DecidableEq

/-- What the array-map code calls that is not in the two source files.

Modelled from the spec: the hash-map (`NewHashMap`, `HashMap.Assoc`) is absent
from the sources; section 4.4 says of it that "Assoc returns a new root", so both
yield a hash-map, here a value of the type `H`.  `NewHashMap` is given the
elements of the slice it is called with.  `growslice` is the capacity the Go run
time picks when `append` has to reallocate. -/
structure Extern (α H : Type) where
  /-- Capacity policy of `append`, from the old capacity. -/
  growslice : Nat → Nat
  /-- The constructor `NewHashMap(keyvals...)`. -/
  NewHashMap : List (Option α) → H
  /-- The method `HashMap.Assoc`. -/
  HashMapAssoc : H → α → α → H

/-- Go interface `Associative`, as far as `ArrayMap.Assoc` returns it: an
array-map or a hash-map. -/
inductive Associative (H : Type) where
  | arrayMap (m : ArrayMap)
  | hashMap (hm : H)
deriving DecidableEq

/-- Constant `HASHMAP_THRESHOLD`. -/
def HASHMAP_THRESHOLD : Nat := 16

/-- Function `EmptyArrayMap`: the struct with a nil slice, of length and capacity
0; no cell of it is ever read or written. -/
def EmptyArrayMap : ArrayMap := ⟨⟨0, 0, 0, 0⟩⟩

section ArrayMapCode

variable {α : Type} [Equality α]

/-- The loop of `ArrayMap.indexOf`, from index `i`, with a budget of iterations.
The call `m.arr[i].Equals(key)` fails when the cell is nil or `Equals` fails. -/
def ArrayMap.indexOfLoop (h : Heap α) (m : ArrayMap) (key : α) : Nat → Nat → Option Int
  | 0, i => if i < m.arr.len then none else some (-1)
  | fuel + 1, i =>
    if i < m.arr.len then
      match h.index m.arr i with
      | some (some k) =>
        match Equality.Equals k key with
        | none => none
        | some true => some (i : Int)
        | some false => ArrayMap.indexOfLoop h m key fuel (i + 2)
      | _ => none
    else some (-1)

/-- Method `ArrayMap.indexOf`: index of the first key position whose key `Equals`
the given one, or `-1`. -/
def ArrayMap.indexOf (h : Heap α) (m : ArrayMap) (key : α) : Option Int :=
  ArrayMap.indexOfLoop h m key m.arr.len 0

/-- Method `ArrayMap.Get`; the Go result `(false, nil)` is `(false, none)`. -/
def ArrayMap.Get (h : Heap α) (m : ArrayMap) (key : α) : Option (Bool × Option α) :=
  match ArrayMap.indexOf h m key with
  | none => none
  | some i =>
    if i != -1 then
      match h.index m.arr (i + 1).toNat with
      | some v => some (true, v)
      | none => none
    else some (false, none)

/-- Method `ArrayMap.Set`: updates the receiver in place; the receiver's new
struct is returned next to the new heap. -/
def ArrayMap.Set (grow : Nat → Nat) (h : Heap α) (m : ArrayMap) (key value : α) :
    Option (Heap α × ArrayMap) :=
  match ArrayMap.indexOf h m key with
  | none => none
  | some i =>
    if i != -1 then
      match h.store m.arr (i + 1).toNat (some value) with
      | some h1 => some (h1, m)
      | none => none
    else
      let r1 := h.append grow m.arr (some key)
      let r2 := r1.1.append grow r1.2 (some value)
      some (r2.1, ⟨r2.2⟩)

/-- Method `ArrayMap.Add`: like `Set` but leaves a key that is present alone. -/
def ArrayMap.Add (grow : Nat → Nat) (h : Heap α) (m : ArrayMap) (key value : α) :
    Option (Heap α × ArrayMap × Bool) :=
  match ArrayMap.indexOf h m key with
  | none => none
  | some i =>
    if i != -1 then some (h, m, false)
    else
      let r1 := h.append grow m.arr (some key)
      let r2 := r1.1.append grow r1.2 (some value)
      some (r2.1, ⟨r2.2⟩, true)

/-- Method `ArrayMap.Count`. -/
def ArrayMap.Count (m : ArrayMap) : Nat := m.arr.len / 2

/-- Method `ArrayMap.Clone`: a new struct over a new backing array of the same
length and capacity, filled by `copy`. -/
def ArrayMap.Clone (h : Heap α) (m : ArrayMap) : Option (Heap α × ArrayMap) :=
  match h.make m.arr.len m.arr.cap with
  | none => none
  | some (h1, s) => some (h1.copy s m.arr, ⟨s⟩)

/-- Method `ArrayMap.Assoc`. -/
def ArrayMap.Assoc {H : Type} (X : Extern α H) (h : Heap α) (m : ArrayMap) (key value : α) :
    Option (Heap α × Associative H) :=
  match ArrayMap.indexOf h m key with
  | none => none
  | some i =>
    if i != -1 then
      match ArrayMap.Clone h m with
      | none => none
      | some (h1, res) =>
        match h1.store res.arr (i + 1).toNat (some value) with
        | some h2 => some (h2, .arrayMap res)
        | none => none
    else if m.arr.len ≥ HASHMAP_THRESHOLD then
      some (h, .hashMap (X.HashMapAssoc (X.NewHashMap (h.view m.arr)) key value))
    else
      match ArrayMap.Clone h m with
      | none => none
      | some (h1, res) =>
        let r1 := h1.append X.growslice res.arr (some key)
        let r2 := r1.1.append X.growslice r1.2 (some value)
        some (r2.1, .arrayMap ⟨r2.2⟩)

/-- The loop of `ArrayMap.Without`: `i` runs over the key positions of `m`, `j` is
the next free position of `result`. -/
def ArrayMap.withoutLoop (m result : ArrayMap) (key : α) :
    Nat → Heap α → Nat → Nat → Option (Heap α × Nat × Nat)
  | 0, h, i, j => if i < m.arr.len then none else some (h, i, j)
  | fuel + 1, h, i, j =>
    if i < m.arr.len then
      match h.index m.arr i with
      | some (some k) =>
        match Equality.Equals k key with
        | none => none
        | some true => ArrayMap.withoutLoop m result key fuel h (i + 2) j
        | some false =>
          match h.store result.arr j (some k) with
          | none => none
          | some h1 =>
            match h1.index m.arr (i + 1) with
            | none => none
            | some v =>
              match h1.store result.arr (j + 1) v with
              | none => none
              | some h2 => ArrayMap.withoutLoop m result key fuel h2 (i + 2) (j + 2)
      | _ => none
    else some (h, i, j)

/-- Method `ArrayMap.Without`. -/
def ArrayMap.Without (h : Heap α) (m : ArrayMap) (key : α) : Option (Heap α × ArrayMap) :=
  match h.make m.arr.len m.arr.cap with
  | none => none
  | some (h1, s) =>
    match ArrayMap.withoutLoop m ⟨s⟩ key m.arr.len h1 0 0 with
    | none => none
    | some (h2, i, j) =>
      if i != j then
        match s.upTo j with
        | none => none
        | some s1 => some (h2, ⟨s1⟩)
      else some (h2, ⟨s⟩)

/-- Method `ArrayMap.Iter`. -/
def ArrayMap.Iter (m : ArrayMap) : ArrayMapIterator := ⟨m, 0⟩

/-- Method `ArrayMapIterator.HasNext`. -/
def ArrayMapIterator.HasNext (iter : ArrayMapIterator) : Bool :=
  iter.current < iter.m.arr.len

/-- Method `ArrayMapIterator.Next`: the pair at the cursor and the advanced
iterator. -/
def ArrayMapIterator.Next (h : Heap α) (iter : ArrayMapIterator) :
    Option (Pair α × ArrayMapIterator) :=
  match h.index iter.m.arr iter.current, h.index iter.m.arr (iter.current + 1) with
  | some k, some v => some (⟨k, v⟩, { iter with current := iter.current + 2 })
  | _, _ => none

/-- The loop of `ArrayMap.Merge`: every pair of the iterator is `Set` on `res`.  A
pair with a nil key or value is outside what `Set` takes here and ends the run. -/
def ArrayMap.mergeLoop (grow : Nat → Nat) :
    Nat → Heap α → ArrayMap → ArrayMapIterator → Option (Heap α × ArrayMap)
  | 0, h, res, iter => if iter.HasNext then none else some (h, res)
  | fuel + 1, h, res, iter =>
    if iter.HasNext then
      match ArrayMapIterator.Next h iter with
      | some (⟨some k, some v⟩, iter1) =>
        match ArrayMap.Set grow h res k v with
        | none => none
        | some (h1, res1) => ArrayMap.mergeLoop grow fuel h1 res1 iter1
      | _ => none
    else some (h, res)

/-- Method `ArrayMap.Merge`, for an argument that is an array-map. -/
def ArrayMap.Merge (grow : Nat → Nat) (h : Heap α) (m other : ArrayMap) :
    Option (Heap α × ArrayMap) :=
  if other.Count = 0 then some (h, m)
  else if m.Count = 0 then some (h, other)
  else
    match ArrayMap.Clone h m with
    | none => none
    | some (h1, res) => ArrayMap.mergeLoop grow other.arr.len h1 res other.Iter

/-- Method `ArrayMap.Seq`. -/
def ArrayMap.Seq (m : ArrayMap) : ArrayMapSeq := ⟨m, 0⟩

end ArrayMapCode

/-- What `ArrayMapSeq.First` returns.

Modelled from the spec: `NewVectorFrom` and the vector are absent from the
sources; `vector k v` is the two-element vector `[k v]` that
`NewVectorFrom(k, v)` builds, and `NIL` is the nil object. -/
inductive SeqItem (α : Type) where
  | NIL
  | vector (k v : Option α)
deriving DecidableEq

/-- Go interface `Seq`, as far as `ArrayMapSeq.Rest` returns it.

Modelled from the spec: the empty list is absent from the sources; section 4.6
says of it "the terminal sequence; First = nil, Rest = itself, IsEmpty = true". -/
inductive Seq where
  | arrayMapSeq (seq : ArrayMapSeq)
  | EmptyList
deriving DecidableEq

/-- Method `ArrayMapSeq.First`. -/
def ArrayMapSeq.First {α : Type} (h : Heap α) (seq : ArrayMapSeq) : Option (SeqItem α) :=
  if seq.index < seq.m.arr.len then
    match h.index seq.m.arr seq.index, h.index seq.m.arr (seq.index + 1) with
    | some k, some v => some (.vector k v)
    | _, _ => none
  else some .NIL

/-- Method `ArrayMapSeq.Rest`. -/
def ArrayMapSeq.Rest (seq : ArrayMapSeq) : Seq :=
  if seq.index < seq.m.arr.len then .arrayMapSeq ⟨seq.m, seq.index + 2⟩
  else .EmptyList

/-- Method `ArrayMapSeq.IsEmpty`. -/
def ArrayMapSeq.IsEmpty (seq : ArrayMapSeq) : Bool :=
  seq.index ≥ seq.m.arr.len

/-- Interface method `Seq.First`, by the kind of the sequence. -/
def Seq.First {α : Type} (h : Heap α) : Seq → Option (SeqItem α)
  | .arrayMapSeq seq => seq.First h
  | .EmptyList => some .NIL

/-- Interface method `Seq.Rest`, by the kind of the sequence. -/
def Seq.Rest : Seq → Seq
  | .arrayMapSeq seq => seq.Rest
  | .EmptyList => .EmptyList

/-- Interface method `Seq.IsEmpty`, by the kind of the sequence. -/
def Seq.IsEmpty : Seq → Bool
  | .arrayMapSeq seq => seq.IsEmpty
  | .EmptyList => true

/-- Walking a sequence: while it is not `IsEmpty`, take `First` and go on with
`Rest`; the items met, in order.  The budget bounds the number of steps. -/
def Seq.walk {α : Type} (h : Heap α) : Nat → Seq → Option (List (SeqItem α))
  | 0, s => if s.IsEmpty then some [] else none
  | fuel + 1, s =>
    if s.IsEmpty then some []
    else
      match s.First h with
      | none => none
      | some x =>
        match Seq.walk h fuel s.Rest with
        | none => none
        | some xs => some (x :: xs)

/-! ## `core/object.go`: equality, hash and metadata -/

/-- A machine address (`uintptr`); `0` is the nil pointer. -/
abbrev Ptr := Nat

/-- Go interface `Map`, as far as `SafeMerge` uses it: the method `Merge`.  A
value of `Option M` is an interface value (`none` for nil); the outer `Option` of
the result is a call that fails. -/
class Map (M : Type) where
  /-- The interface method `Merge`. -/
  Merge : M → Option M → Option (Option M)

/-- Function `SafeMerge` of `array_map.go`. -/
def SafeMerge {M : Type} [Map M] (m1 m2 : Option M) : Option (Option M) :=
  match m1 with
  | none => some m2
  | some a => Map.Merge a m2

/-- The 32-bit FNV-1a hash (`hash/fnv`, `New32a`) of a byte sequence. -/
def fnv1a (bytes : List Nat) : Nat :=
  bytes.foldl (fun acc b => ((acc ^^^ (b % 256)) * 16777619) % 2 ^ 32) 2166136261

/-- The 8 bytes of a 64-bit word, least significant first
(`binary.LittleEndian.PutUint64`). -/
def le64 (x : Nat) : List Nat :=
  (List.range 8).map (fun k => (x >>> (8 * k)) % 256)

/-- Function `hashPtr`, on a platform whose `uintptr` has 8 bytes. -/
def hashPtr (ptr : Ptr) : Nat := fnv1a (le64 ptr)

/-- Function `hashSymbol`: FNV-1a over the address of the name followed by the
address of the namespace. -/
def hashSymbol (ns name : Ptr) : Nat := fnv1a (le64 name ++ le64 ns)

/-- Go struct `Keyword`: interned namespace and name handles and the hash computed
at construction.  (`InfoHolder`, the source position, is left out of every struct
of this section: no function modelled here reads it.) -/
structure Keyword where
  /-- Handle of the namespace, nil when there is none. -/
  ns : Ptr
  /-- Handle of the name. -/
  name : Ptr
  /-- Field `hash`. -/
  hash : Nat
deriving DecidableEq

/-- Go struct `Symbol`. -/
structure Symbol (M : Type) where
  /-- Field `meta` of the embedded `MetaHolder`. -/
  meta : Option M
  /-- Handle of the namespace, nil when there is none. -/
  ns : Ptr
  /-- Handle of the name. -/
  name : Ptr
  /-- Field `hash`. -/
  hash : Nat
deriving DecidableEq

/-- A `*BigInt`: its address and the integer held there. -/
structure BigInt where
  /-- The pointer. -/
  ptr : Ptr
  /-- Field `b`. -/
  b : Int
deriving DecidableEq

/-- Library struct `big.Rat`: the numerator and the magnitude of the denominator.  A
magnitude is a slice of words without leading zeros and is told here by its value;
the empty slice, of value 0, stands for the denominator 1 (the zero value of the
struct is the number 0 with an empty denominator). -/
structure BigRat where
  /-- Field `a`, the numerator. -/
  a : Int
  /-- Field `b.abs`, the magnitude of the denominator as it is stored. -/
  b : Nat
deriving DecidableEq

/-- The denominator as the library reads it: 1 for the empty magnitude. -/
def BigRat.denom (x : BigRat) : Nat := if x.b = 0 then 1 else x.b

/-- Library method `(*big.Rat).Cmp`: the comparison of `x.a` scaled by the
denominator of `y` with `y.a` scaled by the denominator of `x`. -/
def BigRat.Cmp (x y : BigRat) : Int :=
  if x.a * (y.denom : Int) < y.a * (x.denom : Int) then -1
  else if x.a * (y.denom : Int) = y.a * (x.denom : Int) then 0
  else 1

/-- Library methods `(*big.Rat).SetInt` and `SetInt64` on a new `big.Rat`: the
integer over the denominator 1, which current releases store (older ones left it
empty; `Cmp`, the only reader here, takes both as 1). -/
def BigRat.SetInt (x : Int) : BigRat := ⟨x, 1⟩

/-- A `*Ratio`: its address and the rational held there. -/
structure Ratio where
  /-- The pointer. -/
  ptr : Ptr
  /-- Field `r`. -/
  r : BigRat
deriving DecidableEq

/-- A Go `float64`, told by its 64 bits (`math.Float64bits`): the sign bit, 11 bits of
exponent, 52 bits of fraction. -/
structure Float64 where
  /-- The bits. -/
  bits : Nat
deriving DecidableEq

/-- The sign bit of a `float64`. -/
def Float64.sign (x : Float64) : Bool := (x.bits / 2 ^ 63) % 2 == 1

/-- The exponent bits of a `float64`. -/
def Float64.exponent (x : Float64) : Nat := (x.bits / 2 ^ 52) % 2048

/-- The fraction bits of a `float64`. -/
def Float64.fraction (x : Float64) : Nat := x.bits % 2 ^ 52

/-- A NaN: all exponent bits set and some fraction bit set. -/
def Float64.isNaN (x : Float64) : Bool := x.exponent == 2047 && x.fraction != 0

/-- A zero of either sign. -/
def Float64.isZero (x : Float64) : Bool := x.exponent == 0 && x.fraction == 0

/-- Go `x == y` on `float64`: false when one of the two is a NaN, true on two zeros
whatever their signs, and otherwise the equality of sign, exponent and fraction. -/
def Float64.eq (x y : Float64) : Bool :=
  !x.isNaN && !y.isNaN &&
    ((x.isZero && y.isZero) ||
      (x.sign == y.sign && x.exponent == y.exponent && x.fraction == y.fraction))

/-- Field `form` of the library struct `big.Float`. -/
inductive FloatForm where
  | zero
  | finite
  | inf
deriving DecidableEq

/-- Library struct `big.Float`, the fields `Cmp` reads: the form, the sign, and for a
finite number other than zero its magnitude (mantissa and exponent, told by their
value).  Precision, rounding mode and accuracy are left out. -/
structure BigFloatNum where
  /-- Field `form`. -/
  form : FloatForm
  /-- Field `neg`. -/
  neg : Bool
  /-- The magnitude that `mant` and `exp` stand for. -/
  mag : Rat
deriving DecidableEq

/-- Library method `(*big.Float).ord`: -2 and 2 for the infinities, -1 and 1 for
the finite numbers other than zero, 0 for the zeros. -/
def BigFloatNum.ord (x : BigFloatNum) : Int :=
  match x.form with
  | .zero => 0
  | .finite => if x.neg then -1 else 1
  | .inf => if x.neg then -2 else 2

/-- Library method `(*big.Float).ucmp`: the comparison of two magnitudes. -/
def BigFloatNum.ucmp (x y : BigFloatNum) : Int :=
  if x.mag < y.mag then -1 else if y.mag < x.mag then 1 else 0

/-- Library method `(*big.Float).Cmp`. -/
def BigFloatNum.Cmp (x y : BigFloatNum) : Int :=
  if x.ord < y.ord then -1
  else if y.ord < x.ord then 1
  else if x.ord = -1 then y.ucmp x
  else if x.ord = 1 then x.ucmp y
  else 0

/-- Library function `big.NewFloat`: the exact value of a `float64`; it panics on a
NaN. -/
def NewFloat (x : Float64) : Option BigFloatNum :=
  if x.isNaN then none
  else if x.exponent = 2047 then some ⟨.inf, x.sign, 0⟩
  else if x.isZero then some ⟨.zero, x.sign, 0⟩
  else if x.exponent = 0 then some ⟨.finite, x.sign, (x.fraction : Rat) / 2 ^ 1074⟩
  else some ⟨.finite, x.sign, ((2 ^ 52 + x.fraction : Nat) : Rat) * 2 ^ x.exponent / 2 ^ 1075⟩

/-- A `*BigFloat`: its address and the number held there. -/
structure BigFloat where
  /-- The pointer. -/
  ptr : Ptr
  /-- Field `b`. -/
  b : BigFloatNum
deriving DecidableEq

/-- Go type `RecurBindings`, a slice of objects: its header. -/
structure RecurBindings where
  /-- Address of the first element. -/
  data : Ptr
  /-- Length. -/
  len : Nat
  /-- Capacity. -/
  cap : Nat
deriving DecidableEq

/-- The value kinds of `object.go`, as the dynamic type and value of a Go interface
value.  Kinds held by pointer (`*Fn`, `*Var`, `*Atom`, `*Delay`, `*Type`, `*ExInfo`)
carry the address; a `Proc` carries its code address. -/
inductive Object (M : Type) where
  | nil
  | bool (B : Bool)
  | char (ch : Int)
  | double (D : Float64)
  | int (I : Int)
  | bigInt (bi : BigInt)
  | bigFloat (bf : BigFloat)
  | ratio (rat : Ratio)
  | string (S : String)
  | keyword (k : Keyword)
  | symbol (s : Symbol M)
  | regex (R : Ptr)
  | fn (f : Ptr)
  | proc (p : Ptr)
  | var (v : Ptr)
  | atom (a : Ptr)
  | delay (d : Ptr)
  | typeTag (t : Ptr)
  | exInfo (e : Ptr)
  | recurBindings (rb : RecurBindings)
deriving DecidableEq

section ObjectCode

variable {M : Type}

/-- Method `Atom.Equals`: `a == other`. -/
def Atom.Equals (a : Ptr) : Object M → Bool
  | .atom other => a == other
  | _ => false

/-- Method `Delay.Equals`: `d == other`. -/
def Delay.Equals (d : Ptr) : Object M → Bool
  | .delay other => d == other
  | _ => false

/-- Method `Type.Equals`: `t == other`. -/
def Type.Equals (t : Ptr) : Object M → Bool
  | .typeTag other => t == other
  | _ => false

/-- Method `RecurBindings.Equals`. -/
def RecurBindings.Equals (_rb : RecurBindings) (_other : Object M) : Bool := false

/-- Method `ExInfo.Equals`: `exInfo == other`. -/
def ExInfo.Equals (exInfo : Ptr) : Object M → Bool
  | .exInfo other => exInfo == other
  | _ => false

/-- Method `Fn.Equals`. -/
def Fn.Equals (fn : Ptr) : Object M → Bool
  | .fn other => fn == other
  | _ => false

/-- Library function `reflect.ValueOf(x).Pointer()`: defined for the kinds func,
pointer and slice, a run-time failure for a struct. -/
def reflectPointer : Object M → Option Ptr
  | .proc p => some p
  | .fn p => some p
  | .var p => some p
  | .atom p => some p
  | .delay p => some p
  | .typeTag p => some p
  | .exInfo p => some p
  | .bigInt bi => some bi.ptr
  | .bigFloat bf => some bf.ptr
  | .ratio rat => some rat.ptr
  | .recurBindings rb => some rb.data
  | _ => none

/-- Method `Proc.Equals`. -/
def Proc.Equals (p : Ptr) (other : Object M) : Option Bool :=
  match reflectPointer other with
  | none => none
  | some q => some (p == q)

/-- Method `Var.Equals`: `v == other`. -/
def Var.Equals (v : Ptr) : Object M → Bool
  | .var other => v == other
  | _ => false

/-- Method `Nil.Equals`. -/
def Nil.Equals : Object M → Bool
  | .nil => true
  | _ => false

/-- Method `Ratio.Equals`. -/
def Ratio.Equals (rat : Ratio) (other : Object M) : Bool :=
  if (match other with | .ratio o => rat.ptr == o.ptr | _ => false) then true
  else
    match other with
    | .ratio r => rat.r.Cmp r.r == 0
    | .bigInt r => rat.r.Cmp (BigRat.SetInt r.b) == 0
    | .int I => rat.r.Cmp (BigRat.SetInt I) == 0
    | _ => false

/-- Method `BigInt.Equals`. -/
def BigInt.Equals (bi : BigInt) (other : Object M) : Bool :=
  if (match other with | .bigInt o => bi.ptr == o.ptr | _ => false) then true
  else
    match other with
    | .bigInt b => bi.b == b.b
    | .int I => bi.b == I
    | _ => false

/-- Method `BigFloat.Equals`; the call fails when `big.NewFloat` panics. -/
def BigFloat.Equals (bf : BigFloat) (other : Object M) : Option Bool :=
  if (match other with | .bigFloat o => bf.ptr == o.ptr | _ => false) then some true
  else
    match other with
    | .bigFloat b => some (bf.b.Cmp b.b == 0)
    | .double D =>
      match NewFloat D with
      | none => none
      | some bf2 => some (bf.b.Cmp bf2 == 0)
    | _ => some false

/-- Method `Char.Equals`. -/
def Char.Equals (ch : Int) : Object M → Bool
  | .char other => ch == other
  | _ => false

/-- Method `Double.Equals`. -/
def Double.Equals (D : Float64) : Object M → Bool
  | .double other => D.eq other
  | _ => false

/-- Method `Int.Equals`. -/
def Int.Equals (I : Int) : Object M → Bool
  | .int other => I == other
  | _ => false

/-- Method `Bool.Equals`. -/
def Bool.Equals (B : Bool) : Object M → Bool
  | .bool other => B == other
  | _ => false

/-- Method `Keyword.Equals`. -/
def Keyword.Equals (k : Keyword) : Object M → Bool
  | .keyword other => k.ns == other.ns && k.name == other.name
  | _ => false

/-- Method `Regex.Equals`. -/
def Regex.Equals (R : Ptr) : Object M → Bool
  | .regex other => R == other
  | _ => false

/-- Method `Symbol.Equals`. -/
def Symbol.Equals (s : Symbol M) : Object M → Bool
  | .symbol other => s.ns == other.ns && s.name == other.name
  | _ => false

/-- Method `String.Equals`. -/
def String.Equals (S : String) : Object M → Bool
  | .string other => S == other
  | _ => false

/-- The call `x.Equals(other)` on an interface value: the method of the dynamic
type of `x`. -/
def Object.Equals : Object M → Object M → Option Bool
  | .nil, o => some (Nil.Equals o)
  | .bool B, o => some (Bool.Equals B o)
  | .char ch, o => some (Char.Equals ch o)
  | .double D, o => some (Double.Equals D o)
  | .int I, o => some (Int.Equals I o)
  | .bigInt bi, o => some (BigInt.Equals bi o)
  | .bigFloat bf, o => BigFloat.Equals bf o
  | .ratio rat, o => some (Ratio.Equals rat o)
  | .string S, o => some (String.Equals S o)
  | .keyword k, o => some (Keyword.Equals k o)
  | .symbol s, o => some (Symbol.Equals s o)
  | .regex R, o => some (Regex.Equals R o)
  | .fn f, o => some (Fn.Equals f o)
  | .proc p, o => Proc.Equals p o
  | .var v, o => some (Var.Equals v o)
  | .atom a, o => some (Atom.Equals a o)
  | .delay d, o => some (Delay.Equals d o)
  | .typeTag t, o => some (Type.Equals t o)
  | .exInfo e, o => some (ExInfo.Equals e o)
  | .recurBindings rb, o => some (RecurBindings.Equals rb o)

instance : Equality (Object M) := ⟨Object.Equals⟩

/-- Method `Atom.Hash`. -/
def Atom.Hash (a : Ptr) : Nat := hashPtr a

/-- Method `Fn.Hash`. -/
def Fn.Hash (fn : Ptr) : Nat := hashPtr fn

/-- Method `Var.Hash`. -/
def Var.Hash (v : Ptr) : Nat := hashPtr v

/-- Method `Symbol.Hash`: `hashSymbol(s.ns, s.name) + 0x9e3779b9` in `uint32`. -/
def Symbol.Hash (s : Symbol M) : Nat := (hashSymbol s.ns s.name + 0x9e3779b9) % 2 ^ 32

/-- Go struct `Fn`; `fnExpr` and `env` are pointers. -/
structure Fn (M : Type) where
  /-- Field `meta` of the embedded `MetaHolder`. -/
  meta : Option M
  /-- Field `fnExpr`. -/
  fnExpr : Ptr
  /-- Field `env`. -/
  env : Ptr
deriving DecidableEq

/-- Go struct `Var`; `ns` is a pointer, `expr` the handle of an interface value. -/
structure Var (M : Type) where
  /-- Field `meta` of the embedded `MetaHolder`. -/
  meta : Option M
  /-- Field `ns`. -/
  ns : Ptr
  /-- Field `name`. -/
  name : Symbol M
  /-- Field `Value`, `none` when nil. -/
  Value : Option (Object M)
  /-- Field `expr`. -/
  expr : Ptr
  /-- Field `isMacro`. -/
  isMacro : Bool
deriving DecidableEq

/-- Go struct `Atom`. -/
structure Atom (M : Type) where
  /-- Field `meta` of the embedded `MetaHolder`. -/
  meta : Option M
  /-- Field `value`, `none` when nil. -/
  value : Option (Object M)
deriving DecidableEq

/-- The structs of one type that live in memory, by address. -/
abbrev Cells (β : Type) := List (Ptr × β)

/-- Go `*p`: the struct at an address; fails on nil or on an address that holds
none. -/
def Cells.deref {β : Type} (mem : Cells β) (p : Ptr) : Option β :=
  if p = 0 then none else mem.lookup p

/-- Go `&res` for a local `res` that escapes: the struct is placed at the address
`fresh` the allocator hands out. -/
def Cells.alloc {β : Type} (mem : Cells β) (fresh : Ptr) (v : β) : Cells β :=
  (fresh, v) :: mem

/-- An address the allocator may hand out: not nil and not in use. -/
def Cells.Free {β : Type} (mem : Cells β) (fresh : Ptr) : Prop :=
  fresh ≠ 0 ∧ ∀ c ∈ mem, c.1 ≠ fresh

variable [Map M]

/-- Method `Atom.WithMeta`: a copy of the struct with merged metadata, at a new
address. -/
def Atom.WithMeta (mem : Cells (Atom M)) (a : Ptr) (meta : Option M) (fresh : Ptr) :
    Option (Cells (Atom M) × Object M) :=
  match mem.deref a with
  | none => none
  | some res =>
    match SafeMerge res.meta meta with
    | none => none
    | some mm => some (mem.alloc fresh { res with meta := mm }, .atom fresh)

/-- Method `Fn.WithMeta`: a copy of the struct with merged metadata, at a new
address. -/
def Fn.WithMeta (mem : Cells (Fn M)) (fn : Ptr) (meta : Option M) (fresh : Ptr) :
    Option (Cells (Fn M) × Object M) :=
  match mem.deref fn with
  | none => none
  | some res =>
    match SafeMerge res.meta meta with
    | none => none
    | some mm => some (mem.alloc fresh { res with meta := mm }, .fn fresh)

/-- Method `Symbol.WithMeta`: the symbol is a value; the copy differs in `meta`. -/
def Symbol.WithMeta (sym : Symbol M) (meta : Option M) : Option (Object M) :=
  match SafeMerge sym.meta meta with
  | none => none
  | some mm => some (.symbol { sym with meta := mm })

/-- Method `Var.WithMeta`: a copy of the struct with merged metadata, at a new
address. -/
def Var.WithMeta (mem : Cells (Var M)) (v : Ptr) (meta : Option M) (fresh : Ptr) :
    Option (Cells (Var M) × Object M) :=
  match mem.deref v with
  | none => none
  | some res =>
    match SafeMerge res.meta meta with
    | none => none
    | some mm => some (mem.alloc fresh { res with meta := mm }, .var fresh)

end ObjectCode

/-! ## Vocabulary of the statements -/

section Vocabulary

variable {α : Type} [Equality α]

/-- The cells of an array-map that holds the given key/value pairs, in order:
key, value, key, value, ... -/
def flat : List (α × α) → List (Option α)
  | [] => []
  | p :: ps => some p.1 :: some p.2 :: flat ps

/-- A slice header that fits the heap: the length is within the capacity and the
capacity within the backing array. -/
def Slice.Valid (h : Heap α) (s : Slice) : Prop :=
  s.len ≤ s.cap ∧ s.off + s.cap ≤ (h.arrayAt s.array).length

/-- In heap `h` the array-map `m` is well formed and holds exactly the pairs `ps`,
in this order ("a flat list of alternating key/value positions"). -/
def ArrayMap.Holds (h : Heap α) (m : ArrayMap) (ps : List (α × α)) : Prop :=
  m.arr.Valid h ∧ h.view m.arr = flat ps

/-- The key is not present: every stored key answers `false` to `Equals(key)`. -/
def Absent (ps : List (α × α)) (key : α) : Prop :=
  ∀ p ∈ ps, Equality.Equals p.1 key = some false

/-- The key is present and pair number `n` is the first whose key answers `true`
to `Equals(key)`. -/
def FirstAt (ps : List (α × α)) (key : α) (n : Nat) : Prop :=
  ∃ p, ps[n]? = some p ∧ Equality.Equals p.1 key = some true ∧
    ∀ q ∈ ps.take n, Equality.Equals q.1 key = some false

/-- Every stored key answers `Equals(key)` (no comparison fails). -/
def Answers (ps : List (α × α)) (key : α) : Prop :=
  ∀ p ∈ ps, Equality.Equals p.1 key ≠ none

/-- The search of `indexOf` told on the list of pairs, from pair number `n` on:
the slice index of the first pair whose key answers `true`, `-1` when all answer
`false`, a failure when a comparison fails before that. -/
def scan (key : α) : List (α × α) → Nat → Option Int
  | [], _ => some (-1)
  | p :: ps, n =>
    match Equality.Equals p.1 key with
    | none => none
    | some true => some (2 * (n : Int))
    | some false => scan key ps (n + 1)

/-- The filtering of `Without` told on the list of pairs: the pairs whose key
answers `false`, a failure when some comparison fails. -/
def keptOpt (key : α) : List (α × α) → Option (List (α × α))
  | [] => some []
  | p :: ps =>
    match Equality.Equals p.1 key with
    | none => none
    | some true => keptOpt key ps
    | some false =>
      match keptOpt key ps with
      | none => none
      | some ks => some (p :: ks)

/-- The heap `h0` followed by one more backing array of `cap` cells, of which the
first ones hold `cells` and the others are still nil: the state of memory while
`Without` fills its result. -/
def withResult (h0 : Heap α) (cap : Nat) (cells : List (Option α)) : Heap α :=
  h0 ++ [cells ++ List.replicate (cap - cells.length) none]

/-- The lookup of `Get` told on the list of pairs: the value of the first pair
whose key answers `true`. -/
def lookup (key : α) : List (α × α) → Option (Bool × Option α)
  | [] => some (false, none)
  | p :: ps =>
    match Equality.Equals p.1 key with
    | none => none
    | some true => some (true, some p.2)
    | some false => lookup key ps

/-- On the listed objects `Equals` always answers and is reflexive, symmetric and
transitive. -/
def EquivOn (S : List α) : Prop :=
  (∀ a ∈ S, ∀ b ∈ S, Equality.Equals a b ≠ none) ∧
  (∀ a ∈ S, Equality.Equals a a = some true) ∧
  (∀ a ∈ S, ∀ b ∈ S, Equality.Equals a b = some true → Equality.Equals b a = some true) ∧
  (∀ a ∈ S, ∀ b ∈ S, ∀ c ∈ S, Equality.Equals a b = some true →
    Equality.Equals b c = some true → Equality.Equals a c = some true)

/-- The array-maps obtained from `EmptyArrayMap()` by `Assoc` calls whose result is
an array-map and by `Without` calls, each with the heap in which it lives.  Between
two calls the heap may gain further arrays. -/
inductive Reachable {H : Type} (X : Extern α H) : Heap α → ArrayMap → Prop where
  | empty (h : Heap α) : Reachable X h EmptyArrayMap
  | later {h h2 : Heap α} {m : ArrayMap} :
      Reachable X h m → h <+: h2 → Reachable X h2 m
  | assoc {h h2 : Heap α} {m r : ArrayMap} (key value : α) :
      Reachable X h m → ArrayMap.Assoc X h m key value = some (h2, .arrayMap r) →
      Reachable X h2 r
  | without {h h2 : Heap α} {m r : ArrayMap} (key : α) :
      Reachable X h m → ArrayMap.Without h m key = some (h2, r) → Reachable X h2 r

/-- The item that walking a sequence yields for a pair: the vector `[key value]`. -/
def entry (p : α × α) : SeqItem α := .vector (some p.1) (some p.2)

end Vocabulary

/-! ## Sample data for the worked instances -/

/-- Objects without metadata maps. -/
abbrev Obj := Object Unit

/-- A one-point stand-in for the metadata maps: merging always gives the point. -/
instance : Map Unit := ⟨fun _ _ => some (some ())⟩

/-- A stand-in for the hash-map: the list of cells it was built from; `append`
doubles the capacity. -/
def sampleExtern : Extern Obj (List (Option Obj)) :=
  ⟨fun c => 2 * c, fun cells => cells, fun hm k v => hm ++ [some k, some v]⟩

/-- The pairs `(lo, 0), (lo + 1, 0), ...`, `n` of them, with integer keys. -/
def intPairs (lo n : Nat) : List (Obj × Obj) :=
  (List.range n).map (fun i => (Object.int ((lo + i : Nat) : Int), Object.int 0))

/-- An array-map over backing array `id`, full to its capacity of `cells` cells. -/
def fullMap (id cells : Nat) : ArrayMap := ⟨⟨id, 0, cells, cells⟩⟩

/-! ## `core/object.go`: the hashes of numbers -/

/-- Bytes of a natural number, most significant first, without leading zeros, as
`math/big` stores a magnitude when it encodes; the budget bounds the length. -/
def beBytesLoop : Nat → Nat → List Nat
  | 0, _ => []
  | fuel + 1, n => if n = 0 then [] else beBytesLoop fuel (n / 256) ++ [n % 256]

/-- Bytes of a natural number, most significant first, without leading zeros. -/
def beBytes (n : Nat) : List Nat := beBytesLoop n n

/-- The 4 bytes of a 32-bit word, most significant first
(`binary.BigEndian.PutUint32`). -/
def be32 (n : Nat) : List Nat :=
  [(n >>> 24) % 256, (n >>> 16) % 256, (n >>> 8) % 256, n % 256]

/-- Library method `(*big.Int).GobEncode`: a byte holding the version 1 shifted left
once and the sign bit, then the magnitude. -/
def bigIntGobEncode (b : Int) : List Nat :=
  (2 + (if b < 0 then 1 else 0)) :: beBytes b.natAbs

/-- Library method `(*big.Rat).GobEncode`: a byte holding the version 1 shifted left
once and the sign bit, the byte length of the numerator in 4 bytes, the magnitude of
the numerator, the magnitude of the denominator as it is stored (no byte for an
empty one).  It fails when the length of the numerator does not fit 32 bits. -/
def ratGobEncode (x : BigRat) : Option (List Nat) :=
  let num := beBytes x.a.natAbs
  let den := beBytes x.b
  if num.length < 2 ^ 32 then
    some ((2 + (if x.a < 0 then 1 else 0)) :: (be32 num.length ++ num ++ den))
  else none

/-- Function `hashGobEncoder`: FNV-1a over the bytes of `GobEncode`; a failure of
the encoder is raised as an error. -/
def hashGobEncoder (encoded : Option (List Nat)) : Option Nat :=
  match encoded with
  | none => none
  | some b => some (fnv1a b)

/-- Method `Int.Hash`: FNV-1a over the 8 little-endian bytes of `uint64(i.I)`. -/
def Int.Hash (I : Int) : Nat := fnv1a (le64 (I % 2 ^ 64).toNat)

/-- Method `BigInt.Hash`. -/
def BigInt.Hash (bi : BigInt) : Option Nat := hashGobEncoder (some (bigIntGobEncode bi.b))

/-- Method `Ratio.Hash`. -/
def Ratio.Hash (rat : Ratio) : Option Nat :=
  hashGobEncoder (ratGobEncode rat.r)

/-! ## `core/object.go`: symbols and keywords from strings -/

section NamesCode

variable {M : Type}

/-- The string-intern table behind `STRINGS.Intern`, which is not among the sources,
as two functions: `Intern` gives the handle of a content (the one it has, or the one
it gets at its first interning), `deref` the content behind a handle (Go `*p` on a
string handle). -/
structure InternTable where
  /-- The call `STRINGS.Intern(s)`. -/
  Intern : String → Ptr
  /-- The content behind a handle. -/
  deref : Ptr → Option String

/-- Go `*p` on a string handle: fails on nil. -/
def InternTable.load (T : InternTable) (p : Ptr) : Option String :=
  if p = 0 then none else T.deref p

/-- Library function `strings.IndexRune` from position `k` on: the position of the
first occurrence, -1 when there is none. -/
def indexRuneFrom (r : Char) : List Char → Nat → Int
  | [], _ => -1
  | c :: cs, k => if c = r then (k : Int) else indexRuneFrom r cs (k + 1)

/-- Library function `strings.IndexRune`.  Positions count characters; the only
character looked for here is the slash, one byte of UTF-8 that is never part of a
longer character, so the text before and after the position is the same as with
byte positions. -/
def IndexRune (s : String) (r : Char) : Int := indexRuneFrom r s.data 0

/-- Go `s[lo:hi]`. -/
def substr (s : String) (lo hi : Nat) : String := ⟨(s.data.take hi).drop lo⟩

/-- Function `MakeSymbol`. -/
def MakeSymbol (T : InternTable) (nsname : String) : Symbol M :=
  let index := IndexRune nsname '/'
  if index = -1 ∨ nsname = "/" then
    { meta := none, ns := 0, name := T.Intern nsname, hash := 0 }
  else
    { meta := none,
      ns := T.Intern (substr nsname 0 index.toNat),
      name := T.Intern (substr nsname (index.toNat + 1) nsname.length),
      hash := 0 }

/-- Function `MakeKeyword`. -/
def MakeKeyword (T : InternTable) (nsname : String) : Keyword :=
  let index := IndexRune nsname '/'
  if index = -1 ∨ nsname = "/" then
    let name := T.Intern nsname
    { ns := 0, name := name, hash := hashSymbol 0 name }
  else
    let ns := T.Intern (substr nsname 0 index.toNat)
    let name := T.Intern (substr nsname (index.toNat + 1) nsname.length)
    { ns := ns, name := name, hash := hashSymbol ns name }

/-- Method `Symbol.ToString`; fails when a handle holds no string. -/
def Symbol.ToString (T : InternTable) (s : Symbol M) (_escape : Bool) : Option String :=
  if s.ns ≠ 0 then
    match T.load s.ns, T.load s.name with
    | some ns, some name => some (ns ++ "/" ++ name)
    | _, _ => none
  else T.load s.name

/-- Method `Keyword.Name`. -/
def Keyword.Name (T : InternTable) (k : Keyword) : Option String :=
  if k.ns ≠ 0 then
    match T.load k.ns, T.load k.name with
    | some ns, some name => some (ns ++ "/" ++ name)
    | _, _ => none
  else T.load k.name

/-- Method `Keyword.ToString`. -/
def Keyword.ToString (T : InternTable) (k : Keyword) (_escape : Bool) : Option String :=
  match Keyword.Name T k with
  | some name => some (":" ++ name)
  | none => none

end NamesCode

/-- A sound intern table: every handle it gives is a non-nil address that holds
the content it was asked for. -/
def InternTable.Sound (T : InternTable) : Prop :=
  ∀ s : String, T.Intern s ≠ 0 ∧ T.deref (T.Intern s) = some s

/-- An intern table for the worked instances: the handle of a string is one more
than the code of its list of characters. -/
def sampleStrings : InternTable where
  Intern := fun s => Encodable.encode (s.data.map Char.toNat) + 1
  deref := fun p =>
    match p with
    | 0 => none
    | q + 1 =>
      match (Encodable.decode q : Option (List Nat)) with
      | some l => some ⟨l.map Char.ofNat⟩
      | none => none

/-- The namespace and name a string is cut into: the text before and after its
first slash; a string without a slash, and the string that is one slash, are a name
without namespace. -/
def nameParts (s : String) : Option String × String :=
  match s.data.dropWhile (fun c => c != '/') with
  | [] => (none, s)
  | _ :: post =>
    if s = "/" then (none, s) else (some ⟨s.data.takeWhile (fun c => c != '/')⟩, ⟨post⟩)

/-! ## `core/object.go`: calling a function value -/

/-- How a call ends: it returns a value, it raises an error of the runtime
(`panic(RT.NewError(msg))`), or the Go run time stops it (nil dereference, index out
of range, failed type assertion). -/
inductive Outcome (V : Type) where
  /-- The call returns. -/
  | value (v : V)
  /-- The call raises the evaluation error with this message. -/
  | error (msg : String)
  /-- The Go run time panics. -/
  | crash
deriving DecidableEq

/-- Go struct `FnArityExpr`, the fields `Fn.Call` reads: the parameters and the
body (`B` is the type of bodies, lists of expressions). -/
structure FnArityExpr (M B : Type) where
  /-- Field `args`: the parameters, for a variadic arity including the rest
  parameter. -/
  args : List (Symbol M)
  /-- Field `body`. -/
  body : B

/-- Go struct `FnExpr`, the fields `Fn.Call` reads. -/
structure FnExpr (M B : Type) where
  /-- Field `arities`. -/
  arities : List (FnArityExpr M B)
  /-- Field `variadic`, `none` when nil. -/
  variadic : Option (FnArityExpr M B)

/-- Go struct `ArraySeq`, as the literal in `Fn.Call` fills it. -/
structure ArraySeq (V : Type) where
  /-- Field `arr`. -/
  arr : List V
  /-- Field `index`. -/
  index : Int
deriving DecidableEq

/-- Modelled from the spec: the methods of `ArraySeq` are not among the sources; the
sequence yields the elements of `arr` from position `index` on (the remaining
arguments of a variadic call). -/
def ArraySeq.elements {V : Type} (s : ArraySeq V) : List V := s.arr.drop s.index.toNat

/-- What `Fn.Call` and `panicArity` call outside the sources: the runtime `RT`, a
state of type `R`, with its stack of call frames and its current expression, the
evaluator, the local environments, and the two values built for a rest parameter. -/
structure Evaluator (R B Env V : Type) where
  /-- The call `RT.pushFrame()`. -/
  pushFrame : R → R
  /-- The call `RT.popFrame()`. -/
  popFrame : R → R
  /-- The expression `RT.currentExpr.(Traceable).Name()`; fails when the current
  expression is not traceable. -/
  traceName : R → Option String
  /-- The call `env.addFrame(values)` on the environment at an address. -/
  addFrame : Ptr → List (Option V) → Env
  /-- The call `evalLoop(body, env)`, from a state to an outcome and a state. -/
  evalLoop : B → Env → R → Outcome V × R
  /-- The value `NIL`. -/
  NIL : V
  /-- A pointer to a new `ArraySeq` as an object. -/
  ofArraySeq : ArraySeq V → V

section CallCode

variable {M R B Env V : Type}

/-- Function `panicArity`. -/
def panicArity (X : Evaluator R B Env V) (rt : R) (n : Nat) : Outcome V × R :=
  match X.traceName rt with
  | none => (.crash, rt)
  | some name => (.error ("Wrong number of args (" ++ toString n ++ ") passed to " ++ name), rt)

/-- The statements `RT.pushFrame(); defer RT.popFrame(); return evalLoop(body,
fn.env.addFrame(values))` that end both branches of `Fn.Call`: the frame is popped
however the evaluation ends. -/
def Fn.evalBody (X : Evaluator R B Env V) (fn : Fn M) (body : B)
    (values : List (Option V)) (rt : R) : Outcome V × R :=
  let r := X.evalLoop body (X.addFrame fn.env values) (X.pushFrame rt)
  (r.1, X.popFrame r.2)

/-- The loop `for i := 0; i < len(vargs)-1; i++ { vargs[i] = args[i] }` of
`Fn.Call`, from `i` on; fails when `args[i]` is out of range or the budget of
iterations runs out. -/
def Fn.copyArgs (args : List V) : Nat → Nat → List (Option V) → Option (List (Option V))
  | 0, _, _ => none
  | fuel + 1, i, vargs =>
    if (i : Int) < (vargs.length : Int) - 1 then
      match args[i]? with
      | none => none
      | some a => Fn.copyArgs args fuel (i + 1) (vargs.set i (some a))
    else some vargs

/-- The values `Fn.Call` binds for a variadic arity of `p` parameters: `restArgs`,
`make([]Object, p)`, the copying loop and `vargs[len(vargs)-1] = restArgs`. -/
def Fn.variadicFrame (X : Evaluator R B Env V) (p : Nat) (args : List V) :
    Option (List (Option V)) :=
  let restArgs :=
    if (p : Int) - 1 < (args.length : Int) then X.ofArraySeq ⟨args, (p : Int) - 1⟩ else X.NIL
  match Fn.copyArgs args (p + 1) 0 (List.replicate p none) with
  | none => none
  | some vargs =>
    if vargs.length = 0 then none else some (vargs.set (vargs.length - 1) (some restArgs))

/-- Method `Fn.Call`; `exprs` holds the function expressions by address. -/
def Fn.Call (X : Evaluator R B Env V) (exprs : Cells (FnExpr M B)) (fn : Fn M)
    (args : List V) (rt : R) : Outcome V × R :=
  match exprs.deref fn.fnExpr with
  | none => (.crash, rt)
  | some fnExpr =>
    match fnExpr.arities.find? (fun arity => arity.args.length == args.length) with
    | some arity => Fn.evalBody X fn arity.body (args.map some) rt
    | none =>
      match fnExpr.variadic with
      | none => panicArity X rt args.length
      | some v =>
        if (args.length : Int) < (v.args.length : Int) - 1 then panicArity X rt args.length
        else
          match Fn.variadicFrame X v.args.length args with
          | none => (.crash, rt)
          | some vargs => Fn.evalBody X fn v.body vargs rt

end CallCode

/-- No arity of the function expression takes `n` arguments: no fixed arity has
exactly `n` parameters, and there is no variadic arity or `n` is less than the
number of its parameters minus one. -/
def FnExpr.noArityFor {M B : Type} (fnExpr : FnExpr M B) (n : Nat) : Prop :=
  (∀ a ∈ fnExpr.arities, a.args.length ≠ n) ∧
  (fnExpr.variadic = none ∨
    ∃ v, fnExpr.variadic = some v ∧ (n : Int) < (v.args.length : Int) - 1)

/-- An evaluator for the worked instances: the state is the stack of frames, a
frame pushed is the name "f", the current expression is named "foo", an
environment is the list of values bound last, a body is a number and evaluates to
it. -/
def sampleEvaluator : Evaluator (List String) Int (List (Option Obj)) Obj where
  pushFrame := fun r => "f" :: r
  popFrame := fun r => r.tail
  traceName := fun _ => some "foo"
  addFrame := fun _ values => values
  evalLoop := fun body _ r => (.value (.int body), r)
  NIL := .nil
  ofArraySeq := fun s => .int s.index

/-- A parameter list of the worked instances. -/
def sampleParams (n : Nat) : List (Symbol Unit) :=
  (List.range n).map (fun k => ⟨none, 0, 4096 + k, 0⟩)

/-- Function expressions of the worked instances: at 64 one arity of 2 parameters,
at 128 an arity of 2 parameters and a variadic arity of 4. -/
def sampleFnExprs : Cells (FnExpr Unit Int) :=
  [(64, ⟨[⟨sampleParams 2, 20⟩], none⟩),
   (128, ⟨[⟨sampleParams 2, 20⟩], some ⟨sampleParams 4, 40⟩⟩)]

/-! ## `core/object.go`: type tags and `IsInstance` -/

/-- The kinds of `reflect.Kind` that the registered types have. -/
inductive ReflectKind where
  | Interface
  | Ptr
  | Struct
  | Func
  | Slice
deriving DecidableEq

/-- A `reflect.Type`: a named type with the kind of its underlying type, or the
type of pointers to a type.  Two are the same type when they are equal. -/
inductive ReflectType where
  | named (name : String) (kind : ReflectKind)
  | ptr (elem : ReflectType)
deriving DecidableEq

/-- Library method `reflect.Type.Kind`. -/
def ReflectType.Kind : ReflectType → ReflectKind
  | .named _ kind => kind
  | .ptr _ => .Ptr

/-- Library method `reflect.Type.Elem` on the types met here: it panics on a type
that is not a pointer type. -/
def ReflectType.Elem : ReflectType → Option ReflectType
  | .named _ _ => none
  | .ptr elem => some elem

/-- The expression `reflect.TypeOf((*T)(nil))` for a type `T` of this package. -/
def typeOfNilPtr (name : String) (kind : ReflectKind) : ReflectType :=
  .ptr (.named name kind)

/-- Go struct `Type`. -/
structure TypeTag where
  /-- Field `name`. -/
  name : String
  /-- Field `reflectType`. -/
  reflectType : ReflectType
deriving DecidableEq

/-- The map `TYPES`, the binding of a key written last coming first. -/
abbrev TypeRegistry := List (String × TypeTag)

/-- Function `regRefType`. -/
def regRefType (name : String) (inst : ReflectType) (types : TypeRegistry) :
    Option TypeRegistry :=
  some ((name, ⟨name, inst⟩) :: types)

/-- Function `regType`. -/
def regType (name : String) (inst : ReflectType) (types : TypeRegistry) :
    Option TypeRegistry :=
  match inst.Elem with
  | none => none
  | some elem => some ((name, ⟨name, elem⟩) :: types)

/-- Function `regInterface`. -/
def regInterface (name : String) (inst : ReflectType) (types : TypeRegistry) :
    Option TypeRegistry :=
  match inst.Elem with
  | none => none
  | some elem => some ((name, ⟨name, elem⟩) :: types)

/-- The calls of function `init`, in order.  `Proc` is a function type and
`RecurBindings` a slice type; the other types registered by `regRefType` and
`regType` are structs (those declared outside the sources are taken as structs:
only pointers to them are registered). -/
def initCalls : List (TypeRegistry → Option TypeRegistry) :=
  [regInterface "Associative" (typeOfNilPtr "Associative" .Interface),
   regInterface "Callable" (typeOfNilPtr "Callable" .Interface),
   regInterface "Collection" (typeOfNilPtr "Collection" .Interface),
   regInterface "Comparable" (typeOfNilPtr "Comparable" .Interface),
   regInterface "Comparator" (typeOfNilPtr "Comparator" .Interface),
   regInterface "Counted" (typeOfNilPtr "Counted" .Interface),
   regInterface "Error" (typeOfNilPtr "Error" .Interface),
   regInterface "Indexed" (typeOfNilPtr "Indexed" .Interface),
   regInterface "IOReader" (typeOfNilPtr "io.Reader" .Interface),
   regInterface "KVReduce" (typeOfNilPtr "KVReduce" .Interface),
   regInterface "Map" (typeOfNilPtr "Map" .Interface),
   regInterface "Named" (typeOfNilPtr "Named" .Interface),
   regInterface "Number" (typeOfNilPtr "Number" .Interface),
   regInterface "Pending" (typeOfNilPtr "Pending" .Interface),
   regInterface "Ref" (typeOfNilPtr "Ref" .Interface),
   regInterface "Reversible" (typeOfNilPtr "Reversible" .Interface),
   regInterface "Seq" (typeOfNilPtr "Seq" .Interface),
   regInterface "Seqable" (typeOfNilPtr "Seqable" .Interface),
   regInterface "Sequential" (typeOfNilPtr "Sequential" .Interface),
   regInterface "Set" (typeOfNilPtr "Set" .Interface),
   regInterface "Stack" (typeOfNilPtr "Stack" .Interface),
   regRefType "ArrayMap" (typeOfNilPtr "ArrayMap" .Struct),
   regRefType "ArrayMapSeq" (typeOfNilPtr "ArrayMapSeq" .Struct),
   regRefType "ArrayNodeSeq" (typeOfNilPtr "ArrayNodeSeq" .Struct),
   regRefType "ArraySeq" (typeOfNilPtr "ArraySeq" .Struct),
   regRefType "MapSet" (typeOfNilPtr "MapSet" .Struct),
   regRefType "Atom" (typeOfNilPtr "Atom" .Struct),
   regRefType "BigFloat" (typeOfNilPtr "BigFloat" .Struct),
   regRefType "BigInt" (typeOfNilPtr "BigInt" .Struct),
   regType "Bool" (typeOfNilPtr "Bool" .Struct),
   regRefType "Buffer" (typeOfNilPtr "Buffer" .Struct),
   regType "Char" (typeOfNilPtr "Char" .Struct),
   regRefType "ConsSeq" (typeOfNilPtr "ConsSeq" .Struct),
   regRefType "Delay" (typeOfNilPtr "Delay" .Struct),
   regType "Double" (typeOfNilPtr "Double" .Struct),
   regRefType "EvalError" (typeOfNilPtr "EvalError" .Struct),
   regRefType "ExInfo" (typeOfNilPtr "ExInfo" .Struct),
   regRefType "Fn" (typeOfNilPtr "Fn" .Struct),
   regRefType "File" (typeOfNilPtr "File" .Struct),
   regRefType "HashMap" (typeOfNilPtr "HashMap" .Struct),
   regType "Int" (typeOfNilPtr "Int" .Struct),
   regType "Keyword" (typeOfNilPtr "Keyword" .Struct),
   regRefType "LazySeq" (typeOfNilPtr "LazySeq" .Struct),
   regRefType "List" (typeOfNilPtr "List" .Struct),
   regRefType "MappingSeq" (typeOfNilPtr "MappingSeq" .Struct),
   regRefType "Namespace" (typeOfNilPtr "Namespace" .Struct),
   regType "Nil" (typeOfNilPtr "Nil" .Struct),
   regRefType "NodeSeq" (typeOfNilPtr "NodeSeq" .Struct),
   regRefType "ParseError" (typeOfNilPtr "ParseError" .Struct),
   regRefType "Proc" (typeOfNilPtr "Proc" .Func),
   regRefType "Ratio" (typeOfNilPtr "Ratio" .Struct),
   regRefType "RecurBindings" (typeOfNilPtr "RecurBindings" .Slice),
   regType "Regex" (typeOfNilPtr "Regex" .Struct),
   regType "String" (typeOfNilPtr "String" .Struct),
   regType "Symbol" (typeOfNilPtr "Symbol" .Struct),
   regRefType "Type" (typeOfNilPtr "Type" .Struct),
   regRefType "Var" (typeOfNilPtr "Var" .Struct),
   regRefType "Vector" (typeOfNilPtr "Vector" .Struct),
   regRefType "VectorRSeq" (typeOfNilPtr "VectorRSeq" .Struct),
   regRefType "VectorSeq" (typeOfNilPtr "VectorSeq" .Struct)]

/-- Function `init`, from the empty map `TYPES`. -/
def init : Option TypeRegistry :=
  initCalls.foldlM (fun types call => call types) []

/-- The map `TYPES` once `init` has run. -/
def TYPES : TypeRegistry := init.getD []

/-- The expression `TYPES[name]`: a pointer to a `Type`, nil for a key that is not
in the map. -/
def typeAt (name : String) : Option TypeTag := TYPES.lookup name

section InstanceCode

variable {M : Type}

/-- The call `x.GetType()` on an interface value: the method of the dynamic type
of `x`, each of which returns `TYPES` at the name of its kind. -/
def Object.GetType : Object M → Option TypeTag
  | .nil => typeAt "Nil"
  | .bool _ => typeAt "Bool"
  | .char _ => typeAt "Char"
  | .double _ => typeAt "Double"
  | .int _ => typeAt "Int"
  | .bigInt _ => typeAt "BigInt"
  | .bigFloat _ => typeAt "BigFloat"
  | .ratio _ => typeAt "Ratio"
  | .string _ => typeAt "String"
  | .keyword _ => typeAt "Keyword"
  | .symbol _ => typeAt "Symbol"
  | .regex _ => typeAt "Regex"
  | .fn _ => typeAt "Fn"
  | .proc _ => typeAt "Proc"
  | .var _ => typeAt "Var"
  | .atom _ => typeAt "Atom"
  | .delay _ => typeAt "Delay"
  | .typeTag _ => typeAt "Type"
  | .exInfo _ => typeAt "ExInfo"
  | .recurBindings _ => typeAt "RecurBindings"

/-- Function `IsInstance`.  `implements` is the library method
`reflect.Type.Implements`; the call fails when `obj.Equals(NIL)` panics or a type
pointer is nil. -/
def IsInstance (implements : ReflectType → ReflectType → Bool) (t : Option TypeTag)
    (obj : Object M) : Option Bool :=
  match Object.Equals obj .nil with
  | none => none
  | some true => some false
  | some false =>
    match t with
    | none => none
    | some t =>
      if t.reflectType.Kind = .Interface then
        match obj.GetType with
        | none => none
        | some ot => some (implements ot.reflectType t.reflectType)
      else
        match obj.GetType with
        | none => none
        | some ot => some (ot.reflectType == t.reflectType)

end InstanceCode

/-! ## `core/object.go`: vars -/

/-- Go struct `Namespace`, the field `Var.ToString` reads. -/
structure Namespace (M : Type) where
  /-- Field `Name`. -/
  Name : Symbol M

/-- What `Var.Call` calls outside the sources; `C` is the type of callables. -/
structure VarExtern (M C : Type) where
  /-- The call `vl.ToString(escape)` on an interface value; it may fail. -/
  ToString : Object M → Bool → Option String
  /-- The call `AssertCallable(obj, msg)`. -/
  AssertCallable : Object M → String → Outcome C
  /-- The call `c.Call(args)` on a callable. -/
  Call : C → List (Object M) → Outcome (Object M)

section VarCode

variable {M C : Type}

/-- Method `Var.ToString`, on the struct behind the receiver; `namespaces` holds
the namespaces by address. -/
def Var.ToString (T : InternTable) (namespaces : Cells (Namespace M)) (v : Var M)
    (_escape : Bool) : Option String :=
  match namespaces.deref v.ns with
  | none => none
  | some ns =>
    match Symbol.ToString T ns.Name false, Symbol.ToString T v.name false with
    | some nsName, some name => some ("#'" ++ nsName ++ "/" ++ name)
    | _, _ => none

/-- Method `Var.Resolve`. -/
def Var.Resolve (T : InternTable) (namespaces : Cells (Namespace M)) (v : Var M) :
    Outcome (Object M) :=
  match v.Value with
  | none =>
    match Var.ToString T namespaces v false with
    | none => .crash
    | some s => .error ("Unbound var: " ++ s)
  | some value => .value value

/-- Method `Var.Deref`. -/
def Var.Deref (T : InternTable) (namespaces : Cells (Namespace M)) (v : Var M) :
    Outcome (Object M) :=
  Var.Resolve T namespaces v

/-- Method `Var.Call`: the message is built before `AssertCallable` is called. -/
def Var.Call (T : InternTable) (namespaces : Cells (Namespace M)) (X : VarExtern M C)
    (v : Var M) (args : List (Object M)) : Outcome (Object M) :=
  match Var.Resolve T namespaces v with
  | .error msg => .error msg
  | .crash => .crash
  | .value vl =>
    match Var.ToString T namespaces v false, X.ToString vl false with
    | some sv, some sl =>
      match X.AssertCallable vl
        ("Var " ++ sv ++ " resolves to " ++ sl ++ ", which is not a Fn") with
      | .value c => X.Call c args
      | .error msg => .error msg
      | .crash => .crash
    | _, _ => .crash

end VarCode

/-- An intern table of two strings for the worked instances on vars. -/
def sampleVarStrings : InternTable where
  Intern := fun s => if s = "user" then 1 else if s = "x" then 2 else 3
  deref := fun p => if p = 1 then some "user" else if p = 2 then some "x" else none

/-- The namespace `user` at the address 256. -/
def sampleNamespaces : Cells (Namespace Unit) := [(256, ⟨⟨none, 0, 1, 0⟩⟩)]

/-- The var `user/x` with a given value. -/
def sampleVar (value : Option Obj) : Var Unit :=
  ⟨none, 256, ⟨none, 0, 2, 0⟩, value, 0, false⟩

/-- Externals for the worked instance: integers are the callables, a call returns
the callee. -/
def sampleVarExtern : VarExtern Unit Int where
  ToString := fun _ _ => some "v"
  AssertCallable := fun obj msg =>
    match obj with
    | .int I => .value I
    | _ => .error msg
  Call := fun c _ => .value (.int c)

/-! ## `core/object.go`: changing the metadata of a reference -/

/-- Go `*p = v` for a struct in memory: the struct at the address is replaced. -/
def Cells.write {β : Type} (mem : Cells β) (p : Ptr) (v : β) : Cells β :=
  mem.map (fun c => if c.1 = p then (p, v) else c)

/-- The state a call runs in and may change: the runtime and whatever else the
evaluator keeps (`rest`), and the atoms and vars in memory. -/
structure World (S M : Type) where
  /-- The runtime and the rest of the state. -/
  rest : S
  /-- The atoms, by address. -/
  atoms : Cells (Atom M)
  /-- The vars, by address. -/
  vars : Cells (Var M)

/-- A `*MetaHolder`: the address of the `MetaHolder` embedded in an atom or in a
var (`&a.MetaHolder`, `&v.MetaHolder`). -/
inductive MetaHolderPtr where
  | ofAtom (a : Ptr)
  | ofVar (v : Ptr)
deriving DecidableEq

/-- What `AlterMeta` calls outside the sources, apart from `Fn.Call`. -/
structure MetaExtern (M V : Type) where
  /-- A map held in a variable of type `Map`, as an object. -/
  ofMap : M → V
  /-- The call `AssertMap(obj, msg)`. -/
  AssertMap : V → String → Outcome M

section MetaCode

variable {S M B Env V : Type}

/-- Go `m.meta` for a `*MetaHolder`; fails on an address that holds no struct. -/
def World.readMeta (w : World S M) : MetaHolderPtr → Option (Option M)
  | .ofAtom a =>
    match w.atoms.deref a with
    | none => none
    | some s => some s.meta
  | .ofVar v =>
    match w.vars.deref v with
    | none => none
    | some s => some s.meta

/-- Go `m.meta = meta` for a `*MetaHolder`. -/
def World.writeMeta (w : World S M) (m : MetaHolderPtr) (meta : Option M) :
    Option (World S M) :=
  match m with
  | .ofAtom a =>
    match w.atoms.deref a with
    | none => none
    | some s => some { w with atoms := w.atoms.write a { s with meta := meta } }
  | .ofVar v =>
    match w.vars.deref v with
    | none => none
    | some s => some { w with vars := w.vars.write v { s with meta := meta } }

/-- The value of the reference a `*MetaHolder` is embedded in: field `value` of
the atom, field `Value` of the var. -/
def World.valueAt (w : World S M) : MetaHolderPtr → Option (Option (Object M))
  | .ofAtom a =>
    match w.atoms.deref a with
    | none => none
    | some s => some s.value
  | .ofVar v =>
    match w.vars.deref v with
    | none => none
    | some s => some s.Value

/-- Function `AlterMeta`; `fn` is the struct behind the `*Fn`. -/
def AlterMeta (X : Evaluator (World S M) B Env V) (Y : MetaExtern M V)
    (exprs : Cells (FnExpr M B)) (m : MetaHolderPtr) (fn : Fn M) (args : List V)
    (w : World S M) : Outcome (Option M) × World S M :=
  match w.readMeta m with
  | none => (.crash, w)
  | some meta =>
    let first :=
      match meta with
      | none => X.NIL
      | some held => Y.ofMap held
    let fargs := [first] ++ args
    let r := Fn.Call X exprs fn fargs w
    match r.1 with
    | .error msg => (.error msg, r.2)
    | .crash => (.crash, r.2)
    | .value result =>
      match Y.AssertMap result "" with
      | .error msg => (.error msg, r.2)
      | .crash => (.crash, r.2)
      | .value newMeta =>
        match r.2.writeMeta m (some newMeta) with
        | none => (.crash, r.2)
        | some w2 => (.value (some newMeta), w2)

/-- Method `Atom.AlterMeta`. -/
def Atom.AlterMeta (X : Evaluator (World S M) B Env V) (Y : MetaExtern M V)
    (exprs : Cells (FnExpr M B)) (a : Ptr) (fn : Fn M) (args : List V) (w : World S M) :
    Outcome (Option M) × World S M :=
  Joker.AlterMeta X Y exprs (.ofAtom a) fn args w

/-- Method `Var.AlterMeta`. -/
def Var.AlterMeta (X : Evaluator (World S M) B Env V) (Y : MetaExtern M V)
    (exprs : Cells (FnExpr M B)) (v : Ptr) (fn : Fn M) (args : List V) (w : World S M) :
    Outcome (Option M) × World S M :=
  Joker.AlterMeta X Y exprs (.ofVar v) fn args w

/-- Method `Atom.ResetMeta`: the new metadata is stored, and read back for the
result; fails on an address that holds no atom. -/
def Atom.ResetMeta (a : Ptr) (newMeta : Option M) (w : World S M) :
    Option (Option M × World S M) :=
  match w.writeMeta (.ofAtom a) newMeta with
  | none => none
  | some w2 =>
    match w2.readMeta (.ofAtom a) with
    | none => none
    | some meta => some (meta, w2)

/-- Method `Var.ResetMeta`. -/
def Var.ResetMeta (v : Ptr) (newMeta : Option M) (w : World S M) :
    Option (Option M × World S M) :=
  match w.writeMeta (.ofVar v) newMeta with
  | none => none
  | some w2 =>
    match w2.readMeta (.ofVar v) with
    | none => none
    | some meta => some (meta, w2)

end MetaCode

/-! ## `core/object.go`: delays -/

/-- Go struct `Delay`; `C` is the type of callables, `V` of objects. -/
structure Delay (C V : Type) where
  /-- Field `fn`. -/
  fn : C
  /-- Field `value`, `none` when nil. -/
  value : Option V

/-- The state a thunk runs in and may change: the delays in memory, and the rest. -/
structure DelayWorld (S C V : Type) where
  /-- The rest of the state. -/
  rest : S
  /-- The delays, by address. -/
  delays : Cells (Delay C V)

section DelayCode

variable {S C V : Type}

/-- Method `Delay.Force`; `call` is the method `Call` of the callables, from a
state to an outcome and a state. -/
def Delay.Force (call : C → List V → DelayWorld S C V → Outcome V × DelayWorld S C V)
    (d : Ptr) (w : DelayWorld S C V) : Outcome V × DelayWorld S C V :=
  match w.delays.deref d with
  | none => (.crash, w)
  | some s =>
    match s.value with
    | some v => (.value v, w)
    | none =>
      let r := call s.fn [] w
      match r.1 with
      | .error msg => (.error msg, r.2)
      | .crash => (.crash, r.2)
      | .value v =>
        match r.2.delays.deref d with
        | none => (.crash, r.2)
        | some s1 =>
          (.value v, { r.2 with delays := r.2.delays.write d { s1 with value := some v } })

/-- Method `Delay.Deref`. -/
def Delay.Deref (call : C → List V → DelayWorld S C V → Outcome V × DelayWorld S C V)
    (d : Ptr) (w : DelayWorld S C V) : Outcome V × DelayWorld S C V :=
  Delay.Force call d w

/-- Method `Delay.IsRealized`. -/
def Delay.IsRealized (d : Ptr) (w : DelayWorld S C V) : Option Bool :=
  match w.delays.deref d with
  | none => none
  | some s => some s.value.isSome

end DelayCode

/-- A thunk for the worked instance: it counts its calls in the rest of the state
and returns the count. -/
def sampleThunk (_c : Unit) (_args : List Obj) (w : DelayWorld Nat Unit Obj) :
    Outcome Obj × DelayWorld Nat Unit Obj :=
  (.value (.int (w.rest + 1)), { w with rest := w.rest + 1 })

/-- A state with one delay, not forced, at the address 512. -/
def sampleDelays : DelayWorld Nat Unit Obj := ⟨0, [(512, ⟨(), none⟩)]⟩

/-- A state for the worked instance on metadata: one atom at the address 1024,
without metadata, holding 5. -/
def sampleWorld : World (List String) Unit := ⟨[], [(1024, ⟨none, some (.int 5)⟩)], []⟩

/-- The evaluator of the worked instances, on states with atoms and vars. -/
def sampleWorldEvaluator :
    Evaluator (World (List String) Unit) Int (List (Option Obj)) Obj where
  pushFrame := fun w => { w with rest := "f" :: w.rest }
  popFrame := fun w => { w with rest := w.rest.tail }
  traceName := fun _ => some "foo"
  addFrame := fun _ values => values
  evalLoop := fun body _ w => (.value (.int body), w)
  NIL := .nil
  ofArraySeq := fun s => .int s.index

/-- Externals for the worked instance on metadata: the integers play the maps. -/
def sampleMetaExtern : MetaExtern Unit Obj where
  ofMap := fun _ => .int 0
  AssertMap := fun obj _ =>
    match obj with
    | .int _ => .value ()
    | _ => .error "Expected Map"


/-! ## `main.go`: the dialect of a linted file -/

/-- Go type `Dialect`, declared outside the sources: the four constants that
`main.go` names. -/
inductive Dialect where
  | EDN
  | CLJ
  | CLJS
  | JOKER
deriving DecidableEq

/-- Library function `strings.HasSuffix`.  The strings are compared character by
character; the suffixes looked for here are plain ASCII, for which this is the
comparison of the bytes. -/
def HasSuffix (s suffix : String) : Bool := suffix.data.isSuffixOf s.data

/-- Function `detectDialect`. -/
def detectDialect (filename : String) : Dialect :=
  if HasSuffix filename ".edn" then .EDN
  else if HasSuffix filename ".cljs" then .CLJS
  else if HasSuffix filename ".joke" then .JOKER
  else .CLJ

/-- Function `makeDialectKeyword`. -/
def makeDialectKeyword (T : InternTable) (dialect : Dialect) : Keyword :=
  match dialect with
  | .EDN => MakeKeyword T "clj"
  | .CLJ => MakeKeyword T "clj"
  | .CLJS => MakeKeyword T "cljs"
  | _ => MakeKeyword T "joker "

/-- The package variables that `configureLinterMode` assigns: `LINTER_MODE`,
`DIALECT` and the feature set `GLOBAL_ENV.Features` (a set, of type `F`), next to
the vars in memory. -/
structure LinterState (M F : Type) where
  /-- Variable `LINTER_MODE`. -/
  LINTER_MODE : Bool
  /-- Variable `DIALECT`. -/
  DIALECT : Dialect
  /-- Field `GLOBAL_ENV.Features`. -/
  Features : F
  /-- The vars, by address. -/
  vars : Cells (Var M)

/-- What `configureLinterMode` calls outside the sources. -/
structure LinterExtern (M F : Type) where
  /-- The call `GLOBAL_ENV.Resolve(sym)`, its first result: a `*Var`, maybe nil. -/
  Resolve : Symbol M → Ptr
  /-- The method `Disjoin` of a set. -/
  Disjoin : F → Keyword → F
  /-- The method `Conj` of a set followed by the assertion `.(Set)`, which may
  fail. -/
  Conj : F → Keyword → Option F
  /-- The call `ProcessLinterData(dialect)`. -/
  ProcessLinterData : Dialect → LinterState M F → Option (LinterState M F)

/-- Function `configureLinterMode`. -/
def configureLinterMode {M F : Type} (T : InternTable) (X : LinterExtern M F)
    (dialect : Dialect) (g : LinterState M F) : Option (LinterState M F) :=
  let g1 := { g with LINTER_MODE := true, DIALECT := dialect }
  let lm := X.Resolve (MakeSymbol T "joker.core/*linter-mode*")
  match g1.vars.deref lm with
  | none => none
  | some v =>
    let g2 := { g1 with vars := g1.vars.write lm { v with Value := some (.bool true) } }
    match X.Conj (X.Disjoin g2.Features (MakeKeyword T "joker"))
        (makeDialectKeyword T dialect) with
    | none => none
    | some features => X.ProcessLinterData dialect { g2 with Features := features }

/-- Externals for the worked instance on the linter mode: the feature set is a list
of keywords, every symbol resolves to the var at 2048. -/
def sampleLinterExtern : LinterExtern Unit (List Keyword) where
  Resolve := fun _ => 2048
  Disjoin := fun features k => features.filter (fun x => x != k)
  Conj := fun features k => some (k :: features)
  ProcessLinterData := fun _ g => some g

/-- A state for the worked instance on the linter mode. -/
def sampleLinterState : LinterState Unit (List Keyword) :=
  ⟨false, .CLJ, [], [(2048, sampleVar none)]⟩

/-! ## `core/object.go`: comparators -/

/-- What `compare` calls outside the sources; `C` is the type of callables, `N` of
numbers. -/
structure CompareExtern (M C N : Type) where
  /-- The call `c.Call(args)` on a callable. -/
  Call : C → List (Object M) → Outcome (Object M)
  /-- The call `AssertBool(obj, msg)`, giving the field `B` of the result. -/
  AssertBool : Object M → String → Outcome Bool
  /-- The call `AssertNumber(obj, msg)`. -/
  AssertNumber : Object M → String → Outcome N
  /-- The expression `n.Int().I` on a number. -/
  Int : N → Int

/-- Go struct `SortableSlice`; the comparator is a callable (`*Fn` or `Proc`). -/
structure SortableSlice (V C : Type) where
  /-- Field `s`. -/
  s : List V
  /-- Field `cmp`. -/
  cmp : C

section CompareCode

variable {M C N : Type}

/-- Function `compare`. -/
def compare (X : CompareExtern M C N) (c : C) (a b : Object M) : Outcome Int :=
  match X.Call c [a, b] with
  | .error msg => .error msg
  | .crash => .crash
  | .value (.bool B) =>
    if B then .value (-1)
    else
      match X.Call c [b, a] with
      | .error msg => .error msg
      | .crash => .crash
      | .value r2 =>
        match X.AssertBool r2 "" with
        | .error msg => .error msg
        | .crash => .crash
        | .value B2 => if B2 then .value 1 else .value 0
  | .value r =>
    match X.AssertNumber r
      "Function is not a comparator since it returned a non-integer value" with
    | .error msg => .error msg
    | .crash => .crash
    | .value n => .value (X.Int n)

/-- Methods `Fn.Compare` and `Proc.Compare`, the method `Compare` of a comparator:
both are `compare(c, a, b)` on the receiver. -/
def Comparator.Compare (X : CompareExtern M C N) (c : C) (a b : Object M) : Outcome Int :=
  Joker.compare X c a b

/-- Method `SortableSlice.Less`; an index out of range stops the run. -/
def SortableSlice.Less (X : CompareExtern M C N) (s : SortableSlice (Object M) C)
    (i j : Nat) : Outcome Bool :=
  match s.s[i]?, s.s[j]? with
  | some a, some b =>
    match Comparator.Compare X s.cmp a b with
    | .error msg => .error msg
    | .crash => .crash
    | .value r => .value (r == -1)
  | _, _ => .crash

end CompareCode

/-- Externals for the worked instances on comparators: a callable is a function
on two integers, integers are the numbers. -/
def sampleCompareExtern : CompareExtern Unit (Int → Int → Obj) Int where
  Call := fun c args =>
    match args with
    | [.int a, .int b] => .value (c a b)
    | _ => .crash
  AssertBool := fun obj msg =>
    match obj with
    | .bool B => .value B
    | _ => .error msg
  AssertNumber := fun obj msg =>
    match obj with
    | .int I => .value I
    | _ => .error msg
  Int := fun n => n

/-! ## `core/object.go`: indexing a string -/

section StringCode

variable {M : Type}

/-- Go `for j, r := range s` on a string: the characters of the string, each with
the byte offset at which its UTF-8 encoding starts; `j` is the offset of the first
one.  (A Go string that is not valid UTF-8 is outside this model.) -/
def rangeString : List Char → Nat → List (Nat × Char)
  | [], _ => []
  | c :: cs, j => (j, c) :: rangeString cs (j + c.utf8Size)

/-- Method `String.Count`: `len(s.S)`, the number of bytes. -/
def String.Count (S : String) : Nat := S.utf8ByteSize

/-- Method `String.Seq`: the array-seq over the characters of the string. -/
def String.Seq (S : String) : ArraySeq (Object M) :=
  ⟨S.data.map (fun r => .char (r.toNat : Int)), 0⟩

/-- The loop of `String.Nth`: the first character whose offset `j` is `i`, or the
value of `j` when the loop ends (`last` before the first step). -/
def String.nthLoop (i : Int) : List (Nat × Char) → Nat → Sum Nat Char
  | [], last => .inl last
  | (j, r) :: rest, _ => if i = (j : Int) then .inr r else String.nthLoop i rest j

/-- Method `String.Nth`. -/
def String.Nth (S : String) (i : Int) : Outcome (Object M) :=
  if i < 0 then .error ("Negative index: " ++ toString i)
  else
    match String.nthLoop i (rangeString S.data 0) 0 with
    | .inr r => .value (.char (r.toNat : Int))
    | .inl j =>
      .error ("Index " ++ toString i ++ " exceeds string's length " ++ toString (j + 1))

/-- Method `String.TryNth`. -/
def String.TryNth (S : String) (i : Int) (d : Object M) : Object M :=
  if i < 0 then d
  else
    match String.nthLoop i (rangeString S.data 0) 0 with
    | .inr r => .char (r.toNat : Int)
    | .inl _ => d

end StringCode

/-- The string of the worked instance: the letter e with an acute accent, which
takes two bytes, followed by the letter a. -/
def sampleAccented : String := ⟨[Char.ofNat 233, 'a']⟩

/-- The byte offset at which character number `k` of a string starts: the sizes of
the `k` characters before it, added up. -/
def byteOffset (cs : List Char) (k : Nat) : Nat := ((cs.take k).map Char.utf8Size).sum

/-! ## `core/object.go`: the text of an exception-info -/

/-- Go struct `Position`, the fields that `ExInfo.Error` reads; `filename` is the
string behind the pointer, `none` when the pointer is nil. -/
structure Position where
  /-- Field `startLine`. -/
  startLine : Int
  /-- Field `startColumn`. -/
  startColumn : Int
  /-- Field `filename`. -/
  filename : Option String
deriving DecidableEq

/-- Method `Position.Filename`. -/
def Position.Filename (pos : Position) : String :=
  match pos.filename with
  | none => "<file>"
  | some name => name

/-- Go struct `ExInfo`, the fields that `ExInfo.Error` reads: the message
(`msg.S`), the data (the array-map behind the pointer) and the runtime (of type
`R`) kept with the exception. -/
structure ExInfo (R : Type) where
  /-- Field `msg`, its string. -/
  msg : String
  /-- Field `data`. -/
  data : ArrayMap
  /-- Field `rt`. -/
  rt : R

/-- What `ExInfo.Error` calls outside the sources. -/
structure ErrorExtern (M R : Type) where
  /-- The call `form.GetInfo()` and, on a result that is not nil, `Pos()`: the
  position kept with an object, `none` when `GetInfo()` is nil. -/
  infoPos : Object M → Option Position
  /-- The call `pr.ToString(escape)` on an interface value; it may fail. -/
  ToString : Object M → Bool → Option String
  /-- The expression `len(rt.callstack.frames)`. -/
  frames : R → Nat
  /-- The call `rt.stacktrace()`. -/
  stacktrace : R → String

section ErrorCode

variable {M R : Type}

/-- Method `ExInfo.Error`; fails when a lookup in the data fails or finds a nil
value. -/
def ExInfo.Error (T : InternTable) (X : ErrorExtern M R) (h : Heap (Object M))
    (exInfo : ExInfo R) : Option String :=
  match ArrayMap.Get h exInfo.data (.keyword (MakeKeyword T "form")) with
  | none => none
  | some (ok, form) =>
    let zero : Position := ⟨0, 0, none⟩
    let posOpt : Option Position :=
      if ok then
        match form with
        | none => none
        | some f =>
          match X.infoPos f with
          | none => some zero
          | some p => some p
      else some zero
    match posOpt with
    | none => none
    | some pos =>
      match ArrayMap.Get h exInfo.data (.keyword (MakeKeyword T "_prefix")) with
      | none => none
      | some (ok2, pr) =>
        let prefixOpt : Option String :=
          if ok2 then
            match pr with
            | none => none
            | some p => X.ToString p false
          else some "Exception"
        match prefixOpt with
        | none => none
        | some kind =>
          if 0 < X.frames exInfo.rt then
            some (pos.Filename ++ ":" ++ toString pos.startLine ++ ":" ++
              toString pos.startColumn ++ ": " ++ kind ++ ": " ++ exInfo.msg ++
              "\nStacktrace:\n" ++ X.stacktrace exInfo.rt)
          else
            some (pos.Filename ++ ":" ++ toString pos.startLine ++ ":" ++
              toString pos.startColumn ++ ": " ++ kind ++ ": " ++ exInfo.msg)

/-- Method `ExInfo.ToString`. -/
def ExInfo.ToString (T : InternTable) (X : ErrorExtern M R) (h : Heap (Object M))
    (exInfo : ExInfo R) (_escape : Bool) : Option String :=
  ExInfo.Error T X h exInfo

end ErrorCode

/-- An intern table for the worked instance on exception-infos. -/
def sampleErrorStrings : InternTable where
  Intern := fun s => if s = "form" then 1 else if s = "_prefix" then 2 else 3
  deref := fun p =>
    if p = 1 then some "form" else if p = 2 then some "_prefix" else none

/-- Externals for the worked instance on exception-infos: an integer carries the
position whose line it is, in the file "a.clj"; the runtime is the number of
frames on its call stack. -/
def sampleErrorExtern : ErrorExtern Unit Nat where
  infoPos := fun obj =>
    match obj with
    | .int I => some ⟨I, 7, some "a.clj"⟩
    | _ => none
  ToString := fun _ _ => some "Oops"
  frames := fun rt => rt
  stacktrace := fun _ => "  f a.clj:1:1"

/-- The data of the worked instance: the form 3 under the keyword `:form`. -/
def sampleErrorData : List (Obj × Obj) :=
  [(.keyword (MakeKeyword sampleErrorStrings "form"), .int 3)]

/-! ## Metadata maps that are array-maps in memory -/

/-- Go struct `ArrayMap` with its embedded `MetaHolder`, for the array-map that
`WithMeta` is called on: the metadata, an array-map when there is one, and the
field `arr`. -/
structure ArrayMapWithMeta where
  /-- Field `meta` of the embedded `MetaHolder`, `none` when nil. -/
  meta : Option ArrayMap
  /-- Field `arr`. -/
  arr : Slice
deriving DecidableEq

section InHeapCode

variable {α : Type} [Equality α]

/-- Function `SafeMerge` on metadata maps that are array-maps in memory: the
interface call `m1.Merge(m2)` is `ArrayMap.Merge`, which starts with
`other.Count()` and so fails on a nil `m2`. -/
def InHeap.SafeMerge (grow : Nat → Nat) (h : Heap α) (m1 m2 : Option ArrayMap) :
    Option (Heap α × Option ArrayMap) :=
  match m1 with
  | none => some (h, m2)
  | some a =>
    match m2 with
    | none => none
    | some b =>
      match ArrayMap.Merge grow h a b with
      | none => none
      | some (h2, r) => some (h2, some r)

/-- Method `ArrayMap.WithMeta`: a copy of the struct, which shares `arr`, with the
merged metadata. -/
def ArrayMap.WithMeta (grow : Nat → Nat) (h : Heap α) (v : ArrayMapWithMeta)
    (meta : Option ArrayMap) : Option (Heap α × ArrayMapWithMeta) :=
  match InHeap.SafeMerge grow h v.meta meta with
  | none => none
  | some (h2, mm) => some (h2, { v with meta := mm })

/-- Method `Symbol.WithMeta`, the metadata maps being array-maps in memory. -/
def InHeap.Symbol.WithMeta (grow : Nat → Nat) (h : Heap α) (sym : Symbol ArrayMap)
    (meta : Option ArrayMap) : Option (Heap α × Symbol ArrayMap) :=
  match InHeap.SafeMerge grow h sym.meta meta with
  | none => none
  | some (h2, mm) => some (h2, { sym with meta := mm })

/-- Method `Fn.WithMeta`, the metadata maps being array-maps in memory: a copy of
the struct with merged metadata, at a new address. -/
def InHeap.Fn.WithMeta (grow : Nat → Nat) (h : Heap α) (mem : Cells (Fn ArrayMap))
    (fn : Ptr) (meta : Option ArrayMap) (fresh : Ptr) :
    Option (Heap α × Cells (Fn ArrayMap) × Ptr) :=
  match mem.deref fn with
  | none => none
  | some res =>
    match InHeap.SafeMerge grow h res.meta meta with
    | none => none
    | some (h2, mm) => some (h2, mem.alloc fresh { res with meta := mm }, fresh)

end InHeapCode

/-! ## Vocabulary of the statements on merging and on built array-maps -/

section MergeVocabulary

variable {α : Type} [Equality α]

/-- The effect of `Set` told on the list of pairs: the value of the first pair
whose key answers `true` is replaced, the pair is added at the end when all answer
`false`, a failure when a comparison fails before that. -/
def setOpt (key value : α) : List (α × α) → Option (List (α × α))
  | [] => some [(key, value)]
  | p :: ps =>
    match Equality.Equals p.1 key with
    | none => none
    | some true => some ((p.1, value) :: ps)
    | some false =>
      match setOpt key value ps with
      | none => none
      | some ps2 => some (p :: ps2)

/-- The effect of the loop of `Merge` told on lists of pairs: the pairs of `qs` are
`Set` one after the other. -/
def mergeOpt (rs : List (α × α)) : List (α × α) → Option (List (α × α))
  | [] => some rs
  | q :: qs =>
    match setOpt q.1 q.2 rs with
    | none => none
    | some rs1 => mergeOpt rs1 qs

/-- No stored key `Equals` a later stored key. -/
def Distinct (ps : List (α × α)) : Prop :=
  ps.Pairwise (fun p q => Equality.Equals p.1 q.1 = some false)

/-- Heap `h2` is heap `h` with cells changed in backing array `id` at most, and
maybe with new backing arrays behind it. -/
def Heap.TouchOnly (h h2 : Heap α) (id : Nat) : Prop :=
  h.length ≤ h2.length ∧
  ∀ k, k < h.length →
    (h2.arrayAt k).length = (h.arrayAt k).length ∧ (k ≠ id → h2.arrayAt k = h.arrayAt k)

/-- The array-map structs a program has built and the heap they live in.  A struct
is named by its position in the list (its address); the structs come from
`EmptyArrayMap()`, from `Assoc` (when it returns an array-map), `Without` and `Merge`
on structs of the list, and `Set` and `Add` update a struct of the list in place.
`Merge` returns one of its two arguments when the other one is empty, and a new
struct otherwise.  The program may allocate other backing arrays in between. -/
inductive Built {H : Type} (X : Extern α H) : Heap α → List ArrayMap → Prop where
  | start : Built X [] []
  | alloc {h : Heap α} {ms : List ArrayMap} (a : List (Option α)) :
      Built X h ms → Built X (h ++ [a]) ms
  | empty {h : Heap α} {ms : List ArrayMap} :
      Built X h ms → Built X h (ms ++ [EmptyArrayMap])
  | assoc {h h2 : Heap α} {ms : List ArrayMap} {m r : ArrayMap} (i : Nat) (key value : α) :
      Built X h ms → ms[i]? = some m →
      ArrayMap.Assoc X h m key value = some (h2, .arrayMap r) → Built X h2 (ms ++ [r])
  | without {h h2 : Heap α} {ms : List ArrayMap} {m r : ArrayMap} (i : Nat) (key : α) :
      Built X h ms → ms[i]? = some m →
      ArrayMap.Without h m key = some (h2, r) → Built X h2 (ms ++ [r])
  | set {h h2 : Heap α} {ms : List ArrayMap} {m m2 : ArrayMap} (i : Nat) (key value : α) :
      Built X h ms → ms[i]? = some m →
      ArrayMap.Set X.growslice h m key value = some (h2, m2) → Built X h2 (ms.set i m2)
  | add {h h2 : Heap α} {ms : List ArrayMap} {m m2 : ArrayMap} {added : Bool} (i : Nat)
      (key value : α) :
      Built X h ms → ms[i]? = some m →
      ArrayMap.Add X.growslice h m key value = some (h2, m2, added) →
      Built X h2 (ms.set i m2)
  | merge {h h2 : Heap α} {ms : List ArrayMap} {m other r : ArrayMap} (i j : Nat) :
      Built X h ms → ms[i]? = some m → ms[j]? = some other →
      ArrayMap.Merge X.growslice h m other = some (h2, r) →
      Built X h2 (if other.Count = 0 ∨ m.Count = 0 then ms else ms ++ [r])

end MergeVocabulary

/-- Every struct of the list is a well-formed array-map in which no stored key
`Equals` a later one, and two structs that have cells do not share a backing
array. -/
structure WellBuilt {α : Type} [Equality α] (h : Heap α) (ms : List ArrayMap) : Prop where
  /-- Each struct holds a list of pairs with pairwise unequal keys. -/
  holds : ∀ (i : Nat) (m : ArrayMap), ms[i]? = some m →
    ∃ ps : List (α × α), m.Holds h ps ∧ Distinct ps
  /-- Structs at two addresses have different backing arrays. -/
  apart : ∀ (i j : Nat) (m m2 : ArrayMap), ms[i]? = some m → ms[j]? = some m2 → i ≠ j →
    0 < m.arr.cap → 0 < m2.arr.cap → m.arr.array ≠ m2.arr.array

/-- The metadata of the worked instance on merging: the map holding the key 1 with
the value 9, in the backing array 1. -/
def sampleMetaPairs : List (Obj × Obj) := [(.int 1, .int 9)]

/-- The heap of the worked instance on merging across numeric kinds: the backing
array 0 holds the pair of the integer 1 and 7, the backing array 1 the pair of the
big integer 1 and 9. -/
def sampleMixedHeap : Heap Obj :=
  [[some (.int 1), some (.int 7)], [some (.bigInt ⟨4096, 1⟩), some (.int 9)]]


/-! ## Vocabulary of the statements on distinct keys, on ratios and on arity errors -/

/-- The call ends in an error whose message starts with "Wrong number of args". -/
def Outcome.IsArityError {V : Type} (o : Outcome V) : Prop :=
  ∃ msg, o = .error msg ∧ "Wrong number of args".data <+: msg.data

/-- The bodies of a function expression: those of its fixed arities and that of its
variadic arity. -/
def FnExpr.bodies {M B : Type} (fnExpr : FnExpr M B) : List B :=
  fnExpr.arities.map (fun a => a.body) ++
    (match fnExpr.variadic with
     | none => []
     | some v => [v.body])

/-- An evaluator for the worked instance of a call inside a body: as
`sampleEvaluator`, but the body 7 is a call of the function at 64 of `sampleFnExprs`
(one arity of 2 parameters) on the values bound in the environment. -/
def sampleCallingEvaluator : Evaluator (List String) Int (List (Option Obj)) Obj where
  pushFrame := sampleEvaluator.pushFrame
  popFrame := sampleEvaluator.popFrame
  traceName := sampleEvaluator.traceName
  addFrame := sampleEvaluator.addFrame
  evalLoop := fun body env r =>
    if body = 7 then
      Fn.Call sampleEvaluator sampleFnExprs (⟨none, 64, 0⟩ : Fn Unit) (env.filterMap id) r
    else sampleEvaluator.evalLoop body env r
  NIL := sampleEvaluator.NIL
  ofArraySeq := sampleEvaluator.ofArraySeq

/-- The function expression of the worked instance of a call inside a body: at 256
one arity of 1 parameter, whose body is 7. -/
def sampleCallerExprs : Cells (FnExpr Unit Int) :=
  [(256, ⟨[⟨sampleParams 1, 7⟩], none⟩)]

theorem Heap.index_eq_view {α : Type} (h : Heap α) (s : Slice) (i : Nat) :
    h.index s i = (h.view s)[i]? := by
  unfold Heap.index Heap.view
  by_cases hi : i < s.len
  · simp [hi, List.getElem?_take, List.getElem?_drop]
  · simp [hi, List.getElem?_take]

theorem Heap.arrayAt_append_old {α : Type} (h : Heap α) (a : List (Option α)) (id : Nat)
    (hid : id < h.length) :
    Heap.arrayAt (h ++ [a]) id = h.arrayAt id := by
  unfold Heap.arrayAt
  simp [List.getD_eq_getElem?_getD, List.getElem?_append_left hid]

theorem Heap.arrayAt_append_new {α : Type} (h : Heap α) (a : List (Option α)) :
    Heap.arrayAt (h ++ [a]) h.length = a := by
  unfold Heap.arrayAt
  simp [List.getD_eq_getElem?_getD]

theorem Heap.arrayAt_of_le {α : Type} (h : Heap α) (id : Nat) (hid : h.length ≤ id) :
    h.arrayAt id = [] := by
  unfold Heap.arrayAt
  simp [List.getD_eq_getElem?_getD, List.getElem?_eq_none hid]

theorem Heap.arrayAt_set_same {α : Type} (h : Heap α) (a : List (Option α)) (id : Nat)
    (hid : id < h.length) :
    Heap.arrayAt (h.set id a) id = a := by
  unfold Heap.arrayAt
  simp [List.getD_eq_getElem?_getD, hid]

theorem Heap.arrayAt_set_other {α : Type} (h : Heap α) (a : List (Option α)) (id id2 : Nat)
    (hne : id ≠ id2) :
    Heap.arrayAt (h.set id a) id2 = h.arrayAt id2 := by
  unfold Heap.arrayAt
  simp [List.getD_eq_getElem?_getD, List.getElem?_set_ne hne]

theorem Heap.arrayAt_of_isPrefix {α : Type} {h h2 : Heap α} (hp : h <+: h2) (id : Nat)
    (hid : id < h.length) :
    h2.arrayAt id = h.arrayAt id := by
  obtain ⟨t, rfl⟩ := hp
  unfold Heap.arrayAt
  simp [List.getD_eq_getElem?_getD, List.getElem?_append_left hid]

theorem Heap.isPrefix_set {α : Type} {b h : Heap α} (hp : b <+: h) (id : Nat) (hid : b.length ≤ id)
    (a : List (Option α)) : b <+: h.set id a := by
  obtain ⟨t, rfl⟩ := hp
  rw [List.set_append_right _ _ hid]
  exact List.prefix_append _ _

theorem take_drop_set_inside {β : Type} (l : List β) (off len i : Nat) (v : β)
    (hi : i < len) (hl : off + len ≤ l.length) :
    ((l.set (off + i) v).drop off).take len = ((l.drop off).take len).set i v := by
  apply List.ext_getElem?
  intro j
  simp only [List.getElem?_take, List.getElem?_drop, List.getElem?_set, List.length_take,
    List.length_drop]
  by_cases hj : j < len
  · by_cases hij : i = j
    · subst hij
      have h1 : off + i < l.length := by omega
      have h2 : i < min len (l.length - off) := by omega
      simp [hj, h1, h2]
    · have h1 : off + i ≠ off + j := by omega
      simp [hj, hij, h1]
  · by_cases hij : i = j
    · omega
    · simp [hj, hij]

theorem take_drop_set_end {β : Type} (l : List β) (off len : Nat) (v : β)
    (hl : off + len < l.length) :
    ((l.set (off + len) v).drop off).take (len + 1) = (l.drop off).take len ++ [v] := by
  rw [List.take_succ]
  congr 1
  · apply List.ext_getElem?
    intro j
    simp only [List.getElem?_take, List.getElem?_drop, List.getElem?_set]
    by_cases hj : j < len
    · have h1 : off + len ≠ off + j := by omega
      simp [hj, h1]
    · simp [hj]
  · simp [List.getElem?_drop, List.getElem?_set, hl]

theorem Slice.Valid.array_lt {α : Type} {h : Heap α} {s : Slice} (hv : s.Valid h) (hc : 0 < s.cap) :
    s.array < h.length := by
  by_contra hlt
  have := Heap.arrayAt_of_le h s.array (by omega)
  unfold Slice.Valid at hv
  rw [this] at hv
  simp at hv
  omega

theorem Heap.view_length {α : Type} {h : Heap α} {s : Slice} (hv : s.Valid h) :
    (h.view s).length = s.len := by
  unfold Slice.Valid at hv
  unfold Heap.view
  simp
  omega

theorem Slice.Valid.later_valid {α : Type} {h h2 : Heap α} {s : Slice} (hv : s.Valid h)
    (hp : h <+: h2) :
    s.Valid h2 := by
  by_cases hlt : s.array < h.length
  · unfold Slice.Valid at *
    rw [Heap.arrayAt_of_isPrefix hp _ hlt]
    exact hv
  · have := Heap.arrayAt_of_le h s.array (by omega)
    unfold Slice.Valid at *
    rw [this] at hv
    simp at hv
    omega

theorem Heap.view_mono {α : Type} {h h2 : Heap α} {s : Slice} (hv : s.Valid h) (hp : h <+: h2) :
    h2.view s = h.view s := by
  by_cases hlt : s.array < h.length
  · unfold Heap.view
    rw [Heap.arrayAt_of_isPrefix hp _ hlt]
  · have := Heap.arrayAt_of_le h s.array (by omega)
    unfold Slice.Valid at hv
    rw [this] at hv
    simp at hv
    have hl : s.len = 0 := by omega
    unfold Heap.view
    simp [hl]

theorem Heap.store_spec {α : Type} {h : Heap α} {s : Slice} (hv : s.Valid h) {i : Nat}
    (hi : i < s.len)
    (v : Option α) :
    ∃ h2, h.store s i v = some h2 ∧ h2.view s = (h.view s).set i v ∧ s.Valid h2 ∧
      ∀ b : Heap α, b <+: h → b.length ≤ s.array → b <+: h2 := by
  have hlt : s.array < h.length := hv.array_lt (by unfold Slice.Valid at hv; omega)
  refine ⟨h.set s.array ((h.arrayAt s.array).set (s.off + i) v), by simp [Heap.store, hi],
    ?_, ?_, ?_⟩
  · unfold Heap.view
    rw [Heap.arrayAt_set_same _ _ _ hlt]
    unfold Slice.Valid at hv
    exact take_drop_set_inside _ _ _ _ _ hi (by omega)
  · unfold Slice.Valid at *
    rw [Heap.arrayAt_set_same _ _ _ hlt]
    simpa using hv
  · intro b hb hbl
    exact Heap.isPrefix_set hb _ hbl _

theorem Heap.append_spec {α : Type} (grow : Nat → Nat) {h : Heap α} {s : Slice} (hv : s.Valid h)
    (v : Option α) :
    (h.append grow s v).2.Valid (h.append grow s v).1 ∧
    (h.append grow s v).1.view (h.append grow s v).2 = h.view s ++ [v] ∧
    (h.append grow s v).2.len = s.len + 1 ∧
    ∀ b : Heap α, b <+: h → b.length ≤ s.array →
      b <+: (h.append grow s v).1 ∧ b.length ≤ (h.append grow s v).2.array := by
  by_cases hc : s.len < s.cap
  · have hlt : s.array < h.length := hv.array_lt (by omega)
    have e : h.append grow s v =
        (h.set s.array ((h.arrayAt s.array).set (s.off + s.len) v),
          { s with len := s.len + 1 }) := by
      simp [Heap.append, hc]
    rw [e]
    refine ⟨?_, ?_, ?_, ?_⟩
    · unfold Slice.Valid at *
      simp only
      rw [Heap.arrayAt_set_same _ _ _ hlt]
      simp
      omega
    · unfold Heap.view
      simp only
      rw [Heap.arrayAt_set_same _ _ _ hlt]
      unfold Slice.Valid at hv
      exact take_drop_set_end _ _ _ _ (by omega)
    · rfl
    · intro b hb hbl
      exact ⟨Heap.isPrefix_set hb _ hbl _, hbl⟩
  · have e : h.append grow s v =
        (h ++ [h.view s ++ [v] ++
            List.replicate (max (s.len + 1) (grow s.cap) - (s.len + 1)) none],
          ⟨h.length, 0, s.len + 1, max (s.len + 1) (grow s.cap)⟩) := by
      simp [Heap.append, hc]
    rw [e]
    have hvl := Heap.view_length hv
    refine ⟨?_, ?_, ?_, ?_⟩
    · unfold Slice.Valid
      simp only
      rw [Heap.arrayAt_append_new]
      simp [hvl]
      omega
    · unfold Heap.view
      simp only
      rw [Heap.arrayAt_append_new]
      simp only [List.drop_zero]
      apply List.take_left'
      simp
      have := Heap.view_length hv
      unfold Heap.view at this
      simpa using this
    · rfl
    · intro b hb hbl
      refine ⟨hb.trans (List.prefix_append _ _), ?_⟩
      simp only
      exact hb.length_le

/-! ## The list of pairs behind an array-map -/

theorem flat_length {α : Type} (ps : List (α × α)) : (flat ps).length = 2 * ps.length := by
  induction ps with
  | nil => rfl
  | cons p ps ih => simp [flat, ih]; omega

theorem flat_append {α : Type} (ps qs : List (α × α)) : flat (ps ++ qs) = flat ps ++ flat qs := by
  induction ps with
  | nil => rfl
  | cons p ps ih => simp [flat, ih]

theorem flat_key {α : Type} (ps : List (α × α)) (n : Nat) (p : α × α) (hp : ps[n]? = some p) :
    (flat ps)[2 * n]? = some (some p.1) := by
  induction ps generalizing n with
  | nil => simp at hp
  | cons q qs ih =>
    cases n with
    | zero => simp at hp; subst hp; simp [flat]
    | succ n =>
      simp at hp
      have := ih n hp
      have e : 2 * (n + 1) = 2 * n + 1 + 1 := by omega
      rw [e]
      simpa [flat] using this

theorem flat_value {α : Type} (ps : List (α × α)) (n : Nat) (p : α × α) (hp : ps[n]? = some p) :
    (flat ps)[2 * n + 1]? = some (some p.2) := by
  induction ps generalizing n with
  | nil => simp at hp
  | cons q qs ih =>
    cases n with
    | zero => simp at hp; subst hp; simp [flat]
    | succ n =>
      simp at hp
      have := ih n hp
      have e : 2 * (n + 1) + 1 = (2 * n + 1) + 1 + 1 := by omega
      rw [e]
      simpa [flat] using this

theorem flat_set_value {α : Type} (ps : List (α × α)) (n : Nat) (p : α × α) (hp : ps[n]? = some p)
    (v : α) : (flat ps).set (2 * n + 1) (some v) = flat (ps.set n (p.1, v)) := by
  induction ps generalizing n with
  | nil => simp at hp
  | cons q qs ih =>
    cases n with
    | zero => simp at hp; subst hp; simp [flat]
    | succ n =>
      simp at hp
      have := ih n hp
      have e : 2 * (n + 1) + 1 = (2 * n + 1) + 1 + 1 := by omega
      rw [e]
      simp [flat, this]

theorem ArrayMap.Holds.len {α : Type} {h : Heap α} {m : ArrayMap} {ps : List (α × α)}
    (hm : m.Holds h ps) : m.arr.len = 2 * ps.length := by
  have := Heap.view_length hm.1
  rw [hm.2, flat_length] at this
  omega

theorem ArrayMap.Holds.count {α : Type} {h : Heap α} {m : ArrayMap} {ps : List (α × α)}
    (hm : m.Holds h ps) : m.Count = ps.length := by
  unfold ArrayMap.Count
  rw [hm.len]
  omega

theorem ArrayMap.Holds.later_holds {α : Type} {h h2 : Heap α} {m : ArrayMap} {ps : List (α × α)}
    (hm : m.Holds h ps) (hp : h <+: h2) : m.Holds h2 ps :=
  ⟨hm.1.later_valid hp, by rw [Heap.view_mono hm.1 hp]; exact hm.2⟩

theorem ArrayMap.Holds.index {α : Type} {h : Heap α} {m : ArrayMap} {ps : List (α × α)}
    (hm : m.Holds h ps) (i : Nat) : h.index m.arr i = (flat ps)[i]? := by
  rw [Heap.index_eq_view, hm.2]

theorem indexOfLoop_eq_scan {α : Type} [Equality α] {h : Heap α} {m : ArrayMap} {ps : List (α × α)}
    (hm : m.Holds h ps) (key : α) :
    ∀ fuel n, n ≤ ps.length → ps.length ≤ fuel + n →
      ArrayMap.indexOfLoop h m key fuel (2 * n) = scan key (ps.drop n) n := by
  have hlen := hm.len
  intro fuel
  induction fuel with
  | zero =>
    intro n hn hf
    have : n = ps.length := by omega
    subst this
    simp [ArrayMap.indexOfLoop, hlen, scan]
  | succ fuel ih =>
    intro n hn hf
    by_cases hlt : n < ps.length
    · have hd : ps.drop n = ps[n] :: ps.drop (n + 1) := (List.drop_eq_getElem_cons hlt)
      have hk := flat_key ps n ps[n] (by simp [hlt])
      have hi : 2 * n < m.arr.len := by omega
      rw [hd]
      unfold ArrayMap.indexOfLoop scan
      simp only [hi, if_true, hm.index, hk]
      cases hE : Equality.Equals ps[n].1 key with
      | none => rfl
      | some b =>
        cases b with
        | true => simp
        | false =>
          simp only
          have := ih (n + 1) (by omega) (by omega)
          have e : 2 * (n + 1) = 2 * n + 2 := by omega
          rw [e] at this
          exact this
    · have : n = ps.length := by omega
      subst this
      simp [ArrayMap.indexOfLoop, hlen, scan]

theorem indexOf_eq_scan {α : Type} [Equality α] {h : Heap α} {m : ArrayMap} {ps : List (α × α)}
    (hm : m.Holds h ps) (key : α) : ArrayMap.indexOf h m key = scan key ps 0 := by
  have := indexOfLoop_eq_scan hm key m.arr.len 0 (by omega) (by rw [hm.len]; omega)
  simpa [ArrayMap.indexOf] using this

theorem scan_absent {α : Type} [Equality α] {ps : List (α × α)} {key : α} (ha : Absent ps key)
    (n : Nat) :
    scan key ps n = some (-1) := by
  induction ps generalizing n with
  | nil => rfl
  | cons p ps ih =>
    have hp := ha p (by simp)
    unfold scan
    rw [hp]
    exact ih (fun q hq => ha q (by simp [hq])) (n + 1)

theorem scan_firstAt {α : Type} [Equality α] {ps : List (α × α)} {key : α} {t : Nat}
    (hf : FirstAt ps key t) (n : Nat) :
    scan key ps n = some (2 * ((n + t : Nat) : Int)) := by
  induction ps generalizing n t with
  | nil => obtain ⟨p, hp, _⟩ := hf; simp at hp
  | cons q qs ih =>
    obtain ⟨p, hp, he, hb⟩ := hf
    cases t with
    | zero =>
      simp at hp
      subst hp
      unfold scan
      rw [he]
      simp
    | succ t =>
      simp at hp
      have hq := hb q (by simp)
      unfold scan
      rw [hq]
      have := ih (t := t) ⟨p, hp, he, fun x hx => hb x (by simp [hx])⟩ (n + 1)
      rw [this]
      have e : n + 1 + t = n + (t + 1) := by omega
      rw [e]

theorem absent_or_firstAt {α : Type} [Equality α] {ps : List (α × α)} {key : α}
    (ha : Answers ps key) :
    Absent ps key ∨ ∃ t, FirstAt ps key t := by
  induction ps with
  | nil => left; intro p hp; simp at hp
  | cons q qs ih =>
    have hq := ha q (by simp)
    cases hE : Equality.Equals q.1 key with
    | none => exact absurd hE hq
    | some b =>
      cases b with
      | true => right; exact ⟨0, q, by simp, hE, by simp⟩
      | false =>
        rcases ih (fun x hx => ha x (by simp [hx])) with h1 | ⟨t, p, hp, he, hb⟩
        · left
          intro x hx
          simp at hx
          rcases hx with rfl | hx
          · exact hE
          · exact h1 x hx
        · right
          refine ⟨t + 1, p, by simpa using hp, he, ?_⟩
          intro x hx
          simp at hx
          rcases hx with rfl | hx
          · exact hE
          · exact hb x hx

/-! ## What the operations do on a well-formed array-map -/

theorem Heap.store_frame {α : Type} {h h2 : Heap α} {s : Slice} {i : Nat} {v : Option α}
    (hs : h.store s i v = some h2) {b : Heap α} (hb : b <+: h) (hbl : b.length ≤ s.array) :
    b <+: h2 := by
  unfold Heap.store at hs
  split at hs
  · simp at hs
    subst hs
    exact Heap.isPrefix_set hb _ hbl _
  · simp at hs

theorem Heap.append_frame {α : Type} (grow : Nat → Nat) (h : Heap α) (s : Slice) (v : Option α)
    {b : Heap α} (hb : b <+: h) (hbl : b.length ≤ s.array) :
    b <+: (h.append grow s v).1 ∧ b.length ≤ (h.append grow s v).2.array := by
  unfold Heap.append
  split
  · exact ⟨Heap.isPrefix_set hb _ hbl _, hbl⟩
  · exact ⟨hb.trans (List.prefix_append _ _), hb.length_le⟩

theorem Clone_frame {α : Type} {h h1 : Heap α} {m res : ArrayMap}
    (hc : ArrayMap.Clone h m = some (h1, res)) :
    h <+: h1 ∧ h.length ≤ res.arr.array := by
  unfold ArrayMap.Clone Heap.make at hc
  split at hc
  · simp at hc
  · rename_i h1' s hmk
    split at hmk
    · simp at hmk hc
      obtain ⟨rfl, rfl⟩ := hmk
      obtain ⟨rfl, rfl⟩ := hc
      refine ⟨?_, le_refl _⟩
      unfold Heap.copy
      exact Heap.isPrefix_set (List.prefix_append _ _) _ (le_refl _) _
    · simp at hmk

theorem Clone_spec {α : Type} {h : Heap α} {m : ArrayMap} {ps : List (α × α)} (hm : m.Holds h ps) :
    ∃ h1 res, ArrayMap.Clone h m = some (h1, res) ∧ res.Holds h1 ps ∧
      res.arr.len = m.arr.len := by
  have hv := hm.1
  have hle : m.arr.len ≤ m.arr.cap := hv.1
  have hlen := hm.len
  have hpre : h <+: h ++ [List.replicate m.arr.cap (none : Option α)] := List.prefix_append _ _
  refine ⟨Heap.copy (h ++ [List.replicate m.arr.cap (none : Option α)])
      ⟨h.length, 0, m.arr.len, m.arr.cap⟩ m.arr, ⟨⟨h.length, 0, m.arr.len, m.arr.cap⟩⟩,
    by simp [ArrayMap.Clone, Heap.make, hle], ?_, rfl⟩
  have hview : Heap.view (h ++ [List.replicate m.arr.cap (none : Option α)]) m.arr = flat ps := by
    rw [Heap.view_mono hv hpre]; exact hm.2
  have harr : Heap.arrayAt (Heap.copy (h ++ [List.replicate m.arr.cap (none : Option α)])
      ⟨h.length, 0, m.arr.len, m.arr.cap⟩ m.arr) h.length
      = flat ps ++ List.replicate (m.arr.cap - m.arr.len) none := by
    unfold Heap.copy
    simp only
    rw [Heap.arrayAt_set_same _ _ _ (by simp), hview, Heap.arrayAt_append_new]
    have : (flat ps).take m.arr.len = flat ps := by
      apply List.take_of_length_le
      rw [flat_length]; omega
    rw [this]
    simp [flat_length, ← hlen]
  constructor
  · unfold Slice.Valid
    simp only
    rw [harr]
    simp [flat_length]
    omega
  · unfold Heap.view
    simp only
    rw [harr]
    simp only [List.drop_zero]
    apply List.take_left'
    rw [flat_length]; omega

theorem Get_absent {α : Type} [Equality α] {h : Heap α} {m : ArrayMap} {ps : List (α × α)}
    (hm : m.Holds h ps)
    {key : α} (ha : Absent ps key) : ArrayMap.Get h m key = some (false, none) := by
  unfold ArrayMap.Get
  rw [indexOf_eq_scan hm, scan_absent ha]
  simp

theorem Get_firstAt {α : Type} [Equality α] {h : Heap α} {m : ArrayMap} {ps : List (α × α)}
    (hm : m.Holds h ps)
    {key : α} {t : Nat} {p : α × α} (hp : ps[t]? = some p) (hf : FirstAt ps key t) :
    ArrayMap.Get h m key = some (true, some p.2) := by
  unfold ArrayMap.Get
  rw [indexOf_eq_scan hm, scan_firstAt hf]
  have h1 : ((2 * ((0 + t : Nat) : Int)) != -1) = true := by
    simp; omega
  have h2 : (2 * ((0 + t : Nat) : Int) + 1).toNat = 2 * t + 1 := by omega
  simp only [h1, if_true, h2, hm.index, flat_value ps t p hp]

theorem Assoc_frame {α : Type} [Equality α] {H : Type} (X : Extern α H) {h h2 : Heap α}
    {m : ArrayMap} {key value : α}
    {b : Associative H} (ha : ArrayMap.Assoc X h m key value = some (h2, b)) : h <+: h2 := by
  unfold ArrayMap.Assoc at ha
  split at ha
  · simp at ha
  · rename_i i hi
    split at ha
    · split at ha
      · simp at ha
      · rename_i h1 res hc
        obtain ⟨hp, hl⟩ := Clone_frame hc
        split at ha
        · rename_i h3 hs
          simp at ha
          obtain ⟨rfl, -⟩ := ha
          exact Heap.store_frame hs hp hl
        · simp at ha
    · split at ha
      · simp at ha
        obtain ⟨rfl, -⟩ := ha
        exact List.prefix_refl _
      · split at ha
        · simp at ha
        · rename_i h1 res hc
          obtain ⟨hp, hl⟩ := Clone_frame hc
          simp at ha
          obtain ⟨rfl, -⟩ := ha
          have a1 := Heap.append_frame X.growslice h1 res.arr (some key) hp hl
          exact (Heap.append_frame X.growslice _ _ (some value) a1.1 a1.2).1

theorem Assoc_absent_small {α : Type} [Equality α] {H : Type} (X : Extern α H) {h : Heap α}
    {m : ArrayMap}
    {ps : List (α × α)} (hm : m.Holds h ps) {key : α} (value : α) (ha : Absent ps key)
    (hs : m.arr.len < HASHMAP_THRESHOLD) :
    ∃ h2 r, ArrayMap.Assoc X h m key value = some (h2, .arrayMap r) ∧
      r.Holds h2 (ps ++ [(key, value)]) := by
  obtain ⟨h1, res, hc, hres, -⟩ := Clone_spec hm
  have a1 := Heap.append_spec X.growslice hres.1 (some key)
  have a2 := Heap.append_spec X.growslice a1.1 (some value)
  refine ⟨_, ⟨(Heap.append X.growslice (Heap.append X.growslice h1 res.arr (some key)).1
      (Heap.append X.growslice h1 res.arr (some key)).2 (some value)).2⟩, ?_, ⟨a2.1, ?_⟩⟩
  · unfold ArrayMap.Assoc
    rw [indexOf_eq_scan hm, scan_absent ha]
    have : ¬ m.arr.len ≥ HASHMAP_THRESHOLD := by omega
    simp [this, hc]
  · rw [a2.2.1, a1.2.1, hres.2, flat_append]
    simp [flat]

theorem Assoc_absent_big {α : Type} [Equality α] {H : Type} (X : Extern α H) {h : Heap α}
    {m : ArrayMap}
    {ps : List (α × α)} (hm : m.Holds h ps) {key : α} (value : α) (ha : Absent ps key)
    (hs : HASHMAP_THRESHOLD ≤ m.arr.len) :
    ArrayMap.Assoc X h m key value =
      some (h, .hashMap (X.HashMapAssoc (X.NewHashMap (flat ps)) key value)) := by
  unfold ArrayMap.Assoc
  rw [indexOf_eq_scan hm, scan_absent ha]
  simp [hs, hm.2]

theorem Assoc_firstAt {α : Type} [Equality α] {H : Type} (X : Extern α H) {h : Heap α}
    {m : ArrayMap}
    {ps : List (α × α)} (hm : m.Holds h ps) {key : α} (value : α) {t : Nat} {p : α × α}
    (hp : ps[t]? = some p) (hf : FirstAt ps key t) :
    ∃ h2 r, ArrayMap.Assoc X h m key value = some (h2, .arrayMap r) ∧
      r.Holds h2 (ps.set t (p.1, value)) := by
  obtain ⟨h1, res, hc, hres, hl⟩ := Clone_spec hm
  have htl : t < ps.length := by
    by_contra hn
    rw [List.getElem?_eq_none (by omega)] at hp
    simp at hp
  have hi : 2 * t + 1 < res.arr.len := by rw [hl, hm.len]; omega
  obtain ⟨h2, hst, hview, hvalid, -⟩ := Heap.store_spec hres.1 hi (some value)
  refine ⟨h2, res, ?_, hvalid, ?_⟩
  · unfold ArrayMap.Assoc
    rw [indexOf_eq_scan hm, scan_firstAt hf]
    have h1 : ((2 * ((0 + t : Nat) : Int)) != -1) = true := by
      simp; omega
    have h2 : (2 * ((0 + t : Nat) : Int) + 1).toNat = 2 * t + 1 := by omega
    simp only [h1, if_true, h2, hc, hst]
  · rw [hview, hres.2]
    exact flat_set_value ps t p hp value

theorem store_withResult {α : Type} (h0 : Heap α) (cap len : Nat) (cells : List (Option α))
    (v : Option α) (hj : cells.length < len) (hc : len ≤ cap) :
    Heap.store (withResult h0 cap cells) ⟨h0.length, 0, len, cap⟩ cells.length v =
      some (withResult h0 cap (cells ++ [v])) := by
  unfold Heap.store withResult
  simp only [hj, if_true, Heap.arrayAt_append_new, Nat.zero_add]
  congr 1
  rw [List.set_append_right _ _ (le_refl _)]
  simp only [Nat.sub_self, List.set_cons_zero]
  congr 2
  rw [List.set_append_right _ _ (le_refl _)]
  simp only [Nat.sub_self]
  obtain ⟨c, hc2⟩ : ∃ c, cap - cells.length = c + 1 := ⟨cap - cells.length - 1, by omega⟩
  rw [hc2]
  simp only [List.replicate_succ, List.set_cons_zero, List.length_append, List.length_singleton]
  have : cap - (cells.length + 1) = c := by omega
  rw [this]
  simp

theorem index_withResult {α : Type} {h0 : Heap α} {m : ArrayMap} {ps : List (α × α)}
    (hm : m.Holds h0 ps) (cap : Nat) (cells : List (Option α)) (i : Nat) :
    Heap.index (withResult h0 cap cells) m.arr i = (flat ps)[i]? :=
  (hm.later_holds (List.prefix_append _ _)).index i

theorem withoutLoop_eq {α : Type} [Equality α] {h0 : Heap α} {m : ArrayMap} {ps : List (α × α)}
    (hm : m.Holds h0 ps) (key : α) :
    ∀ fuel n (acc : List (α × α)), n ≤ ps.length → ps.length ≤ fuel + n → acc.length ≤ n →
      ArrayMap.withoutLoop m ⟨⟨h0.length, 0, m.arr.len, m.arr.cap⟩⟩ key fuel
          (withResult h0 m.arr.cap (flat acc)) (2 * n) (2 * acc.length) =
        match keptOpt key (ps.drop n) with
        | none => none
        | some ks => some (withResult h0 m.arr.cap (flat (acc ++ ks)), 2 * ps.length,
            2 * (acc ++ ks).length) := by
  have hlen := hm.len
  have hcap : m.arr.len ≤ m.arr.cap := hm.1.1
  intro fuel
  induction fuel with
  | zero =>
    intro n acc hn hf ha
    have : n = ps.length := by omega
    subst this
    simp [ArrayMap.withoutLoop, hlen, keptOpt]
  | succ fuel ih =>
    intro n acc hn hf ha
    by_cases hlt : n < ps.length
    · have hd : ps.drop n = ps[n] :: ps.drop (n + 1) := (List.drop_eq_getElem_cons hlt)
      have hk := flat_key ps n ps[n] (by simp [hlt])
      have hv := flat_value ps n ps[n] (by simp [hlt])
      have hi : 2 * n < m.arr.len := by omega
      rw [hd]
      unfold ArrayMap.withoutLoop keptOpt
      simp only [hi, if_true, index_withResult hm, hk]
      cases hE : Equality.Equals ps[n].1 key with
      | none => rfl
      | some b =>
        cases b with
        | true =>
          simp only
          have := ih (n + 1) acc (by omega) (by omega) (by omega)
          have e : 2 * (n + 1) = 2 * n + 2 := by omega
          rw [e] at this
          exact this
        | false =>
          simp only
          have hl1 : (flat acc).length = 2 * acc.length := flat_length acc
          have s1 := store_withResult h0 m.arr.cap m.arr.len (flat acc) (some ps[n].1)
            (by omega) hcap
          rw [hl1] at s1
          rw [s1]
          simp only [index_withResult hm, hv]
          have hl2 : (flat acc ++ [some ps[n].1]).length = 2 * acc.length + 1 := by
            simp [hl1]
          have s2 := store_withResult h0 m.arr.cap m.arr.len (flat acc ++ [some ps[n].1])
            (some ps[n].2) (by omega) hcap
          rw [hl2] at s2
          rw [s2]
          have hfa : flat acc ++ [some ps[n].1] ++ [some ps[n].2] = flat (acc ++ [ps[n]]) := by
            rw [flat_append]; simp [flat]
          rw [hfa]
          have := ih (n + 1) (acc ++ [ps[n]]) (by omega) (by omega) (by simp; omega)
          have e : 2 * (n + 1) = 2 * n + 2 := by omega
          have e2 : 2 * (acc ++ [ps[n]]).length = 2 * acc.length + 2 := by simp; omega
          rw [e, e2] at this
          dsimp only
          rw [this]
          cases keptOpt key (List.drop (n + 1) ps) with
          | none => rfl
          | some ks => simp
    · have : n = ps.length := by omega
      subst this
      simp [ArrayMap.withoutLoop, hlen, keptOpt]

theorem keptOpt_length_le {α : Type} [Equality α] {key : α} {ps ks : List (α × α)}
    (hk : keptOpt key ps = some ks) :
    ks.length ≤ ps.length := by
  induction ps generalizing ks with
  | nil => simp [keptOpt] at hk; subst hk; simp
  | cons p ps ih =>
    unfold keptOpt at hk
    cases hE : Equality.Equals p.1 key with
    | none => rw [hE] at hk; simp at hk
    | some b =>
      rw [hE] at hk
      cases b with
      | true =>
        have := ih hk
        simp; omega
      | false =>
        cases hk2 : keptOpt key ps with
        | none => rw [hk2] at hk; simp at hk
        | some ks2 =>
          rw [hk2] at hk
          simp at hk
          subst hk
          have := ih hk2
          simp; omega

theorem answers_of_keptOpt {α : Type} [Equality α] {key : α} {ps ks : List (α × α)}
    (hk : keptOpt key ps = some ks) :
    Answers ps key := by
  induction ps generalizing ks with
  | nil => intro p hp; simp at hp
  | cons p ps ih =>
    unfold keptOpt at hk
    cases hE : Equality.Equals p.1 key with
    | none => rw [hE] at hk; simp at hk
    | some b =>
      rw [hE] at hk
      have hrest : Answers ps key := by
        cases b with
        | true => exact ih hk
        | false =>
          cases hk2 : keptOpt key ps with
          | none => rw [hk2] at hk; simp at hk
          | some ks2 => exact ih hk2
      intro x hx
      simp at hx
      rcases hx with rfl | hx
      · rw [hE]; simp
      · exact hrest x hx

theorem Without_eq {α : Type} [Equality α] {h : Heap α} {m : ArrayMap} {ps : List (α × α)}
    (hm : m.Holds h ps)
    (key : α) :
    ArrayMap.Without h m key =
      match keptOpt key ps with
      | none => none
      | some ks => some (withResult h m.arr.cap (flat ks),
          ⟨⟨h.length, 0, 2 * ks.length, m.arr.cap⟩⟩) := by
  have hcap : m.arr.len ≤ m.arr.cap := hm.1.1
  have hl := withoutLoop_eq hm key m.arr.len 0 [] (by omega) (by rw [hm.len]; omega) (by simp)
  have e0 : withResult h m.arr.cap (flat ([] : List (α × α)))
      = h ++ [List.replicate m.arr.cap none] := by
    simp [withResult, flat]
  rw [e0] at hl
  unfold ArrayMap.Without Heap.make
  simp only [hcap, if_true]
  simp only [List.length_nil, Nat.mul_zero, List.drop_zero, List.nil_append] at hl
  rw [hl]
  cases hk : keptOpt key ps with
  | none => rfl
  | some ks =>
    simp only
    by_cases hij : 2 * ps.length = 2 * ks.length
    · simp [hij, hm.len]
    · have hkl : ks.length ≤ ps.length := keptOpt_length_le hk
      have hlen := hm.len
      have hj : 2 * ks.length ≤ m.arr.cap := by omega
      simp [hij, Slice.upTo, hj]

theorem Without_holds {α : Type} (h : Heap α) (ks : List (α × α)) (cap : Nat)
    (hks : 2 * ks.length ≤ cap) :
    ArrayMap.Holds (withResult h cap (flat ks)) ⟨⟨h.length, 0, 2 * ks.length, cap⟩⟩ ks := by
  constructor
  · unfold Slice.Valid withResult
    simp only
    rw [Heap.arrayAt_append_new]
    simp [flat_length]
    omega
  · unfold Heap.view withResult
    simp only
    rw [Heap.arrayAt_append_new]
    simp only [List.drop_zero]
    apply List.take_left'
    rw [flat_length]

theorem scan_cases {α : Type} [Equality α] (key : α) (ps : List (α × α)) (n : Nat) :
    (scan key ps n = none ∧ lookup key ps = none) ∨
    (Absent ps key ∧ lookup key ps = some (false, none)) ∨
    (∃ t p, ps[t]? = some p ∧ FirstAt ps key t ∧ lookup key ps = some (true, some p.2)) := by
  induction ps generalizing n with
  | nil => right; left; exact ⟨fun p hp => by simp at hp, rfl⟩
  | cons q qs ih =>
    cases hE : Equality.Equals q.1 key with
    | none => left; simp [scan, lookup, hE]
    | some b =>
      cases b with
      | true =>
        right; right
        exact ⟨0, q, by simp, ⟨q, by simp, hE, by simp⟩, by simp [lookup, hE]⟩
      | false =>
        rcases ih (n + 1) with ⟨h1, h2⟩ | ⟨h1, h2⟩ | ⟨t, p, hp, ⟨p2, hp2, he, hb⟩, hl⟩
        · left; simp [scan, lookup, hE, h1, h2]
        · right; left
          refine ⟨?_, by simp [lookup, hE, h2]⟩
          intro x hx
          simp at hx
          rcases hx with rfl | hx
          · exact hE
          · exact h1 x hx
        · right; right
          refine ⟨t + 1, p, by simpa using hp, ⟨p2, by simpa using hp2, he, ?_⟩,
            by simp [lookup, hE, hl]⟩
          intro x hx
          simp at hx
          rcases hx with rfl | hx
          · exact hE
          · exact hb x hx

theorem Get_eq_lookup {α : Type} [Equality α] {h : Heap α} {m : ArrayMap} {ps : List (α × α)}
    (hm : m.Holds h ps)
    (key : α) : ArrayMap.Get h m key = lookup key ps := by
  rcases scan_cases key ps 0 with ⟨h1, h2⟩ | ⟨h1, h2⟩ | ⟨t, p, hp, hf, hl⟩
  · rw [h2]
    unfold ArrayMap.Get
    rw [indexOf_eq_scan hm, h1]
  · rw [h2]; exact Get_absent hm h1
  · rw [hl]; exact Get_firstAt hm hp hf

theorem EmptyArrayMap_holds {α : Type} (h : Heap α) : EmptyArrayMap.Holds h ([] : List (α × α))
    := by
  constructor
  · unfold Slice.Valid EmptyArrayMap
    simp
  · unfold Heap.view EmptyArrayMap
    simp [flat]

/-- What `Assoc` does on a well-formed array-map, by the outcome of the search. -/
theorem Assoc_cases {α : Type} [Equality α] {H : Type} (X : Extern α H) {h h2 : Heap α}
    {m : ArrayMap}
    {ps : List (α × α)} (hm : m.Holds h ps) {key value : α} {r : ArrayMap}
    (ha : ArrayMap.Assoc X h m key value = some (h2, .arrayMap r)) :
    (Absent ps key ∧ m.arr.len < HASHMAP_THRESHOLD ∧ r.Holds h2 (ps ++ [(key, value)])) ∨
    (∃ t p, ps[t]? = some p ∧ FirstAt ps key t ∧ r.Holds h2 (ps.set t (p.1, value))) := by
  rcases scan_cases key ps 0 with ⟨h1, -⟩ | ⟨h1, -⟩ | ⟨t, p, hp, hf, -⟩
  · unfold ArrayMap.Assoc at ha
    rw [indexOf_eq_scan hm, h1] at ha
    simp at ha
  · left
    by_cases hs : m.arr.len < HASHMAP_THRESHOLD
    · obtain ⟨h3, r3, e, hr⟩ := Assoc_absent_small X hm value h1 hs
      rw [e] at ha
      simp at ha
      obtain ⟨rfl, rfl⟩ := ha
      exact ⟨h1, hs, hr⟩
    · rw [Assoc_absent_big X hm value h1 (by omega)] at ha
      simp at ha
  · right
    obtain ⟨h3, r3, e, hr⟩ := Assoc_firstAt X hm value hp hf
    rw [e] at ha
    simp at ha
    obtain ⟨rfl, rfl⟩ := ha
    exact ⟨t, p, hp, hf, hr⟩

theorem reachable_holds {α : Type} [Equality α] {H : Type} (X : Extern α H) {h : Heap α}
    {m : ArrayMap}
    (hr : Reachable X h m) : ∃ ps : List (α × α), m.Holds h ps ∧ ps.length ≤ 8 := by
  induction hr with
  | empty h => exact ⟨[], EmptyArrayMap_holds h, by simp⟩
  | later _ hp ih =>
    obtain ⟨ps, hm, hl⟩ := ih
    exact ⟨ps, hm.later_holds hp, hl⟩
  | assoc key value _ ha ih =>
    obtain ⟨ps, hm, hl⟩ := ih
    rcases Assoc_cases X hm ha with ⟨-, hs, hr⟩ | ⟨t, p, -, -, hr⟩
    · refine ⟨_, hr, ?_⟩
      have := hm.len
      unfold HASHMAP_THRESHOLD at hs
      simp
      omega
    · exact ⟨_, hr, by simpa using hl⟩
  | @without h0 h3 m0 r0 key _ hw ih =>
    obtain ⟨ps, hm, hl⟩ := ih
    rw [Without_eq hm] at hw
    cases hk : keptOpt key ps with
    | none => rw [hk] at hw; simp at hw
    | some ks =>
      rw [hk] at hw
      simp at hw
      obtain ⟨rfl, rfl⟩ := hw
      have hkl := keptOpt_length_le hk
      have := hm.len
      have hc : m0.arr.len ≤ m0.arr.cap := hm.1.1
      exact ⟨ks, Without_holds _ ks _ (by omega), by omega⟩

theorem lookup_append_absent {α : Type} [Equality α] {ps : List (α × α)} {key : α}
    (ha : Absent ps key)
    (qs : List (α × α)) : lookup key (ps ++ qs) = lookup key qs := by
  induction ps with
  | nil => rfl
  | cons p ps ih =>
    have hp := ha p (by simp)
    simp only [List.cons_append, lookup, hp]
    exact ih (fun x hx => ha x (by simp [hx]))

theorem lookup_append_other {α : Type} [Equality α] (ps : List (α × α)) {k k2 : α} (v : α)
    (hne : Equality.Equals k k2 = some false) :
    lookup k2 (ps ++ [(k, v)]) = lookup k2 ps := by
  induction ps with
  | nil => simp [lookup, hne]
  | cons p ps ih =>
    simp only [List.cons_append, lookup]
    rw [show ps.append [(k, v)] = ps ++ [(k, v)] from rfl, ih]

theorem lookup_set_hit {α : Type} [Equality α] {ps : List (α × α)} {key : α} {t : Nat} {p : α × α}
    (hp : ps[t]? = some p) (hf : FirstAt ps key t) (v : α) :
    lookup key (ps.set t (p.1, v)) = some (true, some v) := by
  induction ps generalizing t with
  | nil => simp at hp
  | cons q qs ih =>
    obtain ⟨p2, hp2, he, hb⟩ := hf
    cases t with
    | zero =>
      simp at hp hp2
      subst hp
      subst hp2
      simp [lookup, he]
    | succ t =>
      simp at hp hp2
      have hq := hb q (by simp)
      simp only [List.set_cons_succ, lookup, hq]
      exact ih hp ⟨p2, hp2, he, fun x hx => hb x (by simp [hx])⟩

theorem lookup_set_other {α : Type} [Equality α] {ps : List (α × α)} {k2 : α} {t : Nat} {p : α × α}
    (hp : ps[t]? = some p) (hne : Equality.Equals p.1 k2 ≠ some true) (v : α) :
    lookup k2 (ps.set t (p.1, v)) = lookup k2 ps := by
  induction ps generalizing t with
  | nil => simp at hp
  | cons q qs ih =>
    cases t with
    | zero =>
      simp at hp
      subst hp
      simp only [List.set_cons_zero, lookup]
      cases hE : Equality.Equals q.1 k2 with
      | none => rfl
      | some b =>
        cases b with
        | true => exact absurd hE hne
        | false => rfl
    | succ t =>
      simp at hp
      simp only [List.set_cons_succ, lookup, ih hp]

theorem walk_from {α : Type} {h : Heap α} {m : ArrayMap} {ps : List (α × α)} (hm : m.Holds h ps) :
    ∀ fuel n, n ≤ ps.length → ps.length ≤ fuel + n →
      Seq.walk h fuel (.arrayMapSeq ⟨m, 2 * n⟩) = some ((ps.drop n).map entry) := by
  have hlen := hm.len
  intro fuel
  induction fuel with
  | zero =>
    intro n hn hf
    have : n = ps.length := by omega
    subst this
    simp [Seq.walk, Seq.IsEmpty, ArrayMapSeq.IsEmpty, hlen]
  | succ fuel ih =>
    intro n hn hf
    by_cases hlt : n < ps.length
    · have hd : ps.drop n = ps[n] :: ps.drop (n + 1) := (List.drop_eq_getElem_cons hlt)
      have hk := flat_key ps n ps[n] (by simp [hlt])
      have hv := flat_value ps n ps[n] (by simp [hlt])
      have hi : 2 * n < m.arr.len := by omega
      have hi2 : ¬ m.arr.len ≤ 2 * n := by omega
      have := ih (n + 1) (by omega) (by omega)
      have e : 2 * (n + 1) = 2 * n + 2 := by omega
      rw [e] at this
      simp only [Seq.walk, Seq.IsEmpty, ArrayMapSeq.IsEmpty, ge_iff_le, decide_eq_true_eq, hi2,
        if_false, Seq.First, ArrayMapSeq.First, hi, if_true, hm.index, hk, hv, Seq.Rest,
        ArrayMapSeq.Rest, this, hd, List.map_cons, entry]
    · have : n = ps.length := by omega
      subst this
      simp [Seq.walk, Seq.IsEmpty, ArrayMapSeq.IsEmpty, hlen]

theorem walk_all {α : Type} {h : Heap α} {m : ArrayMap} {ps : List (α × α)} (hm : m.Holds h ps)
    (fuel : Nat) (hf : m.Count ≤ fuel) :
    Seq.walk h fuel (.arrayMapSeq m.Seq) = some (ps.map entry) := by
  have := walk_from hm fuel 0 (by omega) (by rw [← hm.count]; omega)
  simpa [ArrayMap.Seq] using this

/-! ## Keys that `Equals` a common key -/

theorem BigRat.cmp_eq_zero (x y : BigRat) :
    x.Cmp y = 0 ↔ x.a * (y.denom : Int) = y.a * (x.denom : Int) := by
  unfold BigRat.Cmp
  by_cases h1 : x.a * (y.denom : Int) < y.a * (x.denom : Int)
  · simp [h1]; omega
  · by_cases h2 : x.a * (y.denom : Int) = y.a * (x.denom : Int)
    · simp [h2]
    · simp [h1, h2]

theorem BigRat.cmp_symm {x y : BigRat} (h1 : x.Cmp y = 0) : y.Cmp x = 0 := by
  rw [BigRat.cmp_eq_zero] at *
  exact h1.symm

/-- C1 (amended): for every well-formed array-map `m`, value `v` and key `k` that is
not present in `m`: if `len(m.arr) < 16`, that is `m.Count() < 8`, then
`m.Assoc(k, v)` is an array-map that holds the pairs of `m` followed by `(k, v)`, so
its `Count()` is `m.Count() + 1`; if `m.Count() >= 8` then `m.Assoc(k, v)` is the
hash-map `NewHashMap(m.arr...).Assoc(k, v)`.  The threshold 16 bounds the slots of
the flat list, two per pair. -/
theorem C1_assoc_promotes_at_eight_pairs {α : Type} [Equality α] {H : Type} (X : Extern α H)
    (h : Heap α)
    (m : ArrayMap) (ps : List (α × α)) (k v : α) (hm : m.Holds h ps) (hk : Absent ps k) :
    (m.Count < 8 → ∃ h2 r, ArrayMap.Assoc X h m k v = some (h2, .arrayMap r) ∧
        r.Holds h2 (ps ++ [(k, v)]) ∧ r.Count = m.Count + 1) ∧
    (8 ≤ m.Count → ArrayMap.Assoc X h m k v =
        some (h, .hashMap (X.HashMapAssoc (X.NewHashMap (h.view m.arr)) k v))) := by
  have hl := hm.len
  have hc := hm.count
  constructor
  · intro hlt
    obtain ⟨h2, r, e, hr⟩ := Assoc_absent_small X hm v hk (by unfold HASHMAP_THRESHOLD; omega)
    exact ⟨h2, r, e, hr, by rw [hr.count, hc]; simp⟩
  · intro hge
    rw [hm.2]
    exact Assoc_absent_big X hm v hk (by unfold HASHMAP_THRESHOLD; omega)

/-- C1, worked instance: an array-map of two integer keys takes a third key and
stays an array-map. -/
theorem C1_promotes_witness :
    (fullMap 0 4).Holds [flat (intPairs 0 2)] (intPairs 0 2) ∧
    Absent (intPairs 0 2) (Object.int 100 : Obj) ∧
    ((fullMap 0 4).Count < 8 → ∃ h2 r,
        ArrayMap.Assoc sampleExtern [flat (intPairs 0 2)] (fullMap 0 4)
          (Object.int 100) (Object.int 0) = some (h2, .arrayMap r) ∧
        r.Holds h2 (intPairs 0 2 ++ [(Object.int 100, Object.int 0)]) ∧
        r.Count = (fullMap 0 4).Count + 1) ∧
    (8 ≤ (fullMap 0 4).Count →
        ArrayMap.Assoc sampleExtern [flat (intPairs 0 2)] (fullMap 0 4)
          (Object.int 100) (Object.int 0) =
        some ([flat (intPairs 0 2)], .hashMap (sampleExtern.HashMapAssoc
          (sampleExtern.NewHashMap (Heap.view [flat (intPairs 0 2)] (fullMap 0 4).arr))
          (Object.int 100) (Object.int 0)))) :=
  ⟨by unfold ArrayMap.Holds Slice.Valid; decide, by unfold Absent; decide,
    C1_assoc_promotes_at_eight_pairs sampleExtern [flat (intPairs 0 2)] (fullMap 0 4)
      (intPairs 0 2) (Object.int 100) (Object.int 0)
      (by unfold ArrayMap.Holds Slice.Valid; decide) (by unfold Absent; decide)⟩

/-- C1 as stated fails: an array-map of 8 pairs has `Count() = 8 < 16`, the key 100
is not present, and `Assoc` of it returns a hash-map, not an array-map of 9 pairs. -/
theorem C1_eight_pairs_counterexample :
    (fullMap 0 16).Holds [flat (intPairs 0 8)] (intPairs 0 8) ∧
    Absent (intPairs 0 8) (Object.int 100 : Obj) ∧
    (fullMap 0 16).Count = 8 ∧
    ArrayMap.Assoc sampleExtern [flat (intPairs 0 8)] (fullMap 0 16)
        (Object.int 100) (Object.int 0) =
      some ([flat (intPairs 0 8)],
        .hashMap (flat (intPairs 0 8) ++ [some (Object.int 100), some (Object.int 0)])) :=
  ⟨by unfold ArrayMap.Holds Slice.Valid; decide, by unfold Absent; decide, by decide,
    by decide⟩

/-- C2 (the code at the failing input): merging two array-maps of 8 pairs with
different keys gives an array-map of 16 pairs, and merging that one with an
array-map of one further key gives an array-map of 17 pairs: `Merge` goes through
`Set`, which appends without looking at `HASHMAP_THRESHOLD`. -/
theorem C2_merge_passes_sixteen_pairs :
    (ArrayMap.Merge (fun c => 2 * c)
        [flat (intPairs 0 8), flat (intPairs 8 8), flat (intPairs 16 1)]
        (fullMap 0 16) (fullMap 1 16)).bind
      (fun r1 => (ArrayMap.Merge (fun c => 2 * c) r1.1 r1.2 (fullMap 2 2)).map
        (fun r2 => (r1.2.Count, r2.1.view r1.2.arr == flat (intPairs 0 16), r2.2.Count,
          r2.1.view r2.2.arr == flat (intPairs 0 17)))) =
      some (16, true, 17, true) := by
  decide

/-- C3: every array-map reachable from `EmptyArrayMap()` by `Assoc` calls (while the
result is an array-map) and `Without` calls holds at most 16 key/value pairs; its
flat list has at most `HASHMAP_THRESHOLD` slots. -/
theorem C3_reachable_count_le_sixteen {α : Type} [Equality α] {H : Type} (X : Extern α H)
    (h : Heap α) (m : ArrayMap) (hr : Reachable X h m) :
    m.Count ≤ 16 ∧ m.arr.len ≤ HASHMAP_THRESHOLD := by
  obtain ⟨ps, hm, hl⟩ := reachable_holds X hr
  rw [hm.count, hm.len]
  unfold HASHMAP_THRESHOLD
  omega

/-- C3, worked instance: the array-map that one `Assoc` builds from the empty one. -/
theorem C3_reachable_witness :
    Reachable sampleExtern
      [[], [some (Object.int 1)], [some (Object.int 1), some (Object.int 2)]] ⟨⟨2, 0, 2, 2⟩⟩ ∧
    ((⟨⟨2, 0, 2, 2⟩⟩ : ArrayMap).Count ≤ 16 ∧
      (⟨⟨2, 0, 2, 2⟩⟩ : ArrayMap).arr.len ≤ HASHMAP_THRESHOLD) :=
  have hr : Reachable sampleExtern
      [[], [some (Object.int 1)], [some (Object.int 1), some (Object.int 2)]] ⟨⟨2, 0, 2, 2⟩⟩ :=
    Reachable.assoc (Object.int 1) (Object.int 2) (Reachable.empty []) (by decide)
  ⟨hr, C3_reachable_count_le_sixteen sampleExtern
      [[], [some (Object.int 1)], [some (Object.int 1), some (Object.int 2)]] ⟨⟨2, 0, 2, 2⟩⟩ hr⟩

/-- C4: when `m.Assoc(k, v)` is an array-map `r` and `Equals` is an equivalence
relation on the keys involved (`k`, `k2` and the keys of `m`), `r.Get(k)` is
`(true, v)` and, for `k2` not `Equals` to `k`, `r.Get(k2)` is `m.Get(k2)`. -/
theorem C4_get_after_assoc {α : Type} [Equality α] {H : Type} (X : Extern α H) (h h2 : Heap α)
    (m r : ArrayMap)
    (ps : List (α × α)) (k v k2 : α) (hm : m.Holds h ps)
    (hE : EquivOn (k :: k2 :: ps.map Prod.fst))
    (hr : ArrayMap.Assoc X h m k v = some (h2, .arrayMap r)) :
    r.Get h2 k = some (true, some v) ∧
    (Equality.Equals k2 k = some false → r.Get h2 k2 = m.Get h k2) := by
  obtain ⟨hans, hrefl, hsymm, htrans⟩ := hE
  have hk : k ∈ k :: k2 :: ps.map Prod.fst := List.mem_cons_self _ _
  have hk2 : k2 ∈ k :: k2 :: ps.map Prod.fst := List.mem_cons_of_mem _ (List.mem_cons_self _ _)
  have hkk := hrefl k hk
  rcases Assoc_cases X hm hr with ⟨habs, -, hrh⟩ | ⟨t, p, hp, hf, hrh⟩
  · constructor
    · rw [Get_eq_lookup hrh, lookup_append_absent habs]
      simp [lookup, hkk]
    · intro hne
      have hkk2 : Equality.Equals k k2 = some false := by
        cases hx : Equality.Equals k k2 with
        | none => exact absurd hx (hans k hk k2 hk2)
        | some b =>
          cases b with
          | false => rfl
          | true =>
            have := hsymm k hk k2 hk2 hx
            rw [this] at hne
            simp at hne
      rw [Get_eq_lookup hrh, Get_eq_lookup hm, lookup_append_other ps v hkk2]
  · constructor
    · rw [Get_eq_lookup hrh]
      exact lookup_set_hit hp hf v
    · intro hne
      have hpm : p.1 ∈ k :: k2 :: ps.map Prod.fst :=
        List.mem_cons_of_mem _ (List.mem_cons_of_mem _
          (List.mem_map_of_mem Prod.fst (List.getElem?_mem hp)))
      obtain ⟨p2, hp2, he, -⟩ := hf
      rw [hp] at hp2
      simp at hp2
      subst hp2
      have hpk2 : Equality.Equals p.1 k2 ≠ some true := by
        intro hx
        have h1 := hsymm p.1 hpm k2 hk2 hx
        have h3 := htrans k2 hk2 p.1 hpm k hk h1 he
        rw [h3] at hne
        simp at hne
      rw [Get_eq_lookup hrh, Get_eq_lookup hm]
      exact lookup_set_other hp hpk2 v

/-- C5: for every well-formed array-map `a`, key `k` and value `v`: `a.Assoc(k, v)`
returns when every stored key answers `Equals(k)`, and whenever it returns, every
backing array that existed before the call has its old contents in the memory
after it (the heap before is an initial segment of the heap after).  So the entry
list of `a`, hence `a.Count()` and every `a.Get`, are the same as before, and so is
every other slice.  `Assoc` takes `a` by value here and returns no new struct for
it: it never assigns to `a.arr`. -/
theorem C5_assoc_leaves_memory {α : Type} [Equality α] {H : Type} (X : Extern α H)
    (h : Heap α) (a : ArrayMap) (ps : List (α × α)) (k v : α) (ha : a.Holds h ps) :
    (Answers ps k → ∃ h2 b, ArrayMap.Assoc X h a k v = some (h2, b)) ∧
    (∀ h2 b, ArrayMap.Assoc X h a k v = some (h2, b) →
      h <+: h2 ∧ h2.view a.arr = h.view a.arr ∧ a.Holds h2 ps ∧
      (∀ k2, a.Get h2 k2 = a.Get h k2) ∧
      (∀ s : Slice, s.Valid h → h2.view s = h.view s)) := by
  constructor
  · intro hans
    rcases absent_or_firstAt hans with habs | ⟨t, hf⟩
    · by_cases hs : a.arr.len < HASHMAP_THRESHOLD
      · obtain ⟨h2, r, e, -⟩ := Assoc_absent_small X ha v habs hs
        exact ⟨h2, _, e⟩
      · exact ⟨h, _, Assoc_absent_big X ha v habs (by omega)⟩
    · obtain ⟨p, hp, he, hb⟩ := hf
      obtain ⟨h2, r, e, -⟩ := Assoc_firstAt X ha v hp ⟨p, hp, he, hb⟩
      exact ⟨h2, _, e⟩
  · intro h2 b e
    have hp := Assoc_frame X e
    refine ⟨hp, Heap.view_mono ha.1 hp, ha.later_holds hp, ?_, ?_⟩
    · intro k2
      rw [Get_eq_lookup (ha.later_holds hp), Get_eq_lookup ha]
    · intro s hs
      exact Heap.view_mono hs hp

/-- C4, worked instance: the value of key 1 is replaced in an array-map of the keys
0 and 1; key 0 still reads as before. -/
theorem C4_get_after_assoc_witness :
    (fullMap 0 4).Holds [flat (intPairs 0 2)] (intPairs 0 2) ∧
    EquivOn ((Object.int 1 : Obj) :: Object.int 0 :: (intPairs 0 2).map Prod.fst) ∧
    ArrayMap.Assoc sampleExtern [flat (intPairs 0 2)] (fullMap 0 4) (Object.int 1)
        (Object.int 7) =
      some ([flat (intPairs 0 2),
          [some (Object.int 0), some (Object.int 0), some (Object.int 1), some (Object.int 7)]],
        .arrayMap (fullMap 1 4)) ∧
    (ArrayMap.Get [flat (intPairs 0 2),
          [some (Object.int 0), some (Object.int 0), some (Object.int 1), some (Object.int 7)]]
        (fullMap 1 4) (Object.int 1 : Obj) = some (true, some (Object.int 7)) ∧
      (Equality.Equals (Object.int 0 : Obj) (Object.int 1) = some false →
        ArrayMap.Get [flat (intPairs 0 2),
          [some (Object.int 0), some (Object.int 0), some (Object.int 1), some (Object.int 7)]]
          (fullMap 1 4) (Object.int 0 : Obj) =
        ArrayMap.Get [flat (intPairs 0 2)] (fullMap 0 4) (Object.int 0 : Obj))) :=
  ⟨by unfold ArrayMap.Holds Slice.Valid; decide, by unfold EquivOn; decide, by decide,
    C4_get_after_assoc sampleExtern [flat (intPairs 0 2)] _ (fullMap 0 4) (fullMap 1 4)
      (intPairs 0 2) (Object.int 1) (Object.int 7) (Object.int 0)
      (by unfold ArrayMap.Holds Slice.Valid; decide) (by unfold EquivOn; decide) (by decide)⟩

/-- C5, worked instance: `Assoc` of a new key on an array-map of two keys. -/
theorem C5_assoc_leaves_memory_witness :
    (fullMap 0 4).Holds [flat (intPairs 0 2)] (intPairs 0 2) ∧
    ((Answers (intPairs 0 2) (Object.int 100 : Obj) → ∃ h2 b,
        ArrayMap.Assoc sampleExtern [flat (intPairs 0 2)] (fullMap 0 4) (Object.int 100)
          (Object.int 0) = some (h2, b)) ∧
    (∀ h2 b, ArrayMap.Assoc sampleExtern [flat (intPairs 0 2)] (fullMap 0 4) (Object.int 100)
        (Object.int 0) = some (h2, b) →
      [flat (intPairs 0 2)] <+: h2 ∧
      h2.view (fullMap 0 4).arr = Heap.view [flat (intPairs 0 2)] (fullMap 0 4).arr ∧
      (fullMap 0 4).Holds h2 (intPairs 0 2) ∧
      (∀ k2, ArrayMap.Get h2 (fullMap 0 4) k2 =
        ArrayMap.Get [flat (intPairs 0 2)] (fullMap 0 4) k2) ∧
      (∀ s : Slice, s.Valid [flat (intPairs 0 2)] →
        h2.view s = Heap.view [flat (intPairs 0 2)] s))) :=
  ⟨by unfold ArrayMap.Holds Slice.Valid; decide,
    C5_assoc_leaves_memory sampleExtern [flat (intPairs 0 2)] (fullMap 0 4) (intPairs 0 2)
      (Object.int 100) (Object.int 0) (by unfold ArrayMap.Holds Slice.Valid; decide)⟩

/-- C7: iteration order of an array-map is insertion order.  Walking `m.Seq()` with
`First`/`Rest` until `IsEmpty` yields the `[key value]` entries of `m` in the order
of its list.  For a key `k` not in `m`, when `r = m.Assoc(k, v)` is an array-map,
walking `r.Seq()` yields the entries of `m` in the same order followed by `[k v]`,
exactly `r.Count()` of them.  For a key `k` already in `m`, `m.Assoc(k, v)` is an
array-map whose walk yields the same keys in the same positions, with only the
value of that key replaced. -/
theorem C7_seq_in_insertion_order {α : Type} [Equality α] {H : Type} (X : Extern α H) (h : Heap α)
    (m : ArrayMap)
    (ps : List (α × α)) (k v : α) (hm : m.Holds h ps) :
    (∀ fuel, m.Count ≤ fuel → Seq.walk h fuel (.arrayMapSeq m.Seq) = some (ps.map entry)) ∧
    (Absent ps k → ∀ h2 r, ArrayMap.Assoc X h m k v = some (h2, .arrayMap r) →
      (ps.map entry ++ [entry (k, v)]).length = r.Count ∧
      ∀ fuel, r.Count ≤ fuel →
        Seq.walk h2 fuel (.arrayMapSeq r.Seq) = some (ps.map entry ++ [entry (k, v)])) ∧
    (∀ t p, ps[t]? = some p → FirstAt ps k t →
      ∃ h2 r, ArrayMap.Assoc X h m k v = some (h2, .arrayMap r) ∧ r.Count = m.Count ∧
        ∀ fuel, r.Count ≤ fuel →
          Seq.walk h2 fuel (.arrayMapSeq r.Seq) = some ((ps.map entry).set t (entry (p.1, v)))) := by
  refine ⟨fun fuel hf => walk_all hm fuel hf, ?_, ?_⟩
  · intro habs h2 r hr
    rcases Assoc_cases X hm hr with ⟨-, -, hrh⟩ | ⟨t, p, hp, ⟨p2, hp2, he, -⟩, -⟩
    · refine ⟨by rw [hrh.count]; simp, fun fuel hf => ?_⟩
      rw [walk_all hrh fuel hf]
      simp
    · have := habs p2 (List.getElem?_mem hp2)
      rw [this] at he
      simp at he
  · intro t p hp hf
    obtain ⟨h2, r, e, hrh⟩ := Assoc_firstAt X hm v hp hf
    refine ⟨h2, r, e, by rw [hrh.count, hm.count]; simp, fun fuel hfu => ?_⟩
    rw [walk_all hrh fuel hfu, List.map_set]

/-- C7, worked instance: a third key put behind two, and the value of the second
key replaced. -/
theorem C7_seq_witness :
    (fullMap 0 4).Holds [flat (intPairs 0 2)] (intPairs 0 2) ∧
    ((∀ fuel, (fullMap 0 4).Count ≤ fuel →
        Seq.walk [flat (intPairs 0 2)] fuel (.arrayMapSeq (fullMap 0 4).Seq) =
          some ((intPairs 0 2).map entry)) ∧
    (Absent (intPairs 0 2) (Object.int 100 : Obj) → ∀ h2 r,
      ArrayMap.Assoc sampleExtern [flat (intPairs 0 2)] (fullMap 0 4) (Object.int 100)
        (Object.int 5) = some (h2, .arrayMap r) →
      ((intPairs 0 2).map entry ++ [entry (Object.int 100, Object.int 5)]).length = r.Count ∧
      ∀ fuel, r.Count ≤ fuel →
        Seq.walk h2 fuel (.arrayMapSeq r.Seq) =
          some ((intPairs 0 2).map entry ++ [entry (Object.int 100, Object.int 5)])) ∧
    (∀ t p, (intPairs 0 2)[t]? = some p → FirstAt (intPairs 0 2) (Object.int 100 : Obj) t →
      ∃ h2 r, ArrayMap.Assoc sampleExtern [flat (intPairs 0 2)] (fullMap 0 4) (Object.int 100)
          (Object.int 5) = some (h2, .arrayMap r) ∧ r.Count = (fullMap 0 4).Count ∧
        ∀ fuel, r.Count ≤ fuel →
          Seq.walk h2 fuel (.arrayMapSeq r.Seq) =
            some (((intPairs 0 2).map entry).set t (entry (p.1, Object.int 5))))) :=
  ⟨by unfold ArrayMap.Holds Slice.Valid; decide,
    C7_seq_in_insertion_order sampleExtern [flat (intPairs 0 2)] (fullMap 0 4) (intPairs 0 2)
      (Object.int 100) (Object.int 5) (by unfold ArrayMap.Holds Slice.Valid; decide)⟩

/-! ## The claims on equality, hash and metadata -/

theorem Cells.ne_of_free {β : Type} {mem : Cells β} {x fresh : Ptr} {res : β}
    (hf : mem.Free fresh) (hx : mem.deref x = some res) : (fresh == x) = false := by
  unfold Cells.deref at hx
  split at hx
  · simp at hx
  · have hmem : ∃ c ∈ mem, c.1 = x := by
      clear hf
      induction mem with
      | nil => simp [List.lookup] at hx
      | cons c cs ih =>
        unfold List.lookup at hx
        split at hx
        · rename_i heq
          exact ⟨c, by simp, by have := heq; simp at this; exact this.symm⟩
        · obtain ⟨d, hd, hdx⟩ := ih hx
          exact ⟨d, by simp [hd], hdx⟩
    obtain ⟨c, hc, hcx⟩ := hmem
    have := hf.2 c hc
    simp
    intro h
    exact this (by rw [hcx, h])

theorem Cells.deref_alloc_old {β : Type} {mem : Cells β} {x fresh : Ptr} {res : β} (v : β)
    (hf : mem.Free fresh) (hx : mem.deref x = some res) :
    (mem.alloc fresh v).deref x = some res := by
  have hne := Cells.ne_of_free hf hx
  unfold Cells.deref at *
  split at hx
  · simp at hx
  · rename_i h0
    simp only [h0, if_false, Cells.alloc, List.lookup]
    have : (x == fresh) = false := by
      simp at hne ⊢
      exact fun h => hne h.symm
    rw [this]
    exact hx

theorem Cells.deref_alloc_new {β : Type} (mem : Cells β) {fresh : Ptr} (v : β)
    (hf : mem.Free fresh) : (mem.alloc fresh v).deref fresh = some v := by
  unfold Cells.deref
  simp [hf.1, Cells.alloc, List.lookup]

/-- C8 (amended): for every function value, var or atom `x` that lives at an address
and every metadata map `m` with which `SafeMerge` returns, `x.WithMeta(m)` is a copy
of the struct of `x`, with the merged metadata, at a fresh address.  `Equals` and
`Hash` of these kinds go by address: `x.WithMeta(m).Equals(x)` is false, while
`x.Equals(x)` is true, and `x.WithMeta(m).Hash()` is `hashPtr` of the address of the
copy; `x` itself is left as it was. -/
theorem C8_withMeta_copy_is_another_object {M : Type} [Map M] (x fresh : Ptr) (meta mm : Option M) :
    (∀ (mem : Cells (Fn M)) (res : Fn M), mem.Free fresh → mem.deref x = some res →
      SafeMerge res.meta meta = some mm →
      Fn.WithMeta mem x meta fresh =
        some (mem.alloc fresh { res with meta := mm }, Object.fn fresh) ∧
      Object.Equals (Object.fn fresh : Object M) (Object.fn x) = some false ∧
      Object.Equals (Object.fn x : Object M) (Object.fn x) = some true ∧
      Fn.Hash fresh = hashPtr fresh ∧ Fn.Hash x = hashPtr x ∧
      (mem.alloc fresh { res with meta := mm }).deref fresh = some { res with meta := mm } ∧
      (mem.alloc fresh { res with meta := mm }).deref x = some res) ∧
    (∀ (mem : Cells (Var M)) (res : Var M), mem.Free fresh → mem.deref x = some res →
      SafeMerge res.meta meta = some mm →
      Var.WithMeta mem x meta fresh =
        some (mem.alloc fresh { res with meta := mm }, Object.var fresh) ∧
      Object.Equals (Object.var fresh : Object M) (Object.var x) = some false ∧
      Object.Equals (Object.var x : Object M) (Object.var x) = some true ∧
      Var.Hash fresh = hashPtr fresh ∧ Var.Hash x = hashPtr x ∧
      (mem.alloc fresh { res with meta := mm }).deref fresh = some { res with meta := mm } ∧
      (mem.alloc fresh { res with meta := mm }).deref x = some res) ∧
    (∀ (mem : Cells (Atom M)) (res : Atom M), mem.Free fresh → mem.deref x = some res →
      SafeMerge res.meta meta = some mm →
      Atom.WithMeta mem x meta fresh =
        some (mem.alloc fresh { res with meta := mm }, Object.atom fresh) ∧
      Object.Equals (Object.atom fresh : Object M) (Object.atom x) = some false ∧
      Object.Equals (Object.atom x : Object M) (Object.atom x) = some true ∧
      Atom.Hash fresh = hashPtr fresh ∧ Atom.Hash x = hashPtr x ∧
      (mem.alloc fresh { res with meta := mm }).deref fresh = some { res with meta := mm } ∧
      (mem.alloc fresh { res with meta := mm }).deref x = some res) := by
  refine ⟨?_, ?_, ?_⟩
  · intro mem res hf hx hs
    have hne := Cells.ne_of_free hf hx
    refine ⟨by simp [Fn.WithMeta, hx, hs], by simp [Object.Equals, Fn.Equals, hne],
      by simp [Object.Equals, Fn.Equals], rfl, rfl, Cells.deref_alloc_new mem _ hf,
      Cells.deref_alloc_old _ hf hx⟩
  · intro mem res hf hx hs
    have hne := Cells.ne_of_free hf hx
    refine ⟨by simp [Var.WithMeta, hx, hs], by simp [Object.Equals, Var.Equals, hne],
      by simp [Object.Equals, Var.Equals], rfl, rfl, Cells.deref_alloc_new mem _ hf,
      Cells.deref_alloc_old _ hf hx⟩
  · intro mem res hf hx hs
    have hne := Cells.ne_of_free hf hx
    refine ⟨by simp [Atom.WithMeta, hx, hs], by simp [Object.Equals, Atom.Equals, hne],
      by simp [Object.Equals, Atom.Equals], rfl, rfl, Cells.deref_alloc_new mem _ hf,
      Cells.deref_alloc_old _ hf hx⟩

/-- C9: for every symbol `s` and every metadata map `m`, `s.WithMeta(m)` fails only
when the `Merge` inside `SafeMerge` fails; otherwise it is a symbol with the handles
of `s` for namespace and name, `s.WithMeta(m).Equals(s)` and
`s.Equals(s.WithMeta(m))` are true, and `s.WithMeta(m).Hash() == s.Hash()`. -/
theorem C9_symbol_withMeta_equal_and_same_hash {M : Type} [Map M] (s : Symbol M) (meta : Option M) :
    (s.meta = none → (s.WithMeta meta).isSome = true) ∧
    match s.WithMeta meta with
    | none => SafeMerge s.meta meta = none
    | some y => ∃ r : Symbol M, y = Object.symbol r ∧ r.ns = s.ns ∧ r.name = s.name ∧
        Object.Equals y (Object.symbol s) = some true ∧
        Object.Equals (Object.symbol s) y = some true ∧
        r.Hash = s.Hash := by
  constructor
  · intro hn
    simp [Symbol.WithMeta, SafeMerge, hn]
  · unfold Symbol.WithMeta
    cases hs : SafeMerge s.meta meta with
    | none => simp
    | some mm =>
      simp only
      exact ⟨_, rfl, rfl, rfl, by simp [Object.Equals, Symbol.Equals],
        by simp [Object.Equals, Symbol.Equals], rfl⟩

/-- C10 (amended): for every value `x` of the listed kinds other than
recur-bindings (nil, boolean, character, integer, big integer, ratio, string,
keyword, symbol, regex, function, primitive callable, var, atom, delay, type tag,
exception-info), `x.Equals(x)` is true; for recur-bindings `x.Equals(x)` is false.
(Of the two floating kinds, which the claim leaves out, a big float `Equals` itself
and a floating-point number does unless it is a NaN.) -/
theorem C10_equals_reflexive_except_recurBindings {M : Type} (x : Object M) :
    Object.Equals x x =
      some (match x with
        | .recurBindings _ => false
        | .double D => !D.isNaN
        | _ => true) := by
  cases x <;>
    simp [Object.Equals, Nil.Equals, Bool.Equals, Char.Equals, Double.Equals, Float64.eq,
      Int.Equals, BigInt.Equals, BigFloat.Equals, Ratio.Equals, String.Equals,
      Keyword.Equals, Symbol.Equals, Regex.Equals, Fn.Equals, Proc.Equals, reflectPointer,
      Var.Equals, Atom.Equals, Delay.Equals, Type.Equals, ExInfo.Equals,
      RecurBindings.Equals]


/-- C8, worked instance: the function at address 4096, copied to address 8192. -/
theorem C8_withMeta_witness :
    Cells.Free [((4096 : Ptr), (⟨none, 16, 32⟩ : Fn Unit))] 8192 ∧
    Cells.deref [((4096 : Ptr), (⟨none, 16, 32⟩ : Fn Unit))] 4096 = some ⟨none, 16, 32⟩ ∧
    SafeMerge (none : Option Unit) (some ()) = some (some ()) ∧
    Fn.WithMeta [((4096 : Ptr), (⟨none, 16, 32⟩ : Fn Unit))] 4096 (some ()) 8192 =
      some ([(8192, ⟨some (), 16, 32⟩), (4096, ⟨none, 16, 32⟩)], Object.fn 8192) ∧
    Object.Equals (Object.fn 8192 : Obj) (Object.fn 4096) = some false :=
  have h := (C8_withMeta_copy_is_another_object (M := Unit) 4096 8192 (some ()) (some ())).1
    [(4096, ⟨none, 16, 32⟩)] ⟨none, 16, 32⟩ (by unfold Cells.Free; decide) (by decide)
    (by decide)
  ⟨by unfold Cells.Free; decide, by decide, by decide, h.1, h.2.1⟩

/-- C8 as stated fails: the copy that `WithMeta` makes of the function at address
4096 lives at address 8192; it does not `Equals` the function, and its hash is
another one. -/
theorem C8_copy_not_equal_counterexample :
    Fn.WithMeta [((4096 : Ptr), (⟨none, 16, 32⟩ : Fn Unit))] 4096 (some ()) 8192 =
      some ([(8192, ⟨some (), 16, 32⟩), (4096, ⟨none, 16, 32⟩)], Object.fn 8192) ∧
    Object.Equals (Object.fn 8192 : Obj) (Object.fn 4096) = some false ∧
    Fn.Hash 8192 = 646779077 ∧ Fn.Hash 4096 = 1451991477 := by
  decide

/-- C10 as stated fails: a recur-bindings value does not `Equals` itself. -/
theorem C10_recurBindings_counterexample :
    Object.Equals (Object.recurBindings ⟨4096, 2, 2⟩ : Obj) (Object.recurBindings ⟨4096, 2, 2⟩) =
      some false := by
  decide

/-! ## The claims on numbers: equality and hash across kinds -/

/-- Claim C11, as the code behaves: for every integer n, `Int(n).Equals` answers false
on the big integer n and on the ratio n/1 (the method looks at integers only), while
the big integer and the ratio, asked the other way round, answer true on `Int(n)`;
the ratio is taken with its denominator 1 stored and with the empty denominator. -/
theorem C11_int_equals_only_ints {M : Type} (n : Int) (p q : Ptr) :
    Int.Equals n (.bigInt ⟨p, n⟩ : Object M) = false ∧
    BigInt.Equals ⟨p, n⟩ (.int n : Object M) = true ∧
    Int.Equals n (.ratio ⟨q, ⟨n, 1⟩⟩ : Object M) = false ∧
    Ratio.Equals ⟨q, ⟨n, 1⟩⟩ (.int n : Object M) = true ∧
    Int.Equals n (.ratio ⟨q, ⟨n, 0⟩⟩ : Object M) = false ∧
    Ratio.Equals ⟨q, ⟨n, 0⟩⟩ (.int n : Object M) = true := by
  simp [Int.Equals, BigInt.Equals, Ratio.Equals, BigRat.cmp_eq_zero, BigRat.SetInt,
    BigRat.denom]

theorem sampleStrings_sound : sampleStrings.Sound := by
  intro s
  refine ⟨Nat.succ_ne_zero _, ?_⟩
  simp [sampleStrings, Encodable.encodek, List.map_map, Function.comp_def]

theorem InternTable.Sound.intern_inj {T : InternTable} (hT : T.Sound) {a b : String}
    (h : T.Intern a = T.Intern b) : a = b := by
  have h1 := (hT a).2
  rw [h, (hT b).2] at h1
  exact (Option.some.inj h1).symm

theorem InternTable.Sound.load_intern {T : InternTable} (hT : T.Sound) (s : String) :
    T.load (T.Intern s) = some s := by
  simp [InternTable.load, (hT s).1, (hT s).2]

theorem indexRuneFrom_absent (r : Char) (l : List Char) (k : Nat) (h : r ∉ l) :
    indexRuneFrom r l k = -1 := by
  induction l generalizing k with
  | nil => rfl
  | cons c cs ih =>
    have h1 : c ≠ r := fun e => h (by simp [e])
    have h2 : r ∉ cs := fun e => h (by simp [e])
    simp [indexRuneFrom, h1, ih _ h2]

theorem indexRuneFrom_first (r : Char) (pre post : List Char) (k : Nat) (h : r ∉ pre) :
    indexRuneFrom r (pre ++ r :: post) k = ((k + pre.length : Nat) : Int) := by
  induction pre generalizing k with
  | nil => simp [indexRuneFrom]
  | cons c cs ih =>
    have h1 : c ≠ r := fun e => h (by simp [e])
    have h2 : r ∉ cs := fun e => h (by simp [e])
    show indexRuneFrom r (c :: (cs ++ r :: post)) k = _
    rw [indexRuneFrom, if_neg h1, ih _ h2, List.length_cons]
    congr 1
    omega

theorem slash_cases (l : List Char) :
    (∃ pre post, l = pre ++ '/' :: post ∧ '/' ∉ pre) ∨ '/' ∉ l := by
  induction l with
  | nil => right; simp
  | cons c cs ih =>
    by_cases hc : c = '/'
    · left
      exact ⟨[], cs, by simp [hc], by simp⟩
    · rcases ih with ⟨pre, post, e, hn⟩ | hn
      · left
        exact ⟨c :: pre, post, by simp [e], by simp [hn, Ne.symm hc]⟩
      · right
        simp [hn, Ne.symm hc]

theorem takeWhile_first_slash (pre post : List Char) (hn : '/' ∉ pre) :
    (pre ++ '/' :: post).takeWhile (fun c => c != '/') = pre ∧
    (pre ++ '/' :: post).dropWhile (fun c => c != '/') = '/' :: post := by
  induction pre with
  | nil => simp
  | cons c cs ih =>
    have h1 : c ≠ '/' := fun e => hn (by simp [e])
    have h2 : '/' ∉ cs := fun e => hn (by simp [e])
    have := ih h2
    simp [List.takeWhile_cons, List.dropWhile_cons, h1, this.1, this.2]

theorem dropWhile_no_slash (l : List Char) (hn : '/' ∉ l) :
    l.dropWhile (fun c => c != '/') = [] := by
  induction l with
  | nil => rfl
  | cons c cs ih =>
    have h1 : c ≠ '/' := fun e => hn (by simp [e])
    have h2 : '/' ∉ cs := fun e => hn (by simp [e])
    simp [List.dropWhile_cons, h1, ih h2]

theorem nameParts_plain (s : String) (h : '/' ∉ s.data ∨ s = "/") :
    (IndexRune s '/' = -1 ∨ s = "/") ∧ nameParts s = (none, s) := by
  rcases h with h | h
  · exact ⟨Or.inl (indexRuneFrom_absent '/' s.data 0 h),
      by simp [nameParts, dropWhile_no_slash s.data h]⟩
  · exact ⟨Or.inr h, by simp [nameParts, h]⟩

theorem nameParts_split (s : String) (pre post : List Char)
    (e : s.data = pre ++ '/' :: post) (hn : '/' ∉ pre) (hs : s ≠ "/") :
    ¬ (IndexRune s '/' = -1 ∨ s = "/") ∧
    nameParts s = (some ⟨pre⟩, ⟨post⟩) ∧
    substr s 0 (IndexRune s '/').toNat = ⟨pre⟩ ∧
    substr s ((IndexRune s '/').toNat + 1) s.length = ⟨post⟩ := by
  have hi : IndexRune s '/' = ((0 + pre.length : Nat) : Int) := by
    unfold IndexRune
    rw [e]
    exact indexRuneFrom_first '/' pre post 0 hn
  have htd := takeWhile_first_slash pre post hn
  rw [← e] at htd
  refine ⟨?_, ?_, ?_, ?_⟩
  · rintro (h | h)
    · rw [hi] at h
      omega
    · exact hs h
  · simp [nameParts, htd.1, htd.2, hs]
  · simp [substr, hi, e]
  · have hl : s.length = pre.length + 1 + post.length := by
      show s.data.length = _
      rw [e]
      simp
      omega
    have h1 : List.take (pre.length + 1 + post.length) (pre ++ '/' :: post)
        = pre ++ '/' :: post := List.take_of_length_le (by simp; omega)
    have h2 : List.drop (pre.length + 1) (pre ++ '/' :: post) = post := by
      rw [List.drop_append_eq_append_drop]
      simp
    simp [substr, hi, hl, e, h1, h2]

theorem nameParts_cases (s : String) :
    ((IndexRune s '/' = -1 ∨ s = "/") ∧ nameParts s = (none, s)) ∨
    ∃ pre post, s.data = pre ++ '/' :: post ∧
      ¬ (IndexRune s '/' = -1 ∨ s = "/") ∧
      nameParts s = (some ⟨pre⟩, ⟨post⟩) ∧
      substr s 0 (IndexRune s '/').toNat = ⟨pre⟩ ∧
      substr s ((IndexRune s '/').toNat + 1) s.length = ⟨post⟩ := by
  by_cases hs : s = "/"
  · exact Or.inl (nameParts_plain s (Or.inr hs))
  · rcases slash_cases s.data with ⟨pre, post, e, hn⟩ | hn
    · exact Or.inr ⟨pre, post, e, nameParts_split s pre post e hn hs⟩
    · exact Or.inl (nameParts_plain s (Or.inl hn))

/-- The handle `MakeSymbol` and `MakeKeyword` store for a namespace: nil when there
is none. -/
theorem MakeSymbol_parts {M : Type} (T : InternTable) (s : String) :
    (MakeSymbol T s : Symbol M) =
      { meta := none,
        ns := (match (nameParts s).1 with | none => 0 | some n => T.Intern n),
        name := T.Intern (nameParts s).2, hash := 0 } := by
  rcases nameParts_cases s with ⟨h, e⟩ | ⟨pre, post, _, h, e, h1, h2⟩
  · simp [MakeSymbol, h, e]
  · simp only [MakeSymbol, if_neg h, e, h1, h2]

theorem MakeKeyword_parts (T : InternTable) (s : String) :
    (MakeKeyword T s).ns = (match (nameParts s).1 with | none => 0 | some n => T.Intern n) ∧
    (MakeKeyword T s).name = T.Intern (nameParts s).2 := by
  rcases nameParts_cases s with ⟨h, e⟩ | ⟨pre, post, _, h, e, h1, h2⟩
  · simp [MakeKeyword, h, e]
  · simp only [MakeKeyword, if_neg h, e, h1, h2, and_self]

theorem nameParts_join (s : String) :
    (match (nameParts s).1 with
      | none => (nameParts s).2
      | some n => n ++ "/" ++ (nameParts s).2) = s := by
  rcases nameParts_cases s with ⟨_, e⟩ | ⟨pre, post, e0, _, e, _, _⟩
  · simp [e]
  · simp only [e]
    apply String.ext
    simp [e0]

theorem nameParts_inj_of_handles (T : InternTable)
    (hinj : ∀ s t : String, T.Intern s = T.Intern t ↔ s = t)
    (hnn : ∀ s : String, T.Intern s ≠ 0) (a b : String)
    (h1 : (match (nameParts a).1 with | none => 0 | some n => T.Intern n) =
      (match (nameParts b).1 with | none => 0 | some n => T.Intern n))
    (h2 : T.Intern (nameParts a).2 = T.Intern (nameParts b).2) : a = b := by
  have e2 : (nameParts a).2 = (nameParts b).2 := (hinj _ _).1 h2
  have e1 : (nameParts a).1 = (nameParts b).1 := by
    cases ha : (nameParts a).1 <;> cases hb : (nameParts b).1 <;> simp only [ha, hb] at h1
    · rfl
    · exact absurd h1.symm (hnn _)
    · exact absurd h1 (hnn _)
    · rw [(hinj _ _).1 h1]
  rw [← nameParts_join a, ← nameParts_join b, e1, e2]

/-! ## The claims on symbols and keywords -/

/-- Claim C13: with an intern table that gives two strings the same handle exactly
when they have the same content (a handle being a non-nil address),
`MakeSymbol(a).Equals(MakeSymbol(b))` holds exactly when a = b, the same for
`MakeKeyword`, and a symbol never Equals a keyword nor a keyword a symbol. -/
theorem C13_names_equal_iff_same_string {M : Type} (T : InternTable)
    (hinj : ∀ s t : String, T.Intern s = T.Intern t ↔ s = t)
    (hnn : ∀ s : String, T.Intern s ≠ 0) (a b : String) :
    (Symbol.Equals (MakeSymbol T a : Symbol M) (.symbol (MakeSymbol T b)) = true ↔ a = b) ∧
    (Keyword.Equals (MakeKeyword T a) (.keyword (MakeKeyword T b) : Object M) = true
      ↔ a = b) ∧
    Symbol.Equals (MakeSymbol T a : Symbol M) (.keyword (MakeKeyword T b)) = false ∧
    Keyword.Equals (MakeKeyword T a) (.symbol (MakeSymbol T b) : Object M) = false := by
  refine ⟨⟨fun h => ?_, fun h => ?_⟩, ⟨fun h => ?_, fun h => ?_⟩, rfl, rfl⟩
  · rw [MakeSymbol_parts, MakeSymbol_parts] at h
    simp only [Symbol.Equals, Bool.and_eq_true, beq_iff_eq] at h
    exact nameParts_inj_of_handles T hinj hnn a b h.1 h.2
  · rw [h]
    simp [Symbol.Equals]
  · simp only [Keyword.Equals, Bool.and_eq_true, beq_iff_eq, (MakeKeyword_parts T a).1,
      (MakeKeyword_parts T a).2, (MakeKeyword_parts T b).1, (MakeKeyword_parts T b).2] at h
    exact nameParts_inj_of_handles T hinj hnn a b h.1 h.2
  · rw [h]
    simp [Keyword.Equals]

/-- Claim C13, a worked instance on the sample intern table. -/
theorem C13_names_equal_witness :
    (Symbol.Equals (MakeSymbol sampleStrings "a/b" : Symbol Unit)
        (.symbol (MakeSymbol sampleStrings "a/c")) = true ↔ "a/b" = "a/c") ∧
    (Keyword.Equals (MakeKeyword sampleStrings "a/b")
        (.keyword (MakeKeyword sampleStrings "a/c") : Obj) = true ↔ "a/b" = "a/c") ∧
    Symbol.Equals (MakeSymbol sampleStrings "a/b" : Symbol Unit)
        (.keyword (MakeKeyword sampleStrings "a/c")) = false ∧
    Keyword.Equals (MakeKeyword sampleStrings "a/b")
        (.symbol (MakeSymbol sampleStrings "a/c") : Obj) = false :=
  C13_names_equal_iff_same_string sampleStrings
    (fun _ _ => ⟨fun h => sampleStrings_sound.intern_inj h, fun h => by rw [h]⟩)
    (fun s => (sampleStrings_sound s).1) "a/b" "a/c"

/-- Claim C14: with a sound intern table, `MakeSymbol(s).ToString(escape)` is s and
`MakeKeyword(s).ToString(escape)` is a colon followed by s, for every string s and
both values of escape.  A string without a slash, and the string that is one slash,
give a name without namespace; any other string is cut at its first slash, the
namespace being the text before it and the name the text after it. -/
theorem C14_toString_gives_back_the_string {M : Type} (T : InternTable) (hT : T.Sound)
    (s : String) (escape : Bool) :
    Symbol.ToString T (MakeSymbol T s : Symbol M) escape = some s ∧
    Keyword.ToString T (MakeKeyword T s) escape = some (":" ++ s) ∧
    (('/' ∉ s.data ∨ s = "/") →
      (MakeSymbol T s : Symbol M).ns = 0 ∧ (MakeSymbol T s : Symbol M).name = T.Intern s ∧
      (MakeKeyword T s).ns = 0 ∧ (MakeKeyword T s).name = T.Intern s) ∧
    (∀ pre post : String, s = pre ++ "/" ++ post → '/' ∉ pre.data → s ≠ "/" →
      (MakeSymbol T s : Symbol M).ns = T.Intern pre ∧
      (MakeSymbol T s : Symbol M).name = T.Intern post ∧
      (MakeKeyword T s).ns = T.Intern pre ∧ (MakeKeyword T s).name = T.Intern post) := by
  have hj := nameParts_join s
  have hk := MakeKeyword_parts T s
  refine ⟨?_, ?_, ?_, ?_⟩
  · rw [MakeSymbol_parts]
    cases hp : (nameParts s).1 <;> simp only [hp] at hj
    · simp [Symbol.ToString, hT.load_intern, hj]
    · simp [Symbol.ToString, hT.load_intern, (hT _).1, hj]
  · cases hp : (nameParts s).1 <;> simp only [hp] at hj hk
    · simp [Keyword.ToString, Keyword.Name, hk.1, hk.2, hT.load_intern, hj]
    · simp [Keyword.ToString, Keyword.Name, hk.1, hk.2, hT.load_intern, (hT _).1, hj]
  · intro h
    have e := (nameParts_plain s h).2
    rw [MakeSymbol_parts]
    simp only [e] at hk ⊢
    exact ⟨trivial, trivial, hk.1, hk.2⟩
  · intro pre post e hn hs
    have e0 : s.data = pre.data ++ '/' :: post.data := by
      rw [e]
      simp
    have e1 := (nameParts_split s pre.data post.data e0 hn hs).2.1
    rw [MakeSymbol_parts]
    simp only [e1] at hk ⊢
    exact ⟨trivial, trivial, hk.1, hk.2⟩

/-- Claim C14, a worked instance on the sample intern table. -/
theorem C14_toString_witness :
    Symbol.ToString sampleStrings (MakeSymbol sampleStrings "a/b/c" : Symbol Unit) true
      = some "a/b/c" ∧
    Keyword.ToString sampleStrings (MakeKeyword sampleStrings "a/b/c") true
      = some (":" ++ "a/b/c") ∧
    (MakeKeyword sampleStrings "a/b/c").ns = sampleStrings.Intern "a" ∧
    (MakeKeyword sampleStrings "a/b/c").name = sampleStrings.Intern "b/c" :=
  have h := C14_toString_gives_back_the_string (M := Unit) sampleStrings sampleStrings_sound
    "a/b/c" true
  ⟨h.1, h.2.1, (h.2.2.2 "a" "b/c" (by decide) (by decide) (by decide)).2.2⟩
/-! ## Calling a function value -/

theorem Fn.copyArgs_spec {V : Type} (args : List V) (k : Nat) :
    ∀ (i fuel : Nat), i + k ≤ args.length → k < fuel →
      Fn.copyArgs args fuel i ((args.take i).map some ++ List.replicate (k + 1) none)
        = some ((args.take (i + k)).map some ++ [none]) := by
  induction k with
  | zero =>
    intro i fuel hi hf
    obtain ⟨f, rfl⟩ : ∃ f, fuel = f + 1 := ⟨fuel - 1, by omega⟩
    have hl : ((args.take i).map some ++ List.replicate (0 + 1) (none : Option V)).length
        = i + 1 := by
      simp
      omega
    rw [Fn.copyArgs, hl]
    simp
  | succ k ih =>
    intro i fuel hi hf
    obtain ⟨f, rfl⟩ : ∃ f, fuel = f + 1 := ⟨fuel - 1, by omega⟩
    have hlt : i < args.length := by omega
    have hl : ((args.take i).map some ++ List.replicate (k + 1 + 1) (none : Option V)).length
        = i + (k + 2) := by
      simp
      omega
    have hget : args[i]? = some args[i] := List.getElem?_eq_getElem hlt
    have ht : args.take (i + 1) = args.take i ++ [args[i]] := by
      rw [List.take_succ, hget]
      rfl
    have hli : ((args.take i).map some).length = i := by
      rw [List.length_map, List.length_take]
      omega
    have hset : ((args.take i).map some ++ List.replicate (k + 1 + 1) (none : Option V)).set i
        (some args[i]) = (args.take (i + 1)).map some ++ List.replicate (k + 1) none := by
      rw [List.set_append_right _ _ (by omega), hli, Nat.sub_self, List.replicate_succ,
        List.set_cons_zero, ht, List.map_append, List.append_assoc]
      rfl
    have hc : (i : Int) <
        (((args.take i).map some ++ List.replicate (k + 1 + 1) (none : Option V)).length : Int)
          - 1 := by
      rw [hl]
      push_cast
      omega
    rw [Fn.copyArgs, if_pos hc, hget]
    simp only
    rw [hset, ih (i + 1) f (by omega) (by omega), show i + 1 + k = i + (k + 1) by omega]

theorem Fn.variadicFrame_spec {R B Env V : Type} (X : Evaluator R B Env V) (p : Nat)
    (args : List V) (hp : 1 ≤ p) (hn : p - 1 ≤ args.length) :
    Fn.variadicFrame X p args = some ((args.take (p - 1)).map some ++
      [some (if args.length = p - 1 then X.NIL else X.ofArraySeq ⟨args, (p : Int) - 1⟩)]) := by
  obtain ⟨k, rfl⟩ : ∃ k, p = k + 1 := ⟨p - 1, by omega⟩
  have h := Fn.copyArgs_spec args k 0 (k + 1 + 1) (by simpa using hn) (by omega)
  simp only [List.take_zero, List.map_nil, List.nil_append, Nat.zero_add] at h
  have hl : ((args.take k).map some ++ [(none : Option V)]).length = k + 1 := by
    simp
    simpa using hn
  have hli : ((args.take k).map some).length = k := by
    simp
    simpa using hn
  unfold Fn.variadicFrame
  simp only [h, hl]
  rw [if_neg (by omega), List.set_append_right _ _ (by omega), hli]
  simp only [Nat.add_sub_cancel, Nat.sub_self, List.set_cons_zero]
  congr 4
  by_cases e : args.length = k
  · simp [e]
  · have : k < args.length := by
      have : k ≤ args.length := by simpa using hn
      omega
    simp [e]
    omega

theorem find_arity_none {M B : Type} (l : List (FnArityExpr M B)) (n : Nat) :
    l.find? (fun arity => arity.args.length == n) = none ↔ ∀ a ∈ l, a.args.length ≠ n := by
  simp [List.find?_eq_none]

theorem panicArity_named {R B Env V : Type} (X : Evaluator R B Env V) (rt : R) (n : Nat)
    (name : String) (hname : X.traceName rt = some name) :
    panicArity X rt n =
      (.error ("Wrong number of args (" ++ toString n ++ ") passed to " ++ name), rt) := by
  simp [panicArity, hname]

/-! ## The claims on calling a function value -/

theorem panicArity_isArityError {R B Env V : Type} (X : Evaluator R B Env V) (rt : R)
    (n : Nat) (name : String) (hname : X.traceName rt = some name) :
    (panicArity X rt n).1.IsArityError := by
  rw [panicArity_named X rt n name hname]
  refine ⟨_, rfl, ?_⟩
  have e : "Wrong number of args (".data = "Wrong number of args".data ++ " (".data := by
    decide
  simp only [String.data_append, e, List.append_assoc]
  exact List.prefix_append _ _

/-- Claim C15, refuted: the function at 256 has one arity of 1 parameter and is
called on 1 argument; its body calls a function of 2 parameters on that argument, so
the call ends in the error "Wrong number of args (1) passed to foo" although a fixed
arity takes exactly 1 argument: the error is the outcome of evaluating the body in a
frame that was pushed. -/
theorem C15_body_raises_arity_error_counterexample :
    Cells.deref sampleCallerExprs 256 = some ⟨[⟨sampleParams 1, 7⟩], none⟩ ∧
    (sampleParams 1).length = 1 ∧
    Fn.Call sampleCallingEvaluator sampleCallerExprs (⟨none, 256, 0⟩ : Fn Unit) [.int 5] [] =
      (.error "Wrong number of args (1) passed to foo", []) ∧
    Fn.evalBody sampleCallingEvaluator (⟨none, 256, 0⟩ : Fn Unit) 7 [some (.int 5)] [] =
      (.error "Wrong number of args (1) passed to foo", []) ∧
    sampleCallingEvaluator.evalLoop 7 [some (.int 5)] (sampleCallingEvaluator.pushFrame []) =
      (.error "Wrong number of args (1) passed to foo", ["f"]) :=
  ⟨rfl, rfl, by decide, by decide, by decide⟩

/-- Claim C15, amended: for a function value whose expression is in memory, called
while the current expression is traceable under `name`: when no arity takes the n
arguments, `Fn.Call` raises the error "Wrong number of args (n) passed to name" with
the runtime state as it was (no frame pushed); otherwise it ends as the evaluation of
one of its bodies in a pushed frame ends (or, for a variadic arity of no parameter at
all, in a run-time panic).  So when the evaluation of no body of the function ends in
an error that starts with "Wrong number of args", the call ends in such an error if
and only if no arity takes the arguments.  In particular a function whose arities all
have 2 parameters, without variadic arity, raises the error on 3 arguments. -/
theorem C15_wrong_arity_when_no_arity_fits {M R B Env V : Type} (X : Evaluator R B Env V)
    (exprs : Cells (FnExpr M B)) (fn : Fn M) (fnExpr : FnExpr M B) (args : List V) (rt : R)
    (name : String) (hexpr : exprs.deref fn.fnExpr = some fnExpr)
    (hname : X.traceName rt = some name) :
    (fnExpr.noArityFor args.length →
      Fn.Call X exprs fn args rt =
        (.error ("Wrong number of args (" ++ toString args.length ++ ") passed to " ++ name),
          rt)) ∧
    (¬ fnExpr.noArityFor args.length →
      (∃ body ∈ fnExpr.bodies, ∃ values,
        Fn.Call X exprs fn args rt = Fn.evalBody X fn body values rt) ∨
      (∃ v, fnExpr.variadic = some v ∧ v.args.length = 0 ∧
        Fn.Call X exprs fn args rt = (.crash, rt))) ∧
    ((∀ body ∈ fnExpr.bodies, ∀ values,
        ¬ (Fn.evalBody X fn body values rt).1.IsArityError) →
      ((Fn.Call X exprs fn args rt).1.IsArityError ↔ fnExpr.noArityFor args.length)) ∧
    (fnExpr.variadic = none → (∀ a ∈ fnExpr.arities, a.args.length = 2) →
      args.length = 3 →
      Fn.Call X exprs fn args rt =
        (.error ("Wrong number of args (3) passed to " ++ name), rt)) := by
  have key : fnExpr.noArityFor args.length →
      Fn.Call X exprs fn args rt =
        (.error ("Wrong number of args (" ++ toString args.length ++ ") passed to " ++ name),
          rt) := by
    rintro ⟨h1, h2⟩
    have hf := (find_arity_none fnExpr.arities args.length).2 h1
    rcases h2 with h2 | ⟨v, h2, h3⟩
    · simp only [Fn.Call, hexpr, hf, h2]
      exact panicArity_named X rt _ name hname
    · simp only [Fn.Call, hexpr, hf, h2, if_pos h3]
      exact panicArity_named X rt _ name hname
  have other : ¬ fnExpr.noArityFor args.length →
      (∃ body ∈ fnExpr.bodies, ∃ values,
        Fn.Call X exprs fn args rt = Fn.evalBody X fn body values rt) ∨
      (∃ v, fnExpr.variadic = some v ∧ v.args.length = 0 ∧
        Fn.Call X exprs fn args rt = (.crash, rt)) := by
    intro hno
    cases hf : fnExpr.arities.find? (fun arity => arity.args.length == args.length) with
    | some arity =>
      have hm : arity ∈ fnExpr.arities := List.mem_of_find?_eq_some hf
      exact Or.inl ⟨arity.body,
        List.mem_append_left _ (List.mem_map_of_mem (fun a => a.body) hm), args.map some,
        by simp only [Fn.Call, hexpr, hf]⟩
    | none =>
      have h1 := (find_arity_none fnExpr.arities args.length).1 hf
      cases hv : fnExpr.variadic with
      | none => exact absurd ⟨h1, Or.inl hv⟩ hno
      | some v =>
        have hvb : v.body ∈ fnExpr.bodies := by
          unfold FnExpr.bodies
          rw [hv]
          simp
        by_cases h3 : (args.length : Int) < (v.args.length : Int) - 1
        · exact absurd ⟨h1, Or.inr ⟨v, hv, h3⟩⟩ hno
        · by_cases hp : v.args.length = 0
          · refine Or.inr ⟨v, rfl, hp, ?_⟩
            simp only [Fn.Call, hexpr, hf, hv, if_neg h3]
            simp [hp, Fn.variadicFrame, Fn.copyArgs]
          · have hs := Fn.variadicFrame_spec X v.args.length args (by omega) (by omega)
            exact Or.inl ⟨v.body, hvb, (args.take (v.args.length - 1)).map some ++
              [some (if args.length = v.args.length - 1 then X.NIL
                else X.ofArraySeq ⟨args, (v.args.length : Int) - 1⟩)],
              by simp only [Fn.Call, hexpr, hf, hv, if_neg h3, hs]⟩
  refine ⟨key, other, ?_, ?_⟩
  · intro hquiet
    constructor
    · intro herr
      by_contra hno
      rcases other hno with ⟨body, hb, values, e⟩ | ⟨v, -, -, e⟩
      · rw [e] at herr
        exact hquiet body hb values herr
      · rw [e] at herr
        obtain ⟨msg, hmsg, -⟩ := herr
        cases hmsg
    · intro hno
      rw [key hno, ← panicArity_named X rt args.length name hname]
      exact panicArity_isArityError X rt args.length name hname
  · intro hv h2 h3
    have h := key ⟨fun a ha => by rw [h2 a ha, h3]; decide, Or.inl hv⟩
    rw [h, h3]
    rfl

/-- Claim C15, a worked instance: the function of one arity of 2 parameters on 3
arguments; its body evaluates to a number, and the call ends in the arity error. -/
theorem C15_wrong_arity_witness :
    Fn.Call sampleEvaluator sampleFnExprs (⟨none, 64, 0⟩ : Fn Unit)
        [.int 1, .int 2, .int 3] [] =
      (.error ("Wrong number of args (3) passed to " ++ "foo"), []) ∧
    (Fn.Call sampleEvaluator sampleFnExprs (⟨none, 64, 0⟩ : Fn Unit)
        [.int 1, .int 2, .int 3] []).1.IsArityError :=
  have h := C15_wrong_arity_when_no_arity_fits sampleEvaluator sampleFnExprs ⟨none, 64, 0⟩
    ⟨[⟨sampleParams 2, 20⟩], none⟩ [.int 1, .int 2, .int 3] [] "foo" rfl rfl
  ⟨h.2.2.2 rfl (by decide) rfl,
    (h.2.2.1 (fun body _ values herr => by
      obtain ⟨msg, hmsg, -⟩ := herr
      cases hmsg)).2
      ⟨by decide, Or.inl rfl⟩⟩

/-- Claim C16: when some fixed arity has exactly `len(args)` parameters, `Fn.Call`
evaluates the body of the first such arity, in a pushed frame, in the environment
extended with exactly the arguments, whether or not there is a variadic arity.
Otherwise, with a variadic arity of p parameters (p at least 1, the rest parameter)
and at least p - 1 arguments, it evaluates the variadic body with p values bound: the
first p - 1 arguments, then `NIL` when there are exactly p - 1 arguments and else the
sequence over the arguments from position p - 1 on, which yields `args[p-1..]`. -/
theorem C16_call_binds_the_arguments {M R B Env V : Type} (X : Evaluator R B Env V)
    (exprs : Cells (FnExpr M B)) (fn : Fn M) (fnExpr : FnExpr M B) (args : List V) (rt : R)
    (hexpr : exprs.deref fn.fnExpr = some fnExpr) :
    (∀ arity, fnExpr.arities.find? (fun a => a.args.length == args.length) = some arity →
      Fn.Call X exprs fn args rt = Fn.evalBody X fn arity.body (args.map some) rt) ∧
    (∀ v, (∀ a ∈ fnExpr.arities, a.args.length ≠ args.length) →
      fnExpr.variadic = some v → 1 ≤ v.args.length → v.args.length - 1 ≤ args.length →
      Fn.Call X exprs fn args rt =
        Fn.evalBody X fn v.body
          ((args.take (v.args.length - 1)).map some ++
            [some (if args.length = v.args.length - 1 then X.NIL
              else X.ofArraySeq ⟨args, (v.args.length : Int) - 1⟩)]) rt ∧
      ArraySeq.elements ⟨args, (v.args.length : Int) - 1⟩ = args.drop (v.args.length - 1)) ∧
    (∀ body values, Fn.evalBody X fn body values rt =
      ((X.evalLoop body (X.addFrame fn.env values) (X.pushFrame rt)).1,
        X.popFrame (X.evalLoop body (X.addFrame fn.env values) (X.pushFrame rt)).2)) := by
  refine ⟨fun arity hf => by simp only [Fn.Call, hexpr, hf], ?_, fun _ _ => rfl⟩
  intro v h1 hv hp hn
  have hf := (find_arity_none fnExpr.arities args.length).2 h1
  have h3 : ¬ (args.length : Int) < (v.args.length : Int) - 1 := by omega
  have hs := Fn.variadicFrame_spec X v.args.length args hp hn
  refine ⟨by simp only [Fn.Call, hexpr, hf, hv, if_neg h3, hs], ?_⟩
  simp only [ArraySeq.elements]
  congr 1
  omega

/-- Claim C16, a worked instance: 5 arguments to the function with an arity of 2
parameters and a variadic arity of 4. -/
theorem C16_call_binds_witness :
    Fn.Call sampleEvaluator sampleFnExprs (⟨none, 128, 0⟩ : Fn Unit)
        [.int 1, .int 2, .int 3, .int 4, .int 5] [] =
      Fn.evalBody sampleEvaluator (⟨none, 128, 0⟩ : Fn Unit) 40
        [some (.int 1), some (.int 2), some (.int 3), some (.int 3)] [] :=
  ((C16_call_binds_the_arguments sampleEvaluator sampleFnExprs ⟨none, 128, 0⟩
    ⟨[⟨sampleParams 2, 20⟩], some ⟨sampleParams 4, 40⟩⟩
    [.int 1, .int 2, .int 3, .int 4, .int 5] [] rfl).2.1 ⟨sampleParams 4, 40⟩
    (by decide) rfl (by decide) (by decide)).1
/-! ## Type tags -/

theorem typeAt_value_kinds :
    ∀ name ∈ ["Nil", "Bool", "Char", "Double", "Int", "BigInt", "BigFloat", "Ratio", "String",
      "Keyword", "Symbol", "Regex", "Fn", "Proc", "Var", "Atom", "Delay", "Type", "ExInfo",
      "RecurBindings"],
      ∃ t, typeAt name = some t ∧ t.reflectType.Kind ≠ .Interface := by
  decide

theorem IsInstance_same_type {M : Type} (implements : ReflectType → ReflectType → Bool)
    (x : Object M) (t : TypeTag) (he : Object.Equals x .nil = some false)
    (ht : x.GetType = some t) (hk : t.reflectType.Kind ≠ .Interface) :
    IsInstance implements x.GetType x = some true := by
  simp [IsInstance, he, ht, hk]

/-! ## The claim on `IsInstance` -/

/-- Claim C17, refuted: `IsInstance(NIL.GetType(), NIL)` is false. -/
theorem C17_nil_is_no_instance_counterexample :
    IsInstance (fun _ _ => true) (Object.GetType (.nil : Obj)) (.nil : Obj) = some false := by
  decide

/-- Claim C17, amended: for every value x of a kind of `object.go` other than nil
(and other than a primitive callable), the floating-point numbers and the big floats
among them, `IsInstance(x.GetType(), x)` is true, and `IsInstance(t, NIL)` is false
for every type tag t. -/
theorem C17_isInstance_of_own_type {M : Type}
    (implements : ReflectType → ReflectType → Bool) (x : Object M) :
    (x ≠ .nil → (∀ p, x ≠ .proc p) → IsInstance implements x.GetType x = some true) ∧
    (∀ t, IsInstance implements t (.nil : Object M) = some false) := by
  refine ⟨fun hn hp => ?_, fun t => by simp [IsInstance, Object.Equals, Nil.Equals]⟩
  have key : ∀ name ∈ ["Nil", "Bool", "Char", "Double", "Int", "BigInt", "BigFloat", "Ratio",
      "String", "Keyword", "Symbol", "Regex", "Fn", "Proc", "Var", "Atom", "Delay", "Type",
      "ExInfo", "RecurBindings"], Object.Equals x .nil = some false → x.GetType = typeAt name →
      IsInstance implements x.GetType x = some true := by
    intro name hm he hg
    obtain ⟨t, ht, hk⟩ := typeAt_value_kinds name hm
    exact IsInstance_same_type implements x t he (hg.trans ht) hk
  cases x with
  | nil => exact absurd rfl hn
  | proc p => exact absurd rfl (hp p)
  | bool B => exact key "Bool" (by decide) (by simp [Object.Equals, Bool.Equals]) rfl
  | char ch => exact key "Char" (by decide) (by simp [Object.Equals, Char.Equals]) rfl
  | double D => exact key "Double" (by decide) (by simp [Object.Equals, Double.Equals]) rfl
  | int I => exact key "Int" (by decide) (by simp [Object.Equals, Int.Equals]) rfl
  | bigFloat bf =>
    exact key "BigFloat" (by decide) (by simp [Object.Equals, BigFloat.Equals]) rfl
  | bigInt bi => exact key "BigInt" (by decide) (by simp [Object.Equals, BigInt.Equals]) rfl
  | ratio rat => exact key "Ratio" (by decide) (by simp [Object.Equals, Ratio.Equals]) rfl
  | string S => exact key "String" (by decide) (by simp [Object.Equals, String.Equals]) rfl
  | keyword k => exact key "Keyword" (by decide) (by simp [Object.Equals, Keyword.Equals]) rfl
  | symbol s => exact key "Symbol" (by decide) (by simp [Object.Equals, Symbol.Equals]) rfl
  | regex R => exact key "Regex" (by decide) (by simp [Object.Equals, Regex.Equals]) rfl
  | fn f => exact key "Fn" (by decide) (by simp [Object.Equals, Fn.Equals]) rfl
  | var v => exact key "Var" (by decide) (by simp [Object.Equals, Var.Equals]) rfl
  | atom a => exact key "Atom" (by decide) (by simp [Object.Equals, Atom.Equals]) rfl
  | delay d => exact key "Delay" (by decide) (by simp [Object.Equals, Delay.Equals]) rfl
  | typeTag t => exact key "Type" (by decide) (by simp [Object.Equals, Type.Equals]) rfl
  | exInfo e => exact key "ExInfo" (by decide) (by simp [Object.Equals, ExInfo.Equals]) rfl
  | recurBindings rb =>
    exact key "RecurBindings" (by decide) (by simp [Object.Equals, RecurBindings.Equals]) rfl

/-- Claim C17, a worked instance: the integer 3. -/
theorem C17_isInstance_witness :
    IsInstance (fun _ _ => false) (Object.GetType (.int 3 : Obj)) (.int 3 : Obj) = some true :=
  (C17_isInstance_of_own_type (fun _ _ => false) (.int 3 : Obj)).1 (by decide)
    (fun _ h => Object.noConfusion h)
/-! ## The claim on vars -/

/-- Claim C18: on a var without Value, `Resolve`, `Deref` and `Call` raise the
error "Unbound var: " followed by the text of the var, and `Resolve` raises an error
only then; on a var whose Value is x, `Resolve` and `Deref` return x, and `Call`
(the text of x being available for the message) ends as `AssertCallable` on x ends
when it fails, and else returns what the call of the callable on the same arguments
returns. -/
theorem C18_var_resolve_deref_call {M C : Type} (T : InternTable)
    (namespaces : Cells (Namespace M)) (X : VarExtern M C) (v : Var M)
    (args : List (Object M)) :
    (∀ sv, Var.ToString T namespaces v false = some sv → v.Value = none →
      Var.Resolve T namespaces v = .error ("Unbound var: " ++ sv) ∧
      Var.Deref T namespaces v = .error ("Unbound var: " ++ sv) ∧
      Var.Call T namespaces X v args = .error ("Unbound var: " ++ sv)) ∧
    ((∃ msg, Var.Resolve T namespaces v = .error msg) → v.Value = none) ∧
    (∀ x, v.Value = some x →
      Var.Resolve T namespaces v = .value x ∧ Var.Deref T namespaces v = .value x ∧
      ∀ sv sx, Var.ToString T namespaces v false = some sv → X.ToString x false = some sx →
        Var.Call T namespaces X v args =
          match X.AssertCallable x
            ("Var " ++ sv ++ " resolves to " ++ sx ++ ", which is not a Fn") with
          | .value c => X.Call c args
          | .error msg => .error msg
          | .crash => .crash) := by
  refine ⟨?_, ?_, ?_⟩
  · intro sv hs hv
    simp [Var.Call, Var.Deref, Var.Resolve, hs, hv]
  · rintro ⟨msg, h⟩
    cases hv : v.Value with
    | none => rfl
    | some x => simp [Var.Resolve, hv] at h
  · intro x hv
    refine ⟨by simp [Var.Resolve, hv], by simp [Var.Deref, Var.Resolve, hv], ?_⟩
    intro sv sx hs hx
    simp [Var.Call, Var.Resolve, hv, hs, hx]

/-- Claim C18, a worked instance: the var `user/x` unbound, and bound to 7. -/
theorem C18_var_witness :
    Var.Call sampleVarStrings sampleNamespaces sampleVarExtern (sampleVar none) []
      = .error ("Unbound var: " ++ "#'user/x") ∧
    Var.Deref sampleVarStrings sampleNamespaces (sampleVar (some (.int 7))) = .value (.int 7) ∧
    Var.Call sampleVarStrings sampleNamespaces sampleVarExtern (sampleVar (some (.int 7))) []
      = .value (.int 7) :=
  have h := C18_var_resolve_deref_call sampleVarStrings sampleNamespaces sampleVarExtern
  ⟨((h (sampleVar none) []).1 "#'user/x" (by decide) rfl).2.2,
   ((h (sampleVar (some (.int 7))) []).2.2 (.int 7) rfl).2.1,
   ((h (sampleVar (some (.int 7))) []).2.2 (.int 7) rfl).2.2 "#'user/x" "v" (by decide) rfl⟩
/-! ## Structs in memory -/

theorem Cells.lookup_write {β : Type} (mem : Cells β) (p : Ptr) (x : β) :
    (mem.write p x).lookup p = (mem.lookup p).map (fun _ => x) := by
  induction mem with
  | nil => rfl
  | cons c cs ih =>
    obtain ⟨q, y⟩ := c
    by_cases h : q = p
    · subst h
      simp [Cells.write, List.lookup_cons]
    · have h2 : (p == q) = false := by simpa using Ne.symm h
      have ih2 : List.lookup p (List.map (fun c => if c.1 = p then (p, x) else c) cs)
          = (List.lookup p cs).map (fun _ => x) := ih
      simp [Cells.write, List.lookup_cons, h, h2, ih2]

theorem Cells.deref_write_same {β : Type} (mem : Cells β) (p : Ptr) (s x : β)
    (h : mem.deref p = some s) : (mem.write p x).deref p = some x := by
  unfold Cells.deref at h ⊢
  by_cases hp : p = 0
  · simp [hp] at h
  · simp only [hp, if_false] at h ⊢
    rw [Cells.lookup_write, h]
    rfl

theorem World.writeMeta_spec {S M : Type} (w : World S M) (m : MetaHolderPtr)
    (cur meta : Option M) (h : w.readMeta m = some cur) :
    ∃ w2, w.writeMeta m meta = some w2 ∧ w2.readMeta m = some meta ∧
      w2.valueAt m = w.valueAt m := by
  cases m with
  | ofAtom a =>
    cases hd : w.atoms.deref a with
    | none => simp [World.readMeta, hd] at h
    | some s =>
      refine ⟨{ w with atoms := w.atoms.write a { s with meta := meta } },
        by simp only [World.writeMeta, hd], ?_, ?_⟩
      · simp [World.readMeta, Cells.deref_write_same _ a s _ hd]
      · simp [World.valueAt, Cells.deref_write_same _ a s _ hd, hd]
  | ofVar v =>
    cases hd : w.vars.deref v with
    | none => simp [World.readMeta, hd] at h
    | some s =>
      refine ⟨{ w with vars := w.vars.write v { s with meta := meta } },
        by simp only [World.writeMeta, hd], ?_, ?_⟩
      · simp [World.readMeta, Cells.deref_write_same _ v s _ hd]
      · simp [World.valueAt, Cells.deref_write_same _ v s _ hd, hd]

/-! ## The claims on metadata of references and on delays -/

/-- Claim C19: `AlterMeta` on the metadata holder of an atom or a var calls the
function once, on the current metadata (the value `NIL` when there is none) followed
by the arguments.  When the call returns x and the reference is still in memory:
if `AssertMap` accepts x as the map `newMeta`, `AlterMeta` returns `newMeta`, the
reference holds it as metadata and its value is the one the call left; if
`AssertMap` raises an error, `AlterMeta` raises it and the state is the one the call
left.  `ResetMeta(m)` on an atom or a var in memory returns m, the reference holds m
as metadata and its value is unchanged. -/
theorem C19_alterMeta_and_resetMeta {S M B Env V : Type}
    (X : Evaluator (World S M) B Env V) (Y : MetaExtern M V) (exprs : Cells (FnExpr M B))
    (m : MetaHolderPtr) (fn : Fn M) (args : List V) (w : World S M) :
    (∀ meta x w1 cur, w.readMeta m = some meta →
      Fn.Call X exprs fn
        ((match meta with
          | none => X.NIL
          | some held => Y.ofMap held) :: args) w = (.value x, w1) →
      w1.readMeta m = some cur →
      (∀ newMeta, Y.AssertMap x "" = .value newMeta →
        ∃ w2, AlterMeta X Y exprs m fn args w = (.value (some newMeta), w2) ∧
          w2.readMeta m = some (some newMeta) ∧ w2.valueAt m = w1.valueAt m) ∧
      (∀ msg, Y.AssertMap x "" = .error msg →
        AlterMeta X Y exprs m fn args w = (.error msg, w1))) ∧
    (∀ cur newMeta, w.readMeta m = some cur →
      ∃ w2, w2.readMeta m = some newMeta ∧ w2.valueAt m = w.valueAt m ∧
        (∀ a, m = .ofAtom a → Atom.ResetMeta a newMeta w = some (newMeta, w2)) ∧
        (∀ v, m = .ofVar v → Var.ResetMeta v newMeta w = some (newMeta, w2))) ∧
    (∀ a, Atom.AlterMeta X Y exprs a fn args w = AlterMeta X Y exprs (.ofAtom a) fn args w) ∧
    (∀ v, Var.AlterMeta X Y exprs v fn args w = AlterMeta X Y exprs (.ofVar v) fn args w) := by
  refine ⟨?_, ?_, fun _ => rfl, fun _ => rfl⟩
  · intro meta x w1 cur hr hc h1
    have hc2 : Fn.Call X exprs fn
        ([match meta with
          | none => X.NIL
          | some held => Y.ofMap held] ++ args) w = (.value x, w1) := hc
    refine ⟨fun newMeta ha => ?_, fun msg ha => ?_⟩
    · obtain ⟨w2, hw, h2, h3⟩ := World.writeMeta_spec w1 m cur (some newMeta) h1
      exact ⟨w2, by simp only [AlterMeta, hr, hc2, ha, hw], h2, h3⟩
    · simp only [AlterMeta, hr, hc2, ha]
  · intro cur newMeta hr
    obtain ⟨w2, hw, h2, h3⟩ := World.writeMeta_spec w m cur newMeta hr
    refine ⟨w2, h2, h3, fun a e => ?_, fun v e => ?_⟩
    · subst e
      simp only [Atom.ResetMeta, hw, h2]
    · subst e
      simp only [Var.ResetMeta, hw, h2]

/-- Claim C19, a worked instance: the function of one arity of 2 parameters alters
the metadata of the atom at 1024 (no metadata before, value 5). -/
theorem C19_alterMeta_witness :
    ∃ w2, AlterMeta sampleWorldEvaluator sampleMetaExtern sampleFnExprs (.ofAtom 1024)
        (⟨none, 64, 0⟩ : Fn Unit) [.int 9] sampleWorld = (.value (some ()), w2) ∧
      w2.readMeta (.ofAtom 1024) = some (some ()) ∧
      w2.valueAt (.ofAtom 1024) = sampleWorld.valueAt (.ofAtom 1024) :=
  ((C19_alterMeta_and_resetMeta sampleWorldEvaluator sampleMetaExtern sampleFnExprs
    (.ofAtom 1024) ⟨none, 64, 0⟩ [.int 9] sampleWorld).1 none (.int 20) sampleWorld none
    rfl rfl rfl).1 () rfl

/-- Claim C20: for a delay in memory that is not forced, whose thunk, called on no
argument, returns v (the delay still being in memory): `IsRealized` is false before;
the first `Force`, and likewise the first `Deref`, calls the thunk once, on the empty
argument list, stores v and returns it; `IsRealized` is true afterwards; and every
later `Force` or `Deref` returns v and leaves the state as it is, whatever calling
the thunk would do. -/
theorem C20_delay_memoizes {S C V : Type}
    (call : C → List V → DelayWorld S C V → Outcome V × DelayWorld S C V)
    (d : Ptr) (w w1 : DelayWorld S C V) (f : C) (v : V) (s1 : Delay C V)
    (hd : w.delays.deref d = some ⟨f, none⟩) (hc : call f [] w = (.value v, w1))
    (h1 : w1.delays.deref d = some s1) :
    Delay.IsRealized d w = some false ∧
    Delay.Force call d w =
      (.value v, { w1 with delays := w1.delays.write d { s1 with value := some v } }) ∧
    Delay.Deref call d w =
      (.value v, { w1 with delays := w1.delays.write d { s1 with value := some v } }) ∧
    Delay.IsRealized d
      { w1 with delays := w1.delays.write d { s1 with value := some v } } = some true ∧
    ∀ call2 : C → List V → DelayWorld S C V → Outcome V × DelayWorld S C V,
      Delay.Force call2 d
          { w1 with delays := w1.delays.write d { s1 with value := some v } } =
        (.value v, { w1 with delays := w1.delays.write d { s1 with value := some v } }) ∧
      Delay.Deref call2 d
          { w1 with delays := w1.delays.write d { s1 with value := some v } } =
        (.value v, { w1 with delays := w1.delays.write d { s1 with value := some v } }) := by
  have h2 := Cells.deref_write_same w1.delays d s1 { s1 with value := some v } h1
  refine ⟨by simp [Delay.IsRealized, hd], by simp only [Delay.Force, hd, hc, h1],
    by simp only [Delay.Deref, Delay.Force, hd, hc, h1], ?_, ?_⟩
  · simp [Delay.IsRealized, h2]
  · intro call2
    constructor
    · simp only [Delay.Force, h2]
    · simp only [Delay.Deref, Delay.Force, h2]

/-- Claim C20, a worked instance: the delay at 512 with the thunk that counts its
calls.  The first `Force`, and the first `Deref` alike, returns 1 with one call
counted; a later `Force` or `Deref` returns 1 again and the count stays 1. -/
theorem C20_delay_witness :
    Delay.IsRealized 512 sampleDelays = some false ∧
    Delay.Force sampleThunk 512 sampleDelays =
      (.value (.int 1), ⟨1, [(512, ⟨(), some (.int 1)⟩)]⟩) ∧
    Delay.Deref sampleThunk 512 sampleDelays =
      (.value (.int 1), ⟨1, [(512, ⟨(), some (.int 1)⟩)]⟩) ∧
    Delay.IsRealized 512 (⟨1, [(512, ⟨(), some (.int 1)⟩)]⟩ : DelayWorld Nat Unit Obj) =
      some true ∧
    Delay.Force sampleThunk 512 ⟨1, [(512, ⟨(), some (.int 1)⟩)]⟩ =
      (.value (.int 1), ⟨1, [(512, ⟨(), some (.int 1)⟩)]⟩) ∧
    Delay.Deref sampleThunk 512 ⟨1, [(512, ⟨(), some (.int 1)⟩)]⟩ =
      (.value (.int 1), ⟨1, [(512, ⟨(), some (.int 1)⟩)]⟩) :=
  have h := C20_delay_memoizes sampleThunk 512 sampleDelays ⟨1, [(512, ⟨(), none⟩)]⟩ ()
    (.int 1) ⟨(), none⟩ rfl rfl rfl
  ⟨h.1, h.2.1, h.2.2.1, h.2.2.2.1, (h.2.2.2.2 sampleThunk).1, (h.2.2.2.2 sampleThunk).2⟩

/-! ## The claims on the dialect of a linted file -/

theorem HasSuffix_iff (s suffix : String) :
    HasSuffix s suffix = true ↔ ∃ pre : String, s = pre ++ suffix := by
  unfold HasSuffix
  rw [List.isSuffixOf_iff_suffix]
  constructor
  · rintro ⟨t, ht⟩
    exact ⟨⟨t⟩, String.ext (by simpa using ht.symm)⟩
  · rintro ⟨pre, rfl⟩
    exact ⟨pre.data, by simp⟩

theorem last_of_suffix (s pre suffix : String) (a : List Char) (c : Char)
    (hs : suffix.data = a ++ [c]) (h : s = pre ++ suffix) : s.data.getLast? = some c := by
  rw [h, String.data_append, hs, ← List.append_assoc, List.getLast?_append]
  simp

/-- Claim C21: `detectDialect(f)` is EDN when f ends with ".edn", CLJS when f ends
with ".cljs", JOKER when f ends with ".joke", and CLJ when f ends with none of the
three; no filename ends with two of the three suffixes. -/
theorem C21_detectDialect_by_suffix (f : String) :
    ((∃ pre : String, f = pre ++ ".edn") → detectDialect f = .EDN) ∧
    ((∃ pre : String, f = pre ++ ".cljs") → detectDialect f = .CLJS) ∧
    ((∃ pre : String, f = pre ++ ".joke") → detectDialect f = .JOKER) ∧
    ((¬ ∃ pre : String, f = pre ++ ".edn") → (¬ ∃ pre : String, f = pre ++ ".cljs") →
      (¬ ∃ pre : String, f = pre ++ ".joke") → detectDialect f = .CLJ) ∧
    ¬ ((∃ pre : String, f = pre ++ ".edn") ∧ (∃ pre : String, f = pre ++ ".cljs")) ∧
    ¬ ((∃ pre : String, f = pre ++ ".edn") ∧ (∃ pre : String, f = pre ++ ".joke")) ∧
    ¬ ((∃ pre : String, f = pre ++ ".cljs") ∧ (∃ pre : String, f = pre ++ ".joke")) := by
  have x1 : ¬ ((∃ pre : String, f = pre ++ ".edn") ∧ (∃ pre : String, f = pre ++ ".cljs")) := by
    rintro ⟨⟨p, hp⟩, ⟨q, hq⟩⟩
    have a := last_of_suffix f p ".edn" ['.', 'e', 'd'] 'n' rfl hp
    have b := last_of_suffix f q ".cljs" ['.', 'c', 'l', 'j'] 's' rfl hq
    rw [a] at b
    exact absurd b (by decide)
  have x2 : ¬ ((∃ pre : String, f = pre ++ ".edn") ∧ (∃ pre : String, f = pre ++ ".joke")) := by
    rintro ⟨⟨p, hp⟩, ⟨q, hq⟩⟩
    have a := last_of_suffix f p ".edn" ['.', 'e', 'd'] 'n' rfl hp
    have b := last_of_suffix f q ".joke" ['.', 'j', 'o', 'k'] 'e' rfl hq
    rw [a] at b
    exact absurd b (by decide)
  have x3 : ¬ ((∃ pre : String, f = pre ++ ".cljs") ∧ (∃ pre : String, f = pre ++ ".joke")) := by
    rintro ⟨⟨p, hp⟩, ⟨q, hq⟩⟩
    have a := last_of_suffix f p ".cljs" ['.', 'c', 'l', 'j'] 's' rfl hp
    have b := last_of_suffix f q ".joke" ['.', 'j', 'o', 'k'] 'e' rfl hq
    rw [a] at b
    exact absurd b (by decide)
  have n1 : ∀ suffix, (¬ ∃ pre : String, f = pre ++ suffix) → HasSuffix f suffix = false := by
    intro suffix hn
    cases hb : HasSuffix f suffix with
    | false => rfl
    | true => exact absurd ((HasSuffix_iff f suffix).1 hb) hn
  refine ⟨fun h => ?_, fun h => ?_, fun h => ?_, fun h1 h2 h3 => ?_, x1, x2, x3⟩
  · simp [detectDialect, (HasSuffix_iff f ".edn").2 h]
  · have e := n1 ".edn" (fun he => x1 ⟨he, h⟩)
    simp [detectDialect, e, (HasSuffix_iff f ".cljs").2 h]
  · have e1 := n1 ".edn" (fun he => x2 ⟨he, h⟩)
    have e2 := n1 ".cljs" (fun he => x3 ⟨he, h⟩)
    simp [detectDialect, e1, e2, (HasSuffix_iff f ".joke").2 h]
  · simp [detectDialect, n1 _ h1, n1 _ h2, n1 _ h3]

/-- Claim C21, a worked instance: a ClojureScript file. -/
theorem C21_detectDialect_witness : detectDialect "src/app.cljs" = .CLJS :=
  (C21_detectDialect_by_suffix "src/app.cljs").2.1 ⟨"src/app", by decide⟩

/-- Claim C22, as the code behaves: `makeDialectKeyword` gives `:clj` for EDN and
for CLJ and `:cljs` for CLJS, but for JOKER the keyword whose name is "joker "
with a space at the end, which does not Equal `:joker` and prints as ":joker ";
`configureLinterMode` removes `:joker` from the feature set and adds that keyword. -/
theorem C22_joker_keyword_has_a_space {M F : Type} (T : InternTable) (hT : T.Sound)
    (X : LinterExtern M F) (g : LinterState M F) (v : Var M)
    (hv : g.vars.deref (X.Resolve (MakeSymbol T "joker.core/*linter-mode*")) = some v) :
    makeDialectKeyword T .EDN = MakeKeyword T "clj" ∧
    makeDialectKeyword T .CLJ = MakeKeyword T "clj" ∧
    makeDialectKeyword T .CLJS = MakeKeyword T "cljs" ∧
    makeDialectKeyword T .JOKER = MakeKeyword T "joker " ∧
    Keyword.ToString T (makeDialectKeyword T .JOKER) false = some ":joker " ∧
    Keyword.Equals (makeDialectKeyword T .JOKER)
      (.keyword (MakeKeyword T "joker") : Object M) = false ∧
    Keyword.Equals (MakeKeyword T "joker")
      (.keyword (makeDialectKeyword T .JOKER) : Object M) = false ∧
    configureLinterMode T X .JOKER g =
      match X.Conj (X.Disjoin g.Features (MakeKeyword T "joker"))
          (MakeKeyword T "joker ") with
      | none => none
      | some features =>
        X.ProcessLinterData .JOKER
          { LINTER_MODE := true, DIALECT := .JOKER, Features := features,
            vars := g.vars.write (X.Resolve (MakeSymbol T "joker.core/*linter-mode*"))
              { v with Value := some (.bool true) } } := by
  have p1 := MakeKeyword_parts T "joker "
  have p2 := MakeKeyword_parts T "joker"
  have n1 : nameParts "joker " = (none, "joker ") := by decide
  have n2 : nameParts "joker" = (none, "joker") := by decide
  rw [n1] at p1
  rw [n2] at p2
  simp only at p1 p2
  have hne : T.Intern "joker " ≠ T.Intern "joker" := fun e =>
    absurd (hT.intern_inj e) (by decide)
  refine ⟨rfl, rfl, rfl, rfl, ?_, ?_, ?_, ?_⟩
  · simp [makeDialectKeyword, Keyword.ToString, Keyword.Name, p1.1, p1.2, hT.load_intern]
  · simp [makeDialectKeyword, Keyword.Equals, p1.1, p1.2, p2.1, p2.2, hne]
  · simp [makeDialectKeyword, Keyword.Equals, p1.1, p1.2, p2.1, p2.2, Ne.symm hne]
  · simp only [configureLinterMode, hv, makeDialectKeyword]

/-- Claim C22, a worked instance on the sample intern table: the keyword added for
JOKER prints with the space. -/
theorem C22_joker_keyword_witness :
    Keyword.ToString sampleStrings (makeDialectKeyword sampleStrings .JOKER) false
      = some ":joker " :=
  (C22_joker_keyword_has_a_space sampleStrings sampleStrings_sound sampleLinterExtern
    sampleLinterState (sampleVar none) rfl).2.2.2.2.1
/-! ## The claims on primitive callables and on comparators -/

/-- Claim C25, as the code behaves: `Proc.Equals` compares addresses when the
argument is a primitive callable, and fails (reflect's `Pointer` on a struct) when
the argument is an integer, a string, a keyword, a boolean or nil; a lookup of the
integer 1 in an array-map that holds a primitive callable as a key fails with it. -/
theorem C25_proc_equals_fails_on_structs {M : Type} (p : Ptr) :
    (∀ q, Proc.Equals p (.proc q : Object M) = some (p == q)) ∧
    (∀ n, Proc.Equals p (.int n : Object M) = none) ∧
    (∀ s, Proc.Equals p (.string s : Object M) = none) ∧
    (∀ k, Proc.Equals p (.keyword k : Object M) = none) ∧
    (∀ b, Proc.Equals p (.bool b : Object M) = none) ∧
    Proc.Equals p (.nil : Object M) = none ∧
    ArrayMap.indexOf [[some (.proc 64), some (.int 0)]] (fullMap 0 2) (.int 1 : Obj) = none ∧
    ArrayMap.Get [[some (.proc 64), some (.int 0)]] (fullMap 0 2) (.int 1 : Obj) = none :=
  ⟨fun _ => rfl, fun _ => rfl, fun _ => rfl, fun _ => rfl, fun _ => rfl, rfl,
    by decide, by decide⟩

/-- Claim C28, as the code behaves: `Less(i, j)` is true exactly when `compare`
gives -1.  For a comparator that returns a boolean this is when it returns true on
(s[i], s[j]); for a comparator that returns a number n it is when `n.Int().I` is -1,
so a negative result other than -1 gives false. -/
theorem C28_less_is_compare_minus_one {M C N : Type} (X : CompareExtern M C N)
    (s : SortableSlice (Object M) C) (i j : Nat) (a b : Object M)
    (ha : s.s[i]? = some a) (hb : s.s[j]? = some b) :
    (X.Call s.cmp [a, b] = .value (.bool true) → SortableSlice.Less X s i j = .value true) ∧
    (∀ r2 B2, X.Call s.cmp [a, b] = .value (.bool false) →
      X.Call s.cmp [b, a] = .value r2 → X.AssertBool r2 "" = .value B2 →
      SortableSlice.Less X s i j = .value false) ∧
    (∀ r n, X.Call s.cmp [a, b] = .value r → (∀ B, r ≠ .bool B) →
      X.AssertNumber r "Function is not a comparator since it returned a non-integer value"
        = .value n →
      SortableSlice.Less X s i j = .value (X.Int n == -1)) := by
  refine ⟨fun h => ?_, fun r2 B2 h1 h2 h3 => ?_, fun r n h1 h2 h3 => ?_⟩
  · simp [SortableSlice.Less, Comparator.Compare, Joker.compare, ha, hb, h]
  · cases B2 <;>
      simp [SortableSlice.Less, Comparator.Compare, Joker.compare, ha, hb, h1, h2, h3]
  · cases r with
    | bool B => exact absurd rfl (h2 B)
    | _ => simp [SortableSlice.Less, Comparator.Compare, Joker.compare, ha, hb, h1, h3]

/-- Claim C28, a worked instance: with subtraction as the comparator, 1 is not
`Less` than 3, the result -2 being negative but not -1. -/
theorem C28_less_witness :
    sampleCompareExtern.Call (fun x y => .int (x - y)) [.int 1, .int 3] = .value (.int (-2)) ∧
    SortableSlice.Less sampleCompareExtern ⟨[.int 1, .int 3], fun x y => .int (x - y)⟩ 0 1
      = .value false :=
  ⟨rfl, (C28_less_is_compare_minus_one sampleCompareExtern
    ⟨[.int 1, .int 3], fun x y => .int (x - y)⟩ 0 1 (.int 1) (.int 3) rfl rfl).2.2
    (.int (-2)) (-2) rfl (fun _ h => Object.noConfusion h) rfl⟩
/-! ## The claim on indexing a string -/

theorem nthLoop_at_offset (cs : List Char) :
    ∀ (j last k : Nat) (c : Char), cs[k]? = some c →
      String.nthLoop ((j + byteOffset cs k : Nat) : Int) (rangeString cs j) last = .inr c := by
  induction cs with
  | nil => intro j last k c h; simp at h
  | cons x xs ih =>
    intro j last k c h
    cases k with
    | zero =>
      simp at h
      subst h
      simp [byteOffset, rangeString, String.nthLoop]
    | succ k =>
      simp at h
      have hpos : 0 < x.utf8Size := Char.utf8Size_pos x
      have e : j + byteOffset (x :: xs) (k + 1) = (j + x.utf8Size) + byteOffset xs k := by
        simp [byteOffset]
        omega
      have hne : ¬ (((j + x.utf8Size) + byteOffset xs k : Nat) : Int) = (j : Int) := by
        omega
      rw [e, rangeString, String.nthLoop, if_neg hne]
      exact ih (j + x.utf8Size) j k c h

theorem nthLoop_beyond (cs : List Char) :
    ∀ (j last : Nat) (i : Int), ((j + byteOffset cs cs.length : Nat) : Int) ≤ i →
      ∃ e, String.nthLoop i (rangeString cs j) last = .inl e := by
  induction cs with
  | nil => intro j last i _; exact ⟨last, rfl⟩
  | cons x xs ih =>
    intro j last i h
    have hpos : 0 < x.utf8Size := Char.utf8Size_pos x
    have e : j + byteOffset (x :: xs) (x :: xs).length
        = (j + x.utf8Size) + byteOffset xs xs.length := by
      simp [byteOffset]
      omega
    rw [e] at h
    have hne : ¬ i = (j : Int) := by omega
    rw [rangeString, String.nthLoop, if_neg hne]
    exact ih (j + x.utf8Size) j i h

theorem byteOffset_ascii (cs : List Char) (h : ∀ c ∈ cs, c.utf8Size = 1) (k : Nat)
    (hk : k ≤ cs.length) : byteOffset cs k = k := by
  induction cs generalizing k with
  | nil => simp at hk; subst hk; rfl
  | cons x xs ih =>
    cases k with
    | zero => rfl
    | succ k =>
      have h1 := h x (by simp)
      have h2 := ih (fun c hc => h c (by simp [hc])) k (by simpa using hk)
      simp only [byteOffset, List.take_succ_cons, List.map_cons, List.sum_cons, h1] at h2 ⊢
      omega

/-- Claim C27, as the code behaves: `Nth` and `TryNth` look for the character whose
encoding starts at byte offset i.  Character number k of the string (the k-th object
of `Seq()`) is what they return at the index `byteOffset k`; on a string of one-byte
characters that index is k, and the index `len` and beyond fails (`TryNth` returns
d).  A negative index fails.  On the string of the two-byte e-acute followed by a,
whose sequence has 2 characters, `Nth(1)` fails, `TryNth(1, d)` is d, and the second
character is found at index 2. -/
theorem C27_nth_goes_by_byte_offset {M : Type} (S : String) (d : Object M) :
    (∀ k x, (String.Seq S : ArraySeq (Object M)).elements[k]? = some x →
      String.Nth S (byteOffset S.data k : Nat) = .value x ∧
      String.TryNth S (byteOffset S.data k : Nat) d = x) ∧
    ((∀ c ∈ S.data, c.utf8Size = 1) →
      (∀ k x, (String.Seq S : ArraySeq (Object M)).elements[k]? = some x →
        String.Nth S (k : Nat) = .value x ∧ String.TryNth S (k : Nat) d = x) ∧
      (∀ i : Int, ((String.Seq S : ArraySeq (Object M)).elements.length : Int) ≤ i →
        (∃ msg, (String.Nth S i : Outcome (Object M)) = .error msg) ∧
        String.TryNth S i d = d)) ∧
    (∀ i : Int, i < 0 →
      (String.Nth S i : Outcome (Object M)) = .error ("Negative index: " ++ toString i) ∧
      String.TryNth S i d = d) ∧
    (String.Seq sampleAccented : ArraySeq (Object M)).elements = [.char 233, .char 97] ∧
    (String.Nth sampleAccented 1 : Outcome (Object M))
      = .error "Index 1 exceeds string's length 3" ∧
    String.TryNth sampleAccented 1 d = d ∧
    (String.Nth sampleAccented 2 : Outcome (Object M)) = .value (.char 97) := by
  have hel : (String.Seq S : ArraySeq (Object M)).elements
      = S.data.map (fun r => .char (r.toNat : Int)) := by
    simp [String.Seq, ArraySeq.elements]
  have general : ∀ k x, (String.Seq S : ArraySeq (Object M)).elements[k]? = some x →
      String.Nth S (byteOffset S.data k : Nat) = .value x ∧
      String.TryNth S (byteOffset S.data k : Nat) d = x := by
    intro k x hx
    rw [hel, List.getElem?_map] at hx
    cases hc : S.data[k]? with
    | none => simp [hc] at hx
    | some c =>
      simp only [hc, Option.map_some', Option.some.injEq] at hx
      subst hx
      have hl := nthLoop_at_offset S.data 0 0 k c hc
      rw [Nat.zero_add] at hl
      have hn : ¬ ((byteOffset S.data k : Nat) : Int) < 0 := by omega
      simp only [String.Nth, String.TryNth, if_neg hn, hl, and_self]
  refine ⟨general, fun hascii => ⟨fun k x hx => ?_, fun i hi => ?_⟩, fun i hi => ?_,
    rfl, rfl, rfl, rfl⟩
  · have hk : k < S.data.length := by
      rw [hel] at hx
      have := (List.getElem?_eq_some.1 hx).1
      simpa using this
    have := general k x hx
    rwa [byteOffset_ascii S.data hascii k (by omega)] at this
  · rw [hel, List.length_map] at hi
    have hb := byteOffset_ascii S.data hascii S.data.length (le_refl _)
    obtain ⟨e, he⟩ := nthLoop_beyond S.data 0 0 i (by rw [Nat.zero_add, hb]; exact hi)
    have hn : ¬ i < 0 := by omega
    simp only [String.Nth, String.TryNth, if_neg hn, he, and_true]
    exact ⟨_, rfl⟩
  · simp [String.Nth, String.TryNth, hi]

/-- Claim C27, a worked instance: the plain string "abc" at index 1. -/
theorem C27_nth_witness :
    (String.Nth "abc" 1 : Outcome Obj) = .value (.char 98) ∧
    String.TryNth "abc" 1 (.nil : Obj) = .char 98 :=
  ((C27_nth_goes_by_byte_offset "abc" (.nil : Obj)).2.1 (by decide)).1 1 (.char 98) rfl
/-! ## The claim on the text of an exception-info -/

/-- Claim C23: for an exception-info whose data is a well-formed array-map,
`Error()` and `ToString` are "filename:line:col: kind: message", where the position
is that of the value under `:form` (the zero position, which prints as "<file>:0:0",
when there is no such value or it has no info), kind is "Exception" unless there is
a value under `:_prefix`, whose `ToString(false)` is then used, and message is the
message; "\nStacktrace:\n" and the stack trace follow exactly when the call stack of
the runtime kept with it is not empty. -/
theorem C23_error_text {M R : Type} (T : InternTable) (X : ErrorExtern M R)
    (h : Heap (Object M)) (exInfo : ExInfo R) (ps : List (Object M × Object M))
    (pos : Position) (kind : String) (escape : Bool)
    (hm : exInfo.data.Holds h ps)
    (hpos : (lookup (.keyword (MakeKeyword T "form")) ps = some (false, none) ∧
        pos = ⟨0, 0, none⟩) ∨
      (∃ f, lookup (.keyword (MakeKeyword T "form")) ps = some (true, some f) ∧
        (X.infoPos f = some pos ∨ (X.infoPos f = none ∧ pos = ⟨0, 0, none⟩))))
    (hkind : (lookup (.keyword (MakeKeyword T "_prefix")) ps = some (false, none) ∧
        kind = "Exception") ∨
      (∃ p, lookup (.keyword (MakeKeyword T "_prefix")) ps = some (true, some p) ∧
        X.ToString p false = some kind)) :
    ExInfo.Error T X h exInfo =
      some (pos.Filename ++ ":" ++ toString pos.startLine ++ ":" ++
        toString pos.startColumn ++ ": " ++ kind ++ ": " ++ exInfo.msg ++
        (if 0 < X.frames exInfo.rt then "\nStacktrace:\n" ++ X.stacktrace exInfo.rt
          else "")) ∧
    ExInfo.ToString T X h exInfo escape = ExInfo.Error T X h exInfo ∧
    Position.Filename ⟨0, 0, none⟩ = "<file>" ∧
    (∀ name, pos.filename = some name → pos.Filename = name) := by
  refine ⟨?_, rfl, rfl, fun name hn => by simp [Position.Filename, hn]⟩
  have g1 := Get_eq_lookup hm (.keyword (MakeKeyword T "form"))
  have g2 := Get_eq_lookup hm (.keyword (MakeKeyword T "_prefix"))
  have tail : ∀ p : Position, ∀ k : String,
      (if 0 < X.frames exInfo.rt then
        some (p.Filename ++ ":" ++ toString p.startLine ++ ":" ++
          toString p.startColumn ++ ": " ++ k ++ ": " ++ exInfo.msg ++
          "\nStacktrace:\n" ++ X.stacktrace exInfo.rt)
      else
        some (p.Filename ++ ":" ++ toString p.startLine ++ ":" ++
          toString p.startColumn ++ ": " ++ k ++ ": " ++ exInfo.msg)) =
      some (p.Filename ++ ":" ++ toString p.startLine ++ ":" ++
        toString p.startColumn ++ ": " ++ k ++ ": " ++ exInfo.msg ++
        (if 0 < X.frames exInfo.rt then "\nStacktrace:\n" ++ X.stacktrace exInfo.rt
          else "")) := by
    intro p k
    by_cases hf : 0 < X.frames exInfo.rt
    · simp only [hf, if_true, String.append_assoc]
    · simp only [hf, if_false, String.append_empty]
  rw [← tail]
  unfold ExInfo.Error
  rw [g1, g2]
  rcases hpos with ⟨l1, rfl⟩ | ⟨f, l1, hp | ⟨hp, rfl⟩⟩
  · rcases hkind with ⟨l2, rfl⟩ | ⟨p, l2, hk⟩
    · simp [l1, l2]
    · simp [l1, l2, hk]
  · rcases hkind with ⟨l2, rfl⟩ | ⟨p, l2, hk⟩
    · simp [l1, l2, hp]
    · simp [l1, l2, hp, hk]
  · rcases hkind with ⟨l2, rfl⟩ | ⟨p, l2, hk⟩
    · simp [l1, l2, hp]
    · simp [l1, l2, hp, hk]

/-- Claim C23, a worked instance: the form 3 at a.clj:3:7, no `:_prefix`, two
frames on the call stack. -/
theorem C23_error_text_witness :
    ExInfo.Error sampleErrorStrings sampleErrorExtern [flat sampleErrorData]
        (⟨"boom", fullMap 0 2, 2⟩ : ExInfo Nat) =
      some ("a.clj" ++ ":" ++ toString (3 : Int) ++ ":" ++ toString (7 : Int) ++ ": " ++
        "Exception" ++ ": " ++ "boom" ++ ("\nStacktrace:\n" ++ "  f a.clj:1:1")) :=
  (C23_error_text sampleErrorStrings sampleErrorExtern [flat sampleErrorData]
    ⟨"boom", fullMap 0 2, 2⟩ sampleErrorData ⟨3, 7, some "a.clj"⟩ "Exception" false
    (by unfold ArrayMap.Holds Slice.Valid; decide)
    (Or.inr ⟨.int 3, by decide, Or.inl rfl⟩) (Or.inl ⟨by decide, rfl⟩)).1
/-! ## `Set` and `Merge` on the list of pairs -/

theorem setOpt_cases {α : Type} [Equality α] (key value : α) (ps : List (α × α)) (n : Nat) :
    (scan key ps n = none ∧ setOpt key value ps = none) ∨
    (Absent ps key ∧ setOpt key value ps = some (ps ++ [(key, value)])) ∨
    (∃ t p, ps[t]? = some p ∧ FirstAt ps key t ∧
      setOpt key value ps = some (ps.set t (p.1, value))) := by
  induction ps generalizing n with
  | nil => right; left; exact ⟨fun p hp => by simp at hp, rfl⟩
  | cons q qs ih =>
    cases hE : Equality.Equals q.1 key with
    | none => left; simp [scan, setOpt, hE]
    | some b =>
      cases b with
      | true =>
        right; right
        exact ⟨0, q, by simp, ⟨q, by simp, hE, by simp⟩, by simp [setOpt, hE]⟩
      | false =>
        rcases ih (n + 1) with ⟨h1, h2⟩ | ⟨h1, h2⟩ | ⟨t, p, hp, ⟨p2, hp2, he, hb⟩, hl⟩
        · left; simp [scan, setOpt, hE, h1, h2]
        · right; left
          refine ⟨?_, by simp [setOpt, hE, h2]⟩
          intro x hx
          simp at hx
          rcases hx with rfl | hx
          · exact hE
          · exact h1 x hx
        · right; right
          refine ⟨t + 1, p, by simpa using hp, ⟨p2, by simpa using hp2, he, ?_⟩,
            by simp [setOpt, hE, hl]⟩
          intro x hx
          simp at hx
          rcases hx with rfl | hx
          · exact hE
          · exact hb x hx

theorem setOpt_keys {α : Type} [Equality α] {key value : α} {ps ps2 : List (α × α)}
    (hs : setOpt key value ps = some ps2) :
    ∀ q ∈ ps2, q.1 = key ∨ q.1 ∈ ps.map Prod.fst := by
  induction ps generalizing ps2 with
  | nil =>
    simp [setOpt] at hs
    subst hs
    intro q hq
    simp at hq
    left
    rw [hq]
  | cons p ps ih =>
    unfold setOpt at hs
    cases hE : Equality.Equals p.1 key with
    | none => rw [hE] at hs; simp at hs
    | some b =>
      rw [hE] at hs
      cases b with
      | true =>
        simp at hs
        subst hs
        intro q hq
        right
        simp at hq
        rcases hq with rfl | hq
        · simp
        · exact List.mem_map_of_mem Prod.fst (List.mem_cons_of_mem _ hq)
      | false =>
        simp only at hs
        cases hr : setOpt key value ps with
        | none => rw [hr] at hs; simp at hs
        | some r =>
          rw [hr] at hs
          simp at hs
          subst hs
          intro q hq
          simp at hq
          rcases hq with rfl | hq
          · right; simp
          · rcases ih hr q hq with h1 | h1
            · left; exact h1
            · right
              simp at h1 ⊢
              right
              exact h1

theorem setOpt_distinct {α : Type} [Equality α] {key value : α} {ps ps2 : List (α × α)}
    (hd : Distinct ps) (hs : setOpt key value ps = some ps2) : Distinct ps2 := by
  induction ps generalizing ps2 with
  | nil =>
    simp [setOpt] at hs
    subst hs
    simp [Distinct]
  | cons p ps ih =>
    unfold Distinct at hd
    rw [List.pairwise_cons] at hd
    unfold setOpt at hs
    cases hE : Equality.Equals p.1 key with
    | none => rw [hE] at hs; simp at hs
    | some b =>
      rw [hE] at hs
      cases b with
      | true =>
        simp at hs
        subst hs
        unfold Distinct
        rw [List.pairwise_cons]
        exact ⟨hd.1, hd.2⟩
      | false =>
        simp only at hs
        cases hr : setOpt key value ps with
        | none => rw [hr] at hs; simp at hs
        | some r =>
          rw [hr] at hs
          simp at hs
          subst hs
          unfold Distinct
          rw [List.pairwise_cons]
          refine ⟨?_, ih hd.2 hr⟩
          intro q hq
          rcases setOpt_keys hr q hq with h1 | h1
          · rw [h1]; exact hE
          · simp at h1
            obtain ⟨v, hv⟩ := h1
            exact hd.1 (q.1, v) hv

theorem mergeOpt_distinct {α : Type} [Equality α] {rs qs rs2 : List (α × α)}
    (hd : Distinct rs) (hm : mergeOpt rs qs = some rs2) : Distinct rs2 := by
  induction qs generalizing rs with
  | nil =>
    simp [mergeOpt] at hm
    subst hm
    exact hd
  | cons q qs ih =>
    unfold mergeOpt at hm
    cases hs : setOpt q.1 q.2 rs with
    | none => rw [hs] at hm; simp at hm
    | some rs1 =>
      rw [hs] at hm
      exact ih (setOpt_distinct hd hs) hm

theorem mergeOpt_keys {α : Type} [Equality α] {rs qs rs2 : List (α × α)}
    (hm : mergeOpt rs qs = some rs2) :
    ∀ x ∈ rs2, x.1 ∈ rs.map Prod.fst ∨ x.1 ∈ qs.map Prod.fst := by
  induction qs generalizing rs with
  | nil =>
    simp [mergeOpt] at hm
    subst hm
    intro x hx
    left
    exact List.mem_map_of_mem Prod.fst hx
  | cons q qs ih =>
    unfold mergeOpt at hm
    cases hs : setOpt q.1 q.2 rs with
    | none => rw [hs] at hm; simp at hm
    | some rs1 =>
      rw [hs] at hm
      intro x hx
      rcases ih hm x hx with h1 | h1
      · simp at h1
        obtain ⟨v, hv⟩ := h1
        rcases setOpt_keys hs _ hv with h2 | h2
        · right; simp at h2 ⊢; left; exact h2
        · left; exact h2
      · right
        simp at h1 ⊢
        right
        exact h1

/-! ## Updates in place: what `Set` and `Add` do to the heap -/

theorem Heap.TouchOnly.refl_touch {α : Type} (h : Heap α) (id : Nat) : h.TouchOnly h id :=
  ⟨le_refl _, fun _ _ => ⟨rfl, fun _ => rfl⟩⟩

theorem Heap.TouchOnly.of_set {α : Type} (h : Heap α) (id : Nat) (a : List (Option α))
    (ha : a.length = (h.arrayAt id).length) : h.TouchOnly (h.set id a) id := by
  refine ⟨by simp, fun k hk => ⟨?_, fun hne => Heap.arrayAt_set_other h a id k (Ne.symm hne)⟩⟩
  by_cases e : k = id
  · subst e
    rw [Heap.arrayAt_set_same _ _ _ hk, ha]
  · rw [Heap.arrayAt_set_other h a id k (Ne.symm e)]

theorem Heap.TouchOnly.of_append {α : Type} (h : Heap α) (id : Nat) (a : List (Option α)) :
    h.TouchOnly (h ++ [a]) id :=
  ⟨by simp, fun k hk => by
    rw [Heap.arrayAt_append_old h a k hk]
    exact ⟨rfl, fun _ => rfl⟩⟩

theorem Heap.TouchOnly.then_touch {α : Type} {h h1 h2 : Heap α} {id id2 : Nat}
    (t1 : h.TouchOnly h1 id) (t2 : h1.TouchOnly h2 id2) (hid : id2 = id ∨ h.length ≤ id2) :
    h.TouchOnly h2 id := by
  refine ⟨le_trans t1.1 t2.1, fun k hk => ?_⟩
  have a1 := t1.2 k hk
  have a2 := t2.2 k (lt_of_lt_of_le hk t1.1)
  refine ⟨a2.1.trans a1.1, fun hne => ?_⟩
  have hne2 : k ≠ id2 := by
    rcases hid with e | e
    · rw [e]; exact hne
    · omega
  rw [a2.2 hne2, a1.2 hne]

theorem Heap.TouchOnly.of_isPrefix {α : Type} {h h2 : Heap α} (hp : h <+: h2) (id : Nat) :
    h.TouchOnly h2 id :=
  ⟨hp.length_le, fun k hk => by
    rw [Heap.arrayAt_of_isPrefix hp k hk]
    exact ⟨rfl, fun _ => rfl⟩⟩

theorem ArrayMap.Holds.of_touch {α : Type} {h h2 : Heap α} {m : ArrayMap} {ps : List (α × α)}
    {id : Nat} (hm : m.Holds h ps) (ht : h.TouchOnly h2 id)
    (hne : 0 < m.arr.cap → m.arr.array ≠ id) : m.Holds h2 ps := by
  by_cases hc : 0 < m.arr.cap
  · have hlt := hm.1.array_lt hc
    have e := (ht.2 _ hlt).2 (hne hc)
    constructor
    · unfold Slice.Valid at *
      rw [e]
      exact hm.1
    · unfold Heap.view
      rw [e]
      exact hm.2
  · have hcap : m.arr.cap = 0 := by omega
    have hlen : m.arr.len = 0 := by
      have := hm.1.1
      omega
    have hps : flat ps = [] := by
      rw [← hm.2]
      unfold Heap.view
      simp [hlen]
    constructor
    · unfold Slice.Valid
      refine ⟨by omega, ?_⟩
      have hv := hm.1.2
      rw [hcap] at hv ⊢
      by_cases hlt : m.arr.array < h.length
      · rw [(ht.2 _ hlt).1]
        exact hv
      · rw [Heap.arrayAt_of_le h _ (by omega)] at hv
        simp at hv
        omega
    · unfold Heap.view
      rw [hps]
      simp [hlen]

theorem Heap.store_touch {α : Type} {h h2 : Heap α} {s : Slice} {i : Nat} {v : Option α}
    (hs : h.store s i v = some h2) : h.TouchOnly h2 s.array := by
  unfold Heap.store at hs
  split at hs
  · simp at hs
    subst hs
    exact Heap.TouchOnly.of_set h s.array _ (by simp)
  · simp at hs

theorem Heap.append_touch {α : Type} (grow : Nat → Nat) (h : Heap α) (s : Slice) (v : Option α) :
    h.TouchOnly (h.append grow s v).1 s.array ∧
    ((0 < s.cap ∧ (h.append grow s v).2.array = s.array) ∨
      h.length ≤ (h.append grow s v).2.array) := by
  unfold Heap.append
  split
  · rename_i hc
    exact ⟨Heap.TouchOnly.of_set h s.array _ (by simp), Or.inl ⟨by omega, rfl⟩⟩
  · exact ⟨Heap.TouchOnly.of_append h s.array _, Or.inr (le_refl _)⟩

/-- What `Set` does on a well-formed array-map: the pairs change as `setOpt` tells,
the heap changes inside the backing array of the map at most, and the map keeps its
backing array or moves to a new one. -/
theorem Set_spec {α : Type} [Equality α] (grow : Nat → Nat) {h : Heap α} {m : ArrayMap}
    {ps : List (α × α)} (hm : m.Holds h ps) (key value : α) :
    match setOpt key value ps with
    | none => ArrayMap.Set grow h m key value = none
    | some ps2 =>
      ∃ h2 m2, ArrayMap.Set grow h m key value = some (h2, m2) ∧ m2.Holds h2 ps2 ∧
        h.TouchOnly h2 m.arr.array ∧
        ((0 < m.arr.cap ∧ m2.arr.array = m.arr.array) ∨ h.length ≤ m2.arr.array) ∧
        (∀ b : Heap α, b <+: h → b.length ≤ m.arr.array →
          b <+: h2 ∧ b.length ≤ m2.arr.array) := by
  rcases setOpt_cases key value ps 0 with ⟨h1, h2⟩ | ⟨h1, h2⟩ | ⟨t, p, hp, hf, h2⟩
  · rw [h2]
    simp only
    unfold ArrayMap.Set
    rw [indexOf_eq_scan hm, h1]
  · rw [h2]
    simp only
    have a1 := Heap.append_spec grow hm.1 (some key)
    have a2 := Heap.append_spec grow a1.1 (some value)
    have t1 := Heap.append_touch grow h m.arr (some key)
    have t2 := Heap.append_touch grow (h.append grow m.arr (some key)).1
      (h.append grow m.arr (some key)).2 (some value)
    refine ⟨_, ⟨((h.append grow m.arr (some key)).1.append grow
        (h.append grow m.arr (some key)).2 (some value)).2⟩, ?_, ⟨a2.1, ?_⟩, ?_, ?_, ?_⟩
    · unfold ArrayMap.Set
      rw [indexOf_eq_scan hm, scan_absent h1]
      simp
    · rw [a2.2.1, a1.2.1, hm.2, flat_append]
      simp [flat]
    · refine t1.1.then_touch t2.1 ?_
      rcases t1.2 with ⟨_, e⟩ | e
      · left; exact e
      · right; exact e
    · simp only
      rcases t1.2 with ⟨hc, e⟩ | e
      · rcases t2.2 with ⟨_, e2⟩ | e2
        · left; exact ⟨hc, e2.trans e⟩
        · right; exact le_trans t1.1.1 e2
      · rcases t2.2 with ⟨_, e2⟩ | e2
        · right; rw [e2]; exact e
        · right; exact le_trans t1.1.1 e2
    · intro b hb hbl
      have f1 := a1.2.2.2 b hb hbl
      exact a2.2.2.2 b f1.1 f1.2
  · rw [h2]
    simp only
    have htl : t < ps.length := by
      by_contra hn
      rw [List.getElem?_eq_none (by omega)] at hp
      simp at hp
    have hi : 2 * t + 1 < m.arr.len := by rw [hm.len]; omega
    obtain ⟨h3, hst, hview, hvalid, hfr⟩ := Heap.store_spec hm.1 hi (some value)
    refine ⟨h3, m, ?_, ⟨hvalid, ?_⟩, Heap.store_touch hst, Or.inl ⟨?_, rfl⟩, ?_⟩
    · unfold ArrayMap.Set
      rw [indexOf_eq_scan hm, scan_firstAt hf]
      have e1 : ((2 * ((0 + t : Nat) : Int)) != -1) = true := by
        simp; omega
      have e2 : (2 * ((0 + t : Nat) : Int) + 1).toNat = 2 * t + 1 := by omega
      simp only [e1, if_true, e2, hst]
    · rw [hview, hm.2]
      exact flat_set_value ps t p hp value
    · have := hm.1.1
      omega
    · intro b hb hbl
      exact ⟨hfr b hb hbl, hbl⟩

theorem Add_cases {α : Type} [Equality α] (grow : Nat → Nat) {h h2 : Heap α} {m m2 : ArrayMap}
    {key value : α} {added : Bool}
    (ha : ArrayMap.Add grow h m key value = some (h2, m2, added)) :
    ArrayMap.Set grow h m key value = some (h2, m2) ∨ (h2 = h ∧ m2 = m) := by
  unfold ArrayMap.Add at ha
  unfold ArrayMap.Set
  cases hi : ArrayMap.indexOf h m key with
  | none => rw [hi] at ha; simp at ha
  | some i =>
    rw [hi] at ha
    simp only at ha ⊢
    by_cases e : (i != -1) = true
    · right
      rw [if_pos e] at ha
      simp only [Option.some.injEq, Prod.mk.injEq] at ha
      exact ⟨ha.1.symm, ha.2.1.symm⟩
    · left
      rw [if_neg e] at ha
      rw [if_neg e]
      simp only [Option.some.injEq, Prod.mk.injEq] at ha ⊢
      exact ⟨ha.1, ha.2.1⟩

/-- What the loop of `Merge` does: the pairs of the argument, from pair number `n`
on, are `Set` on the result; `b` is the heap before the result was cloned, in which
the argument lives. -/
theorem mergeLoop_spec {α : Type} [Equality α] (grow : Nat → Nat) {b : Heap α} {o : ArrayMap}
    {qs : List (α × α)} (ho : o.Holds b qs) :
    ∀ (fuel n : Nat) (h : Heap α) (res : ArrayMap) (rs : List (α × α)),
      n ≤ qs.length → qs.length ≤ fuel + n → b <+: h → b.length ≤ res.arr.array →
      res.Holds h rs →
      match mergeOpt rs (qs.drop n) with
      | none => ArrayMap.mergeLoop grow fuel h res ⟨o, 2 * n⟩ = none
      | some rs2 =>
        ∃ h2 r, ArrayMap.mergeLoop grow fuel h res ⟨o, 2 * n⟩ = some (h2, r) ∧
          r.Holds h2 rs2 ∧ b <+: h2 ∧ b.length ≤ r.arr.array := by
  have hlen := ho.len
  intro fuel
  induction fuel with
  | zero =>
    intro n h res rs hn hf hb hbl hres
    have : n = qs.length := by omega
    subst this
    simp only [List.drop_length, mergeOpt]
    refine ⟨h, res, ?_, hres, hb, hbl⟩
    simp [ArrayMap.mergeLoop, ArrayMapIterator.HasNext, hlen]
  | succ fuel ih =>
    intro n h res rs hn hf hb hbl hres
    by_cases hlt : n < qs.length
    · have hd : qs.drop n = qs[n] :: qs.drop (n + 1) := List.drop_eq_getElem_cons hlt
      have hoh := ho.later_holds hb
      have hk := flat_key qs n qs[n] (by simp [hlt])
      have hv := flat_value qs n qs[n] (by simp [hlt])
      have hi : 2 * n < o.arr.len := by omega
      have hnext : ArrayMapIterator.Next h ⟨o, 2 * n⟩ =
          some (⟨some qs[n].1, some qs[n].2⟩, ⟨o, 2 * n + 2⟩) := by
        simp only [ArrayMapIterator.Next, hoh.index, hk, hv]
      have hhas : ArrayMapIterator.HasNext ⟨o, 2 * n⟩ = true := by
        simp [ArrayMapIterator.HasNext, hi]
      rw [hd]
      unfold mergeOpt ArrayMap.mergeLoop
      simp only [hhas, if_true, hnext]
      have hset := Set_spec grow hres qs[n].1 qs[n].2
      cases hs : setOpt qs[n].1 qs[n].2 rs with
      | none =>
        rw [hs] at hset
        simp only at hset ⊢
        rw [hset]
      | some rs1 =>
        rw [hs] at hset
        obtain ⟨h1, res1, hS, hres1, -, -, hfr⟩ := hset
        have f := hfr b hb hbl
        simp only [hS]
        have := ih (n + 1) h1 res1 rs1 (by omega) (by omega) f.1 f.2 hres1
        have e : 2 * (n + 1) = 2 * n + 2 := by omega
        rw [e] at this
        exact this
    · have : n = qs.length := by omega
      subst this
      simp only [List.drop_length, mergeOpt]
      refine ⟨h, res, ?_, hres, hb, hbl⟩
      simp [ArrayMap.mergeLoop, ArrayMapIterator.HasNext, hlen]

/-- What `Merge` does on two well-formed array-maps: it returns the receiver when
the argument is empty, the argument when the receiver is empty, and otherwise a
clone of the receiver on which the pairs of the argument are `Set`; every backing
array that existed before is unchanged. -/
theorem Merge_spec {α : Type} [Equality α] (grow : Nat → Nat) {h : Heap α} {m o : ArrayMap}
    {ps qs : List (α × α)} (hm : m.Holds h ps) (ho : o.Holds h qs) :
    (o.Count = 0 → ArrayMap.Merge grow h m o = some (h, m)) ∧
    (o.Count ≠ 0 → m.Count = 0 → ArrayMap.Merge grow h m o = some (h, o)) ∧
    (o.Count ≠ 0 → m.Count ≠ 0 →
      match mergeOpt ps qs with
      | none => ArrayMap.Merge grow h m o = none
      | some rs =>
        ∃ h2 r, ArrayMap.Merge grow h m o = some (h2, r) ∧ r.Holds h2 rs ∧ h <+: h2 ∧
          h.length ≤ r.arr.array) := by
  refine ⟨fun h1 => by simp [ArrayMap.Merge, h1], fun h1 h2 => by simp [ArrayMap.Merge, h1, h2],
    fun h1 h2 => ?_⟩
  obtain ⟨hc, res, hcl, hres, -⟩ := Clone_spec hm
  obtain ⟨hpre, hfresh⟩ := Clone_frame hcl
  have hl := mergeLoop_spec grow ho o.arr.len 0 hc res ps (by omega)
    (by rw [ho.len]; omega) hpre hfresh hres
  simp only [List.drop_zero, Nat.mul_zero] at hl
  unfold ArrayMap.Merge
  simp only [h1, h2, if_false, hcl, ArrayMap.Iter]
  exact hl

/-! ## The structs a program has built -/

theorem Assoc_fresh {α : Type} [Equality α] {H : Type} (X : Extern α H) {h h2 : Heap α}
    {m r : ArrayMap} {key value : α}
    (ha : ArrayMap.Assoc X h m key value = some (h2, .arrayMap r)) :
    h.length ≤ r.arr.array := by
  unfold ArrayMap.Assoc at ha
  split at ha
  · simp at ha
  · rename_i i hi
    split at ha
    · split at ha
      · simp at ha
      · rename_i h1 res hc
        obtain ⟨hp, hl⟩ := Clone_frame hc
        split at ha
        · simp at ha
          obtain ⟨-, rfl⟩ := ha
          exact hl
        · simp at ha
    · split at ha
      · simp at ha
      · split at ha
        · simp at ha
        · rename_i h1 res hc
          obtain ⟨hp, hl⟩ := Clone_frame hc
          simp at ha
          obtain ⟨-, rfl⟩ := ha
          have a1 := Heap.append_frame X.growslice h1 res.arr (some key) hp hl
          exact (Heap.append_frame X.growslice _ _ (some value) a1.1 a1.2).2

theorem keptOpt_sublist {α : Type} [Equality α] {key : α} {ps ks : List (α × α)}
    (hk : keptOpt key ps = some ks) : ks.Sublist ps := by
  induction ps generalizing ks with
  | nil =>
    simp [keptOpt] at hk
    subst hk
    exact List.Sublist.refl _
  | cons p ps ih =>
    unfold keptOpt at hk
    cases hE : Equality.Equals p.1 key with
    | none => rw [hE] at hk; simp at hk
    | some b =>
      rw [hE] at hk
      cases b with
      | true => exact (ih hk).cons p
      | false =>
        simp only at hk
        cases hr : keptOpt key ps with
        | none => rw [hr] at hk; simp at hk
        | some r =>
          rw [hr] at hk
          simp at hk
          subst hk
          exact (ih hr).cons₂ p

theorem Distinct.append_absent {α : Type} [Equality α] {ps : List (α × α)} {key : α}
    (hd : Distinct ps) (ha : Absent ps key) (value : α) : Distinct (ps ++ [(key, value)]) := by
  unfold Distinct at *
  rw [List.pairwise_append]
  refine ⟨hd, by simp, ?_⟩
  intro a ha2 b hb
  simp at hb
  subst hb
  exact ha a ha2

theorem Distinct.set_value {α : Type} [Equality α] {ps : List (α × α)} {t : Nat} {p : α × α}
    (hd : Distinct ps) (hp : ps[t]? = some p) (value : α) :
    Distinct (ps.set t (p.1, value)) := by
  have key : ∀ l : List (α × α), Distinct l ↔
      (l.map Prod.fst).Pairwise (fun a b => Equality.Equals a b = some false) := by
    intro l
    unfold Distinct
    rw [List.pairwise_map]
  rw [key] at hd ⊢
  have e : (ps.set t (p.1, value)).map Prod.fst = ps.map Prod.fst := by
    apply List.ext_getElem?
    intro n
    simp only [List.getElem?_map, List.getElem?_set]
    by_cases hn : t = n
    · subst hn
      by_cases hl : t < ps.length
      · simp [hl, hp]
      · rw [List.getElem?_eq_none (by omega)] at hp
        simp at hp
    · simp [hn]
  rw [e]
  exact hd

theorem set_same {β : Type} {l : List β} {i : Nat} {x : β} (h : l[i]? = some x) :
    l.set i x = l := by
  apply List.ext_getElem?
  intro n
  rw [List.getElem?_set]
  by_cases hn : i = n
  · subst hn
    by_cases hl : i < l.length
    · simp [hl, h]
    · rw [List.getElem?_eq_none (by omega)] at h
      simp at h
  · simp [hn]

theorem Set_frame_empty {α : Type} [Equality α] (grow : Nat → Nat) {h h2 : Heap α}
    {m m2 : ArrayMap} {ps : List (α × α)} (hm : m.Holds h ps) (hc : m.arr.cap = 0)
    {key value : α} (hs : ArrayMap.Set grow h m key value = some (h2, m2)) :
    h <+: h2 ∧ h.length ≤ m2.arr.array := by
  have hlen : m.arr.len = 0 := by
    have := hm.1.1
    omega
  have hps : ps = [] := by
    have := hm.len
    cases ps with
    | nil => rfl
    | cons p ps => simp at this; omega
  subst hps
  unfold ArrayMap.Set at hs
  rw [indexOf_eq_scan hm] at hs
  simp only [scan] at hs
  have e : ((-1 : Int) != -1) = false := by decide
  rw [e] at hs
  simp only [Bool.false_eq_true, if_false, Option.some.injEq, Prod.mk.injEq] at hs
  obtain ⟨rfl, rfl⟩ := hs
  have hn : ¬ m.arr.len < m.arr.cap := by omega
  have e1 : h.append grow m.arr (some key) =
      (h ++ [h.view m.arr ++ [some key] ++
          List.replicate (max (m.arr.len + 1) (grow m.arr.cap) - (m.arr.len + 1)) none],
        ⟨h.length, 0, m.arr.len + 1, max (m.arr.len + 1) (grow m.arr.cap)⟩) := by
    simp [Heap.append, hn]
  rw [e1]
  exact Heap.append_frame grow _ _ (some value) (List.prefix_append _ _) (le_refl _)

theorem WellBuilt.push {α : Type} [Equality α] {h h2 : Heap α} {ms : List ArrayMap}
    {r : ArrayMap} {rs : List (α × α)} (hw : WellBuilt h ms) (hp : h <+: h2)
    (hr : r.Holds h2 rs) (hd : Distinct rs) (hf : h.length ≤ r.arr.array) :
    WellBuilt h2 (ms ++ [r]) := by
  obtain ⟨w1, w2⟩ := hw
  have old : ∀ (i : Nat) (m : ArrayMap), (ms ++ [r])[i]? = some m → i < ms.length → ms[i]? = some m := by
    intro i m hi hlt
    rwa [List.getElem?_append_left hlt] at hi
  have new : ∀ (i : Nat) (m : ArrayMap), (ms ++ [r])[i]? = some m → ¬ i < ms.length → m = r := by
    intro i m hi hlt
    rw [List.getElem?_append_right (by omega)] at hi
    cases hk : i - ms.length with
    | zero => rw [hk] at hi; simp at hi; exact hi.symm
    | succ k => rw [hk] at hi; simp at hi
  have low : ∀ (i : Nat) (m : ArrayMap), ms[i]? = some m → 0 < m.arr.cap → m.arr.array < h.length := by
    intro i m hi hc
    obtain ⟨ps, hm, -⟩ := w1 i m hi
    exact hm.1.array_lt hc
  constructor
  · intro i m hi
    by_cases hlt : i < ms.length
    · obtain ⟨ps, hm, hdp⟩ := w1 i m (old i m hi hlt)
      exact ⟨ps, hm.later_holds hp, hdp⟩
    · rw [new i m hi hlt]
      exact ⟨rs, hr, hd⟩
  · intro i j m m2 hi hj hij hc hc2
    by_cases hlt : i < ms.length
    · by_cases hlt2 : j < ms.length
      · exact w2 i j m m2 (old i m hi hlt) (old j m2 hj hlt2) hij hc hc2
      · have := low i m (old i m hi hlt) hc
        rw [new j m2 hj hlt2]
        omega
    · by_cases hlt2 : j < ms.length
      · have := low j m2 (old j m2 hj hlt2) hc2
        rw [new i m hi hlt]
        omega
      · have b1 : i < (ms ++ [r]).length := by
          by_contra hn
          rw [List.getElem?_eq_none (by omega)] at hi
          simp at hi
        have b2 : j < (ms ++ [r]).length := by
          by_contra hn
          rw [List.getElem?_eq_none (by omega)] at hj
          simp at hj
        simp at b1 b2
        omega

theorem WellBuilt.update {α : Type} [Equality α] {h h2 : Heap α} {ms : List ArrayMap}
    {m m2 : ArrayMap} {ps2 : List (α × α)} {i : Nat} (hw : WellBuilt h ms)
    (hi : ms[i]? = some m) (hr : m2.Holds h2 ps2) (hd : Distinct ps2)
    (hf : (0 < m.arr.cap ∧ h.TouchOnly h2 m.arr.array ∧
        (m2.arr.array = m.arr.array ∨ h.length ≤ m2.arr.array)) ∨
      (h <+: h2 ∧ h.length ≤ m2.arr.array)) :
    WellBuilt h2 (ms.set i m2) := by
  obtain ⟨w1, w2⟩ := hw
  have hil : i < ms.length := by
    by_contra hn
    rw [List.getElem?_eq_none (by omega)] at hi
    simp at hi
  have at_i : ∀ x : ArrayMap, (ms.set i m2)[i]? = some x → x = m2 := by
    intro x hx
    rw [List.getElem?_set_self hil] at hx
    exact (Option.some.inj hx).symm
  have other : ∀ (k : Nat) (x : ArrayMap), k ≠ i → (ms.set i m2)[k]? = some x → ms[k]? = some x := by
    intro k x hk hx
    rwa [List.getElem?_set_ne (Ne.symm hk)] at hx
  have low : ∀ (k : Nat) (x : ArrayMap), ms[k]? = some x → 0 < x.arr.cap → x.arr.array < h.length := by
    intro k x hk hc
    obtain ⟨ps, hm, -⟩ := w1 k x hk
    exact hm.1.array_lt hc
  have keep : ∀ (k : Nat) (x : ArrayMap), k ≠ i → ms[k]? = some x →
      ∃ ps : List (α × α), x.Holds h2 ps ∧ Distinct ps := by
    intro k x hk hx
    obtain ⟨ps, hm, hdp⟩ := w1 k x hx
    rcases hf with ⟨hc, ht, -⟩ | ⟨hp, -⟩
    · exact ⟨ps, hm.of_touch ht (fun hcx => w2 k i x m hx hi hk hcx hc), hdp⟩
    · exact ⟨ps, hm.later_holds hp, hdp⟩
  have apart : ∀ (k : Nat) (x : ArrayMap), k ≠ i → ms[k]? = some x → 0 < x.arr.cap → 0 < m2.arr.cap →
      x.arr.array ≠ m2.arr.array := by
    intro k x hk hx hcx _
    have hl := low k x hx hcx
    rcases hf with ⟨hc, -, e | e⟩ | ⟨-, e⟩
    · rw [e]
      exact w2 k i x m hx hi hk hcx hc
    · omega
    · omega
  constructor
  · intro k x hx
    by_cases hk : k = i
    · subst hk
      rw [at_i x hx]
      exact ⟨ps2, hr, hd⟩
    · exact keep k x hk (other k x hk hx)
  · intro k j x y hx hy hkj hcx hcy
    by_cases hk : k = i
    · subst hk
      have hj : j ≠ k := fun e => hkj e.symm
      rw [at_i x hx] at hcx ⊢
      exact fun e => apart j y hj (other j y hj hy) hcy hcx e.symm
    · by_cases hj : j = i
      · subst hj
        rw [at_i y hy] at hcy ⊢
        exact apart k x hk (other k x hk hx) hcx hcy
      · exact w2 k j x y (other k x hk hx) (other j y hj hy) hkj hcx hcy

/-- The structs a program has built are well formed, their keys pairwise unequal
in storage order, and they do not share backing arrays. -/
theorem built_wellBuilt {α : Type} [Equality α] {H : Type} (X : Extern α H) {h : Heap α}
    {ms : List ArrayMap} (hb : Built X h ms) : WellBuilt h ms := by
  induction hb with
  | start => exact ⟨fun i m hi => by simp at hi, fun i j m m2 hi => by simp at hi⟩
  | alloc a _ ih =>
    refine ⟨fun i m hi => ?_, ih.apart⟩
    obtain ⟨ps, hm, hd⟩ := ih.holds i m hi
    exact ⟨ps, hm.later_holds (List.prefix_append _ _), hd⟩
  | @empty h0 ms0 _ ih =>
    have hr : Distinct ([] : List (α × α)) := by simp [Distinct]
    refine ⟨fun i m hi => ?_, fun i j m m2 hi hj hij hc hc2 => ?_⟩
    · by_cases hlt : i < ms0.length
      · rw [List.getElem?_append_left hlt] at hi
        exact ih.holds i m hi
      · rw [List.getElem?_append_right (by omega)] at hi
        cases hk : i - ms0.length with
        | zero =>
          rw [hk] at hi
          simp at hi
          subst hi
          exact ⟨[], EmptyArrayMap_holds h0, hr⟩
        | succ k => rw [hk] at hi; simp at hi
    · have cap0 : ∀ (k : Nat) (x : ArrayMap), (ms0 ++ [EmptyArrayMap])[k]? = some x → 0 < x.arr.cap →
          ms0[k]? = some x := by
        intro k x hx hcx
        by_cases hlt : k < ms0.length
        · rwa [List.getElem?_append_left hlt] at hx
        · rw [List.getElem?_append_right (by omega)] at hx
          cases hk : k - ms0.length with
          | zero =>
            rw [hk] at hx
            simp at hx
            subst hx
            simp [EmptyArrayMap] at hcx
          | succ k2 => rw [hk] at hx; simp at hx
      exact ih.apart i j m m2 (cap0 i m hi hc) (cap0 j m2 hj hc2) hij hc hc2
  | assoc i key value _ hi ha ih =>
    obtain ⟨ps, hm, hd⟩ := ih.holds i _ hi
    have hp := Assoc_frame X ha
    have hf := Assoc_fresh X ha
    rcases Assoc_cases X hm ha with ⟨habs, -, hr⟩ | ⟨t, p, hpt, -, hr⟩
    · exact ih.push hp hr (hd.append_absent habs value) hf
    · exact ih.push hp hr (hd.set_value hpt value) hf
  | @without h0 h3 ms0 m0 r0 i key _ hi hwo ih =>
    obtain ⟨ps, hm, hd⟩ := ih.holds i _ hi
    rw [Without_eq hm] at hwo
    cases hk : keptOpt key ps with
    | none => rw [hk] at hwo; simp at hwo
    | some ks =>
      rw [hk] at hwo
      simp at hwo
      obtain ⟨rfl, rfl⟩ := hwo
      have hkl := keptOpt_length_le hk
      have hlen := hm.len
      have hc : m0.arr.len ≤ m0.arr.cap := hm.1.1
      have hds : Distinct ks := List.Pairwise.sublist (keptOpt_sublist hk) hd
      exact ih.push (List.prefix_append _ _) (Without_holds _ ks _ (by omega)) hds (le_refl _)
  | @set h0 h3 ms0 m0 m3 i key value _ hi hs ih =>
    obtain ⟨ps, hm, hd⟩ := ih.holds i _ hi
    have hspec := Set_spec X.growslice hm key value
    cases hso : setOpt key value ps with
    | none =>
      rw [hso] at hspec
      simp only at hspec
      rw [hspec] at hs
      simp at hs
    | some ps2 =>
      rw [hso] at hspec
      obtain ⟨h4, m4, hS, hr, ht, hor, -⟩ := hspec
      rw [hS] at hs
      simp at hs
      obtain ⟨rfl, rfl⟩ := hs
      have hd2 := setOpt_distinct hd hso
      by_cases hc : 0 < m0.arr.cap
      · refine ih.update hi hr hd2 (Or.inl ⟨hc, ht, ?_⟩)
        rcases hor with ⟨-, e⟩ | e
        · exact Or.inl e
        · exact Or.inr e
      · exact ih.update hi hr hd2 (Or.inr (Set_frame_empty X.growslice hm (by omega) hS))
  | @add h0 h3 ms0 m0 m3 added i key value _ hi ha ih =>
    obtain ⟨ps, hm, hd⟩ := ih.holds i _ hi
    rcases Add_cases X.growslice ha with hs | ⟨rfl, rfl⟩
    · have hspec := Set_spec X.growslice hm key value
      cases hso : setOpt key value ps with
      | none =>
        rw [hso] at hspec
        simp only at hspec
        rw [hspec] at hs
        simp at hs
      | some ps2 =>
        rw [hso] at hspec
        obtain ⟨h4, m4, hS, hr, ht, hor, -⟩ := hspec
        rw [hS] at hs
        simp at hs
        obtain ⟨rfl, rfl⟩ := hs
        have hd2 := setOpt_distinct hd hso
        by_cases hc : 0 < m0.arr.cap
        · refine ih.update hi hr hd2 (Or.inl ⟨hc, ht, ?_⟩)
          rcases hor with ⟨-, e⟩ | e
          · exact Or.inl e
          · exact Or.inr e
        · exact ih.update hi hr hd2 (Or.inr (Set_frame_empty X.growslice hm (by omega) hS))
    · rw [set_same hi]
      exact ih
  | @merge h0 h3 ms0 m0 o0 r0 i j _ hi hj hmg ih =>
    obtain ⟨ps, hm, hd⟩ := ih.holds i _ hi
    obtain ⟨qs, ho, -⟩ := ih.holds j _ hj
    obtain ⟨s1, s2, s3⟩ := Merge_spec X.growslice hm ho
    by_cases c1 : o0.Count = 0
    · rw [s1 c1] at hmg
      simp at hmg
      obtain ⟨rfl, -⟩ := hmg
      simp only [c1, true_or, if_true]
      exact ih
    · by_cases c2 : m0.Count = 0
      · rw [s2 c1 c2] at hmg
        simp at hmg
        obtain ⟨rfl, -⟩ := hmg
        simp only [c2, or_true, if_true]
        exact ih
      · have s := s3 c1 c2
        simp only [c1, c2, or_self, if_false]
        cases hmo : mergeOpt ps qs with
        | none =>
          rw [hmo] at s
          simp only at s
          rw [s] at hmg
          simp at hmg
        | some rs =>
          rw [hmo] at s
          obtain ⟨h4, r4, hM, hr, hp, hf⟩ := s
          rw [hM] at hmg
          simp at hmg
          obtain ⟨rfl, rfl⟩ := hmg
          exact ih.push hp hr (mergeOpt_distinct hd hmo) hf

/-! ## The claim on the structure of array-maps -/

/-- Claim C26: every array-map struct that a program has built from `EmptyArrayMap()`
by `Assoc` (with an array-map as result), `Without`, `Set`, `Add` and `Merge` holds a
flat list of key/value pairs: its backing list is the keys and values of a list of
pairs, so of even length; no stored key `Equals` a later stored key; `Count()` is the
number of pairs; and on a sequence or an iterator of the map at pair number `n`,
`First` and `Next` find a pair whenever `IsEmpty()` is false and `HasNext()` is
true. -/
theorem C26_built_maps_are_well_formed {α : Type} [Equality α] {H : Type} (X : Extern α H)
    (h : Heap α) (ms : List ArrayMap) (hb : Built X h ms) (i : Nat) (m : ArrayMap)
    (hi : ms[i]? = some m) :
    ∃ ps : List (α × α),
      h.view m.arr = flat ps ∧ m.arr.len = 2 * ps.length ∧
      (∀ (a b : Nat) (pa pb : α × α), a < b → ps[a]? = some pa → ps[b]? = some pb →
        Equality.Equals pa.1 pb.1 = some false) ∧
      m.Count = ps.length ∧
      (∀ n, ArrayMapSeq.IsEmpty ⟨m, 2 * n⟩ = false →
        ∃ p, ps[n]? = some p ∧
          ArrayMapSeq.First h ⟨m, 2 * n⟩ = some (.vector (some p.1) (some p.2))) ∧
      (∀ n, ArrayMapIterator.HasNext ⟨m, 2 * n⟩ = true →
        ∃ p, ps[n]? = some p ∧
          ArrayMapIterator.Next h ⟨m, 2 * n⟩ = some (⟨some p.1, some p.2⟩, ⟨m, 2 * n + 2⟩)) := by
  obtain ⟨ps, hm, hd⟩ := (built_wellBuilt X hb).holds i m hi
  have hlen := hm.len
  refine ⟨ps, hm.2, hlen, ?_, hm.count, ?_, ?_⟩
  · intro a b pa pb hab ha hb2
    unfold Distinct at hd
    rw [List.pairwise_iff_getElem] at hd
    obtain ⟨la, ea⟩ := List.getElem?_eq_some_iff.1 ha
    obtain ⟨lb, eb⟩ := List.getElem?_eq_some_iff.1 hb2
    have := hd a b la lb hab
    rwa [ea, eb] at this
  · intro n hn
    have hlt : n < ps.length := by
      simp [ArrayMapSeq.IsEmpty] at hn
      omega
    have hi2 : 2 * n < m.arr.len := by omega
    refine ⟨ps[n], by simp [hlt], ?_⟩
    have hk := flat_key ps n ps[n] (by simp [hlt])
    have hv := flat_value ps n ps[n] (by simp [hlt])
    simp only [ArrayMapSeq.First, hi2, if_true, hm.index, hk, hv]
  · intro n hn
    have hlt : n < ps.length := by
      simp [ArrayMapIterator.HasNext] at hn
      omega
    refine ⟨ps[n], by simp [hlt], ?_⟩
    have hk := flat_key ps n ps[n] (by simp [hlt])
    have hv := flat_value ps n ps[n] (by simp [hlt])
    simp only [ArrayMapIterator.Next, hm.index, hk, hv]

/-- Claim C26, a worked instance: the empty array-map after `Set` of the key 1. -/
theorem C26_built_witness :
    ∃ ps : List (Obj × Obj),
      Heap.view [[some (.int 1)], [some (.int 1), some (.int 0)]]
        (⟨⟨1, 0, 2, 2⟩⟩ : ArrayMap).arr = flat ps ∧
      (⟨⟨1, 0, 2, 2⟩⟩ : ArrayMap).arr.len = 2 * ps.length :=
  have b1 : Built sampleExtern ([] : Heap Obj) ([] ++ [EmptyArrayMap]) :=
    Built.empty Built.start
  have b2 : Built sampleExtern
      ([[some (.int 1)], [some (.int 1), some (.int 0)]] : Heap Obj)
      (([] ++ [EmptyArrayMap]).set 0 ⟨⟨1, 0, 2, 2⟩⟩) :=
    Built.set 0 (.int 1) (.int 0) b1 rfl (by decide)
  (C26_built_maps_are_well_formed sampleExtern _ _ b2 0 ⟨⟨1, 0, 2, 2⟩⟩ rfl).imp
    (fun _ hps => ⟨hps.1, hps.2.1⟩)

/-! ## Looking a key up after `Set` and after `Merge` -/

theorem lookup_absent {α : Type} [Equality α] {ps : List (α × α)} {key : α}
    (ha : Absent ps key) : lookup key ps = some (false, none) := by
  have := lookup_append_absent ha []
  simpa [lookup] using this

theorem EquivOn.subset {α : Type} [Equality α] {S S2 : List α} (hE : EquivOn S)
    (hs : ∀ a ∈ S2, a ∈ S) : EquivOn S2 :=
  ⟨fun a ha b hb => hE.1 a (hs a ha) b (hs b hb),
   fun a ha => hE.2.1 a (hs a ha),
   fun a ha b hb => hE.2.2.1 a (hs a ha) b (hs b hb),
   fun a ha b hb c hc => hE.2.2.2 a (hs a ha) b (hs b hb) c (hs c hc)⟩

theorem lookup_setOpt_same {α : Type} [Equality α] {S : List α} (hE : EquivOn S) {k key : α}
    (hk : k ∈ S) (hkey : key ∈ S) (value : α) (he : Equality.Equals key k = some true) :
    ∀ {ps ps2 : List (α × α)}, (∀ p ∈ ps, p.1 ∈ S) → setOpt key value ps = some ps2 →
      lookup k ps2 = some (true, some value) := by
  obtain ⟨hans, -, hsymm, htrans⟩ := hE
  intro ps
  induction ps with
  | nil =>
    intro ps2 _ hs
    simp [setOpt] at hs
    subst hs
    simp [lookup, he]
  | cons p ps ih =>
    intro ps2 hps hs
    have hp : p.1 ∈ S := hps p (by simp)
    unfold setOpt at hs
    cases hE1 : Equality.Equals p.1 key with
    | none => rw [hE1] at hs; simp at hs
    | some b =>
      rw [hE1] at hs
      cases b with
      | true =>
        simp at hs
        subst hs
        have := htrans p.1 hp key hkey k hk hE1 he
        simp [lookup, this]
      | false =>
        simp only at hs
        cases hr : setOpt key value ps with
        | none => rw [hr] at hs; simp at hs
        | some r =>
          rw [hr] at hs
          simp at hs
          subst hs
          have hpk : Equality.Equals p.1 k = some false := by
            cases hx : Equality.Equals p.1 k with
            | none => exact absurd hx (hans p.1 hp k hk)
            | some b =>
              cases b with
              | false => rfl
              | true =>
                have h1 := hsymm key hkey k hk he
                have h2 := htrans p.1 hp k hk key hkey hx h1
                rw [h2] at hE1
                simp at hE1
          simp only [lookup, hpk]
          exact ih (fun x hx => hps x (by simp [hx])) hr

theorem lookup_setOpt_other {α : Type} [Equality α] {S : List α} (hE : EquivOn S) {k key : α}
    (hk : k ∈ S) (hkey : key ∈ S) (value : α) (he : Equality.Equals key k = some false) :
    ∀ {ps ps2 : List (α × α)}, (∀ p ∈ ps, p.1 ∈ S) → setOpt key value ps = some ps2 →
      lookup k ps2 = lookup k ps := by
  obtain ⟨hans, -, hsymm, htrans⟩ := hE
  intro ps
  induction ps with
  | nil =>
    intro ps2 _ hs
    simp [setOpt] at hs
    subst hs
    simp [lookup, he]
  | cons p ps ih =>
    intro ps2 hps hs
    have hp : p.1 ∈ S := hps p (by simp)
    unfold setOpt at hs
    cases hE1 : Equality.Equals p.1 key with
    | none => rw [hE1] at hs; simp at hs
    | some b =>
      rw [hE1] at hs
      cases b with
      | true =>
        simp at hs
        subst hs
        have hpk : Equality.Equals p.1 k = some false := by
          cases hx : Equality.Equals p.1 k with
          | none => exact absurd hx (hans p.1 hp k hk)
          | some b =>
            cases b with
            | false => rfl
            | true =>
              have h1 := hsymm p.1 hp key hkey hE1
              have h2 := htrans key hkey p.1 hp k hk h1 hx
              rw [h2] at he
              simp at he
        simp [lookup, hpk]
      | false =>
        simp only at hs
        cases hr : setOpt key value ps with
        | none => rw [hr] at hs; simp at hs
        | some r =>
          rw [hr] at hs
          simp at hs
          subst hs
          simp only [lookup]
          rw [ih (fun x hx => hps x (by simp [hx])) hr]

theorem lookup_mergeOpt {α : Type} [Equality α] {S : List α} (hE : EquivOn S) {k : α}
    (hk : k ∈ S) :
    ∀ {qs rs rs2 : List (α × α)}, (∀ p ∈ rs, p.1 ∈ S) → (∀ q ∈ qs, q.1 ∈ S) → Distinct qs →
      mergeOpt rs qs = some rs2 →
      lookup k rs2 =
        match lookup k qs with
        | some (true, v) => some (true, v)
        | _ => lookup k rs := by
  intro qs
  induction qs with
  | nil =>
    intro rs rs2 _ _ _ hm
    simp [mergeOpt] at hm
    subst hm
    simp [lookup]
  | cons q qs ih =>
    intro rs rs2 hrs hqs hd hm
    have hq : q.1 ∈ S := hqs q (by simp)
    unfold Distinct at hd
    rw [List.pairwise_cons] at hd
    unfold mergeOpt at hm
    cases hs : setOpt q.1 q.2 rs with
    | none => rw [hs] at hm; simp at hm
    | some rs1 =>
      rw [hs] at hm
      have hrs1 : ∀ p ∈ rs1, p.1 ∈ S := by
        intro p hp
        rcases setOpt_keys hs p hp with e | e
        · rw [e]; exact hq
        · simp at e
          obtain ⟨v, hv⟩ := e
          exact hrs (p.1, v) hv
      have hrec := ih hrs1 (fun x hx => hqs x (by simp [hx])) hd.2 hm
      cases hqk : Equality.Equals q.1 k with
      | none => exact absurd hqk (hE.1 q.1 hq k hk)
      | some b =>
        cases b with
        | true =>
          have habs : Absent qs k := by
            intro x hx
            have hxS : x.1 ∈ S := hqs x (by simp [hx])
            cases hxk : Equality.Equals x.1 k with
            | none => exact absurd hxk (hE.1 x.1 hxS k hk)
            | some b =>
              cases b with
              | false => rfl
              | true =>
                have h1 := hE.2.2.1 x.1 hxS k hk hxk
                have h2 := hE.2.2.2 q.1 hq k hk x.1 hxS hqk h1
                rw [hd.1 x hx] at h2
                simp at h2
          rw [lookup_absent habs] at hrec
          simp only at hrec
          rw [hrec, lookup_setOpt_same hE hk hq q.2 hqk hrs hs]
          simp [lookup, hqk]
        | false =>
          rw [hrec, lookup_setOpt_other hE hk hq q.2 hqk hrs hs]
          simp [lookup, hqk]

theorem setOpt_some {α : Type} [Equality α] {key : α} (value : α) {ps : List (α × α)}
    (ha : Answers ps key) : ∃ ps2, setOpt key value ps = some ps2 := by
  induction ps with
  | nil => exact ⟨_, rfl⟩
  | cons p ps ih =>
    have hp := ha p (by simp)
    obtain ⟨r, hr⟩ := ih (fun x hx => ha x (by simp [hx]))
    cases hE : Equality.Equals p.1 key with
    | none => exact absurd hE hp
    | some b =>
      cases b with
      | true => exact ⟨(p.1, value) :: ps, by simp [setOpt, hE]⟩
      | false => exact ⟨p :: r, by simp [setOpt, hE, hr]⟩

theorem mergeOpt_some {α : Type} [Equality α] {S : List α} (hE : EquivOn S) :
    ∀ {qs rs : List (α × α)}, (∀ p ∈ rs, p.1 ∈ S) → (∀ q ∈ qs, q.1 ∈ S) →
      ∃ rs2, mergeOpt rs qs = some rs2 := by
  intro qs
  induction qs with
  | nil => intro rs _ _; exact ⟨rs, rfl⟩
  | cons q qs ih =>
    intro rs hrs hqs
    have hq : q.1 ∈ S := hqs q (by simp)
    obtain ⟨rs1, hs⟩ := setOpt_some q.2 (fun p hp => hE.1 p.1 (hrs p hp) q.1 hq)
    have hrs1 : ∀ p ∈ rs1, p.1 ∈ S := by
      intro p hp
      rcases setOpt_keys hs p hp with e | e
      · rw [e]; exact hq
      · simp at e
        obtain ⟨v, hv⟩ := e
        exact hrs (p.1, v) hv
    obtain ⟨rs2, hm⟩ := ih hrs1 (fun x hx => hqs x (by simp [hx]))
    exact ⟨rs2, by simp [mergeOpt, hs, hm]⟩

theorem lookup_answers {α : Type} [Equality α] {ps : List (α × α)} {key : α}
    (ha : Answers ps key) :
    lookup key ps = some (false, none) ∨ ∃ v, lookup key ps = some (true, some v) := by
  rcases absent_or_firstAt ha with h1 | ⟨t, hf⟩
  · left; exact lookup_absent h1
  · right
    rcases scan_cases key ps 0 with ⟨h2, -⟩ | ⟨h2, -⟩ | ⟨t2, p, -, -, hl⟩
    · rw [scan_firstAt hf] at h2
      simp at h2
    · obtain ⟨p, hp, he, -⟩ := hf
      have hmem : p ∈ ps := List.getElem?_mem hp
      rw [h2 p hmem] at he
      simp at he
    · exact ⟨p.2, hl⟩

/-! ## The claim on merging metadata -/

/-- Claim C24, as far as the code keeps it: `WithMeta(m)` on an array-map, a symbol or
a function, `m` being a well-formed array-map, copies the struct and puts `SafeMerge(meta, m)` in the field
`meta` of the copy.  With no metadata before, that is `m`.  With the metadata `m0`
before (`Equals` being an equivalence relation on the stored keys, and no key of `m`
being stored twice), it is a well-formed array-map in which a key k, on which with
the stored keys `Equals` is an equivalence relation, looks up to the value `m` has
for k when `m` has one, and to what `m0` has for k otherwise; every backing array
that existed before is unchanged, those of `m0`, of `m` and of the struct with
them. -/
theorem C24_withMeta_merges {α : Type} [Equality α] (grow : Nat → Nat) (h : Heap α)
    (m : ArrayMap) (qs : List (α × α)) (hq : m.Holds h qs) :
    (∀ v : ArrayMapWithMeta, ArrayMap.WithMeta grow h v (some m) =
      (InHeap.SafeMerge grow h v.meta (some m)).map
        (fun r => (r.1, { v with meta := r.2 }))) ∧
    (∀ sym : Symbol ArrayMap, InHeap.Symbol.WithMeta grow h sym (some m) =
      (InHeap.SafeMerge grow h sym.meta (some m)).map
        (fun r => (r.1, { sym with meta := r.2 }))) ∧
    (∀ (mem : Cells (Fn ArrayMap)) (fn fresh : Ptr) (res : Fn ArrayMap),
      mem.deref fn = some res →
      InHeap.Fn.WithMeta grow h mem fn (some m) fresh =
        (InHeap.SafeMerge grow h res.meta (some m)).map
          (fun r => (r.1, mem.alloc fresh { res with meta := r.2 }, fresh))) ∧
    InHeap.SafeMerge grow h none (some m) = some (h, some m) ∧
    (∀ (m0 : ArrayMap) (ps : List (α × α)), m0.Holds h ps → Distinct qs →
      EquivOn (ps.map Prod.fst ++ qs.map Prod.fst) →
      ∃ h2 r rs, InHeap.SafeMerge grow h (some m0) (some m) = some (h2, some r) ∧
        r.Holds h2 rs ∧ h <+: h2 ∧
        (∀ s : Slice, s.Valid h → h2.view s = h.view s) ∧
        (∀ k, EquivOn (k :: (ps.map Prod.fst ++ qs.map Prod.fst)) →
          ArrayMap.Get h2 r k =
            match ArrayMap.Get h m k with
            | some (true, v) => some (true, v)
            | _ => ArrayMap.Get h m0 k)) := by
  refine ⟨fun v => ?_, fun sym => ?_, fun mem fn fresh res hres => ?_, rfl, ?_⟩
  · unfold ArrayMap.WithMeta
    cases hsm : InHeap.SafeMerge grow h v.meta (some m) <;> simp
  · unfold InHeap.Symbol.WithMeta
    cases hsm : InHeap.SafeMerge grow h sym.meta (some m) <;> simp
  · unfold InHeap.Fn.WithMeta
    rw [hres]
    cases hsm : InHeap.SafeMerge grow h res.meta (some m) <;> simp [hsm]
  · intro m0 ps hm0 hd hE
    have hps : ∀ p ∈ ps, p.1 ∈ ps.map Prod.fst ++ qs.map Prod.fst := fun p hp =>
      List.mem_append_left _ (List.mem_map_of_mem Prod.fst hp)
    have hqs : ∀ q ∈ qs, q.1 ∈ ps.map Prod.fst ++ qs.map Prod.fst := fun q hq2 =>
      List.mem_append_right _ (List.mem_map_of_mem Prod.fst hq2)
    obtain ⟨s1, s2, s3⟩ := Merge_spec grow hm0 hq
    have final : ∀ (h2 : Heap α) (r : ArrayMap) (rs : List (α × α)),
        ArrayMap.Merge grow h m0 m = some (h2, r) → r.Holds h2 rs → h <+: h2 →
        (∀ k, EquivOn (k :: (ps.map Prod.fst ++ qs.map Prod.fst)) →
          lookup k rs =
            match lookup k qs with
            | some (true, v) => some (true, v)
            | _ => lookup k ps) →
        ∃ h2 r rs, InHeap.SafeMerge grow h (some m0) (some m) = some (h2, some r) ∧
          r.Holds h2 rs ∧ h <+: h2 ∧
          (∀ s : Slice, s.Valid h → h2.view s = h.view s) ∧
          (∀ k, EquivOn (k :: (ps.map Prod.fst ++ qs.map Prod.fst)) →
            ArrayMap.Get h2 r k =
              match ArrayMap.Get h m k with
              | some (true, v) => some (true, v)
              | _ => ArrayMap.Get h m0 k) := by
      intro h2 r rs hM hr hp hl
      refine ⟨h2, r, rs, by simp [InHeap.SafeMerge, hM], hr, hp,
        fun s hs => Heap.view_mono hs hp, fun k hk => ?_⟩
      rw [Get_eq_lookup hr, Get_eq_lookup hq, Get_eq_lookup hm0]
      exact hl k hk
    by_cases c1 : m.Count = 0
    · have hq0 : qs = [] := by
        have := hq.count
        rw [c1] at this
        exact List.length_eq_zero.1 this.symm
      refine final h m0 ps (s1 c1) hm0 (List.prefix_refl _) (fun k _ => ?_)
      rw [hq0]
      simp [lookup]
    · by_cases c2 : m0.Count = 0
      · have hp0 : ps = [] := by
          have := hm0.count
          rw [c2] at this
          exact List.length_eq_zero.1 this.symm
        refine final h m qs (s2 c1 c2) hq (List.prefix_refl _) (fun k hk => ?_)
        have hans : Answers qs k := fun q hq2 =>
          hk.1 q.1 (List.mem_cons_of_mem _ (hqs q hq2)) k (List.mem_cons_self _ _)
        rw [hp0]
        rcases lookup_answers hans with e | ⟨v, e⟩
        · rw [e]
          simp [lookup]
        · rw [e]
      · obtain ⟨rs, hmo⟩ := mergeOpt_some hE hps hqs
        have s := s3 c1 c2
        rw [hmo] at s
        obtain ⟨h2, r, hM, hr, hp, -⟩ := s
        refine final h2 r rs hM hr hp (fun k hk => ?_)
        exact lookup_mergeOpt hk (List.mem_cons_self _ _)
          (fun p hp2 => List.mem_cons_of_mem _ (hps p hp2))
          (fun q hq2 => List.mem_cons_of_mem _ (hqs q hq2)) hd hmo

/-- Claim C24, a worked instance: the metadata with the keys 0 and 1 merged with
the metadata that has 9 for the key 1. -/
theorem C24_withMeta_witness :
    ∃ h2 r rs, InHeap.SafeMerge sampleExtern.growslice
        [flat (intPairs 0 2), flat sampleMetaPairs] (some (fullMap 0 4))
        (some (fullMap 1 2)) = some (h2, some r) ∧
      r.Holds h2 rs ∧
      ArrayMap.Get h2 r (.int 1 : Obj) = some (true, some (.int 9)) ∧
      ArrayMap.Get h2 r (.int 0 : Obj) = some (true, some (.int 0)) :=
  have hh := (C24_withMeta_merges sampleExtern.growslice
    [flat (intPairs 0 2), flat sampleMetaPairs] (fullMap 1 2) sampleMetaPairs
    (by unfold ArrayMap.Holds Slice.Valid; decide)).2.2.2.2 (fullMap 0 4) (intPairs 0 2)
    (by unfold ArrayMap.Holds Slice.Valid; decide) (by unfold Distinct; decide)
    (by unfold EquivOn; decide)
  hh.imp (fun _ h1 => h1.imp (fun _ h2 => h2.imp (fun _ h3 =>
    ⟨h3.1, h3.2.1, h3.2.2.2.2 (.int 1) (by unfold EquivOn; decide),
      h3.2.2.2.2 (.int 0) (by unfold EquivOn; decide)⟩)))

/-- Claim C24, where the code departs from it: the metadata that has 7 for the integer
1, merged with the metadata that has 9 for the big integer 1.  The second map has a
value for the key `Int(1)` (the stored big integer Equals it), namely 9, but in the
merged metadata the key `Int(1)` looks up to 7, the value of the first map: `Set` did
not find the big integer among the keys of the first map, since
`Int(1).Equals(BigInt(1))` is false. -/
theorem C24_mixed_keys_counterexample :
    (fullMap 0 2).Holds sampleMixedHeap [((.int 1 : Obj), (.int 7 : Obj))] ∧
    (fullMap 1 2).Holds sampleMixedHeap [((.bigInt ⟨4096, 1⟩ : Obj), (.int 9 : Obj))] ∧
    InHeap.SafeMerge sampleExtern.growslice sampleMixedHeap (some (fullMap 0 2))
        (some (fullMap 1 2)) =
      some (sampleMixedHeap ++ [[some (.int 1), some (.int 7)],
          [some (.int 1), some (.int 7), some (.bigInt ⟨4096, 1⟩), some (.int 9)]],
        some ⟨⟨3, 0, 4, 4⟩⟩) ∧
    ArrayMap.Get sampleMixedHeap (fullMap 1 2) (.int 1 : Obj) = some (true, some (.int 9)) ∧
    ArrayMap.Get (sampleMixedHeap ++ [[some (.int 1), some (.int 7)],
          [some (.int 1), some (.int 7), some (.bigInt ⟨4096, 1⟩), some (.int 9)]])
        ⟨⟨3, 0, 4, 4⟩⟩ (.int 1 : Obj) = some (true, some (.int 7)) :=
  ⟨by unfold ArrayMap.Holds Slice.Valid; decide, by unfold ArrayMap.Holds Slice.Valid; decide,
    by decide, by decide, by decide⟩

end Joker
